import Mathlib

/-!
Shallow embedding of the TrivialDB query-execution core
(src/src/database/database.cpp, the dbms iterator/planner/statement drivers).

Conventions used throughout:
* Machine values are modelled exactly: C++ int columns as unbounded ℤ with
  explicit range hypotheses where 32-bit limits matter; C++ float as ℚ
  (the aggregate claims only use float comparison and the literal
  numeric_limits constants, which are exact rationals, so no rounding is
  involved).
* Throwing a const char* message (the evaluator/typecast convention) is
  modelled as Option.none from the evaluation function; the message text is
  never inspected by database.cpp beyond printing it.
* Undefined behaviour of the C++ (dereferencing a null expr_node_t,
  indexing a released array, passing a null key pointer to an index
  iterator, a failed assert) is modelled as Option.none of the whole
  operation.  Functions that can hit such paths return Option.
* The external collaborators (expression evaluator, typecast, table and
  index managers) are not part of src/; they are modelled from the
  specification's interface contract in section 6, faithful to its words.
-/

namespace TrivialDB

/-- Runtime values of the expression evaluator (spec section 6: tagged union).
The NULL/absent case is carried by Option at the use sites; DATE is an epoch
int and never needed by the claims, STRING uses the Lean string order as the
model of byte-wise comparison. -/
inductive Value where
  | vint (i : ℤ)
  | vfloat (q : ℚ)
  | vstr (s : String)
  | vbool (b : Bool)
deriving DecidableEq, Repr

namespace Value

/-- Rank used to compare values of different runtime tags; the B+-tree key
order only ever compares keys of one column, so any total order is a faithful
model as long as it is compatible with equality. -/
def rank : Value → ℕ
  | vbool _ => 0
  | vint _ => 1
  | vfloat _ => 2
  | vstr _ => 3

/-- Total order on values: by tag rank, then by the payload's own order. -/
def le : Value → Value → Bool
  | vbool a, vbool b => !a || b
  | vint a, vint b => a ≤ b
  | vfloat a, vfloat b => a ≤ b
  | vstr a, vstr b => a ≤ b
  | x, y => rank x < rank y

theorem le_tot (a b : Value) : le a b = true ∨ le b a = true := by
  cases a <;> cases b <;>
    simp only [le, rank, decide_eq_true_eq] <;>
    first
      | omega
      | exact le_total _ _
      | (rename_i x y; cases x <;> cases y <;> simp)

theorem le_tra {a b c : Value} (h₁ : le a b = true) (h₂ : le b c = true) :
    le a c = true := by
  cases a <;> cases b <;> cases c <;>
    simp only [le, rank, decide_eq_true_eq] at h₁ h₂ ⊢ <;>
    first
      | omega
      | exact le_trans h₁ h₂
      | trivial
      | (rename_i x y z; cases x <;> cases y <;> cases z <;> simp_all)

theorem le_asym {a b : Value} (h₁ : le a b = true) (h₂ : le b a = true) :
    a = b := by
  cases a <;> cases b <;>
    simp only [le, rank, decide_eq_true_eq] at h₁ h₂ <;>
    first
      | omega
      | exact congrArg Value.vint (le_antisymm h₁ h₂)
      | exact congrArg Value.vfloat (le_antisymm h₁ h₂)
      | exact congrArg Value.vstr (le_antisymm h₁ h₂)
      | (rename_i x y; cases x <;> cases y <;> simp_all)

end Value

/-- Key order lifted to possibly-NULL column values (a NULL column sorts
before every real value in the B+-tree model). -/
def optLe : Option Value → Option Value → Bool
  | none, _ => true
  | some _, none => false
  | some a, some b => a.le b

theorem optLe_tot (a b : Option Value) : optLe a b = true ∨ optLe b a = true := by
  cases a <;> cases b <;> simp [optLe] <;> exact Value.le_tot _ _

theorem optLe_tra {a b c : Option Value} (h₁ : optLe a b = true)
    (h₂ : optLe b c = true) : optLe a c = true := by
  cases a <;> cases b <;> cases c <;> simp_all [optLe] <;> exact Value.le_tra h₁ h₂

theorem optLe_asym {a b : Option Value} (h₁ : optLe a b = true)
    (h₂ : optLe b a = true) : a = b := by
  cases a <;> cases b <;> simp_all [optLe] <;> exact Value.le_asym h₁ h₂

/-- A physical record: the leading 4-byte row id followed by the
schema-encoded column values; a NULL column is None (get_cached_column
returns a null pointer for it). -/
structure Row where
  rid : ℤ
  vals : List (Option Value)
deriving DecidableEq, Repr

/-- Column value of a record (what table_manager::get_cached_column yields
after the record is cached): null both for a NULL column and for an
out-of-range column id. -/
def Row.valAt (r : Row) (c : ℕ) : Option Value :=
  r.vals.getD c none

/-- Column type tags (spec section 3; DATE is an int at this level). -/
inductive ColType where
  | tInt | tFloat | tStr | tBool
deriving DecidableEq, Repr

/-- A table as seen by the core: name, schema (column names and types, the
trailing column being the implicit rowid), physical rows in record-iterator
order, and the set of column ids that carry an index. -/
structure Table where
  name : String
  colNames : List String
  colTypes : List ColType
  rows : List Row
  indexedCols : List ℕ
deriving DecidableEq, Repr

def defaultTable : Table := ⟨"", [], [], [], []⟩

/-- table_manager::lookup_column: index of the column with that name
(-1, i.e. none, when absent). -/
def Table.lookup_column (t : Table) (c : String) : Option ℕ :=
  t.colNames.findIdx? (fun n => n == c)

/-- table_manager::get_index: the index object on a column, modelled by the
column id it orders; null when the column has no index. -/
def Table.get_index (t : Table) (c : ℕ) : Option ℕ :=
  if c ∈ t.indexedCols then some c else none

/-- The lookup_table lambda of dbms::iterate_many_tables (and the
database-level name resolution): first table with the given name. -/
def lookupTable (table_list : List Table) (n : String) : Option ℕ :=
  table_list.findIdx? (fun t => t.name == n)

/-- index_manager::get_iterator_lower_bound: the B+-tree on column c yields
records in key order starting from the first key that is not below k
(spec section 3: an ordered map with lower_bound iteration; a stable
insertion sort models the key-ordered enumeration). -/
def indexScan (t : Table) (c : ℕ) (k : Value) : List Row :=
  (t.rows.insertionSort
      (fun a b => optLe (a.valAt c) (b.valAt c) = true)).dropWhile
    (fun r => !optLe (some k) (r.valAt c))

/-- Operator tags of expr_node_t needed by the claims (comparison,
connectives, aggregates).  Arithmetic tags are never inspected by
database.cpp and are omitted. -/
inductive Op where
  | opAnd | opOr | opEq | opNe | opLt | opLe | opGt | opGe
  | opSum | opAvg | opMin | opMax | opCount
deriving DecidableEq, Repr

/-- Expression AST (expr_node_t): leaves are column references or literals,
inner nodes carry an operator with two children, aggregates carry one child
(their right pointer is null in the C++). -/
inductive Expr where
  | col (table column : String)
  | lit (v : Value)
  | bin (op : Op) (l r : Expr)
  | una (op : Op) (l : Expr)
deriving DecidableEq, Repr

/-- expression::is_aggregate, per the spec contract: a selection expression
is aggregate when its operator is an aggregate tag. -/
def Expr.isAgg : Expr → Bool
  | .una op _ =>
      op = Op.opSum || op = Op.opAvg || op = Op.opMin || op = Op.opMax ||
        op = Op.opCount
  | _ => false

/-- The row cache (spec section 3): bindings from table name to the
currently cached record, most recent binding first, exactly as successive
table_manager::cache_record calls overwrite by table. -/
abbrev Cache := List (String × Row)

def cacheLookup (cache : Cache) (t : String) : Option Row :=
  (cache.find? (fun p => p.1 == t)).map (fun p => p.2)

/-- Equality test the evaluator applies for OPERATOR_EQ; total on values. -/
def valueEq (a b : Value) : Bool := a = b

/-- typecast::expr_to_bool (spec section 6): booleans coerce, anything else
throws. -/
def expr_to_bool : Value → Option Bool
  | .vbool b => some b
  | _ => none

/-- Modelled from the spec: expression::eval (the expression evaluator is a
collaborator outside src/, spec section 6).  A column reference reads the
row cache through the table's schema; comparisons are total on values; the
connectives require boolean operands; evaluating an aggregate node or an
unbound/NULL column throws (none). -/
def eval (tables : List Table) (cache : Cache) : Expr → Option Value
  | .lit v => some v
  | .col t c => do
      let ti ← lookupTable tables t
      let tbl := tables.getD ti defaultTable
      let row ← cacheLookup cache t
      let ci ← tbl.lookup_column c
      row.valAt ci
  | .una _ _ => none
  | .bin op l r => do
      let a ← eval tables cache l
      let b ← eval tables cache r
      match op with
      | .opEq => some (.vbool (valueEq a b))
      | .opNe => some (.vbool (!valueEq a b))
      | .opLt => some (.vbool (!b.le a))
      | .opLe => some (.vbool (a.le b))
      | .opGt => some (.vbool (!a.le b))
      | .opGe => some (.vbool (b.le a))
      | .opAnd => do
          let ab ← expr_to_bool a
          let bb ← expr_to_bool b
          some (.vbool (ab && bb))
      | .opOr => do
          let ab ← expr_to_bool a
          let bb ← expr_to_bool b
          some (.vbool (ab || bb))
      | _ => none

/-- typecast::expr_to_bool (expression::eval e), the combination used for
every predicate evaluation in database.cpp. -/
def evalBool (tables : List Table) (cache : Cache) (e : Expr) : Option Bool :=
  (eval tables cache e).bind expr_to_bool

/-- The argument vector handed to a consumer callback: one (table name,
record) pair per table position, spec section 4.1. -/
abbrev Tuple := List (String × Row)


/-! dbms::iterate_one_table: forward scan over the record iterator; a NULL
predicate passes every record, a predicate throw ends the scan, a false
consumer flag breaks the loop. -/

def oneTableLoop (tables : List Table) (t : Table) (cond : Option Expr)
    (cb : Row → Bool) : List Row → List Row
  | [] => []
  | r :: rest =>
    let cache : Cache := [(t.name, r)]
    match cond with
    | some c =>
      match evalBool tables cache c with
      | none => []
      | some false => oneTableLoop tables t cond cb rest
      | some true =>
        if cb r then r :: oneTableLoop tables t cond cb rest else [r]
    | none => if cb r then r :: oneTableLoop tables t cond cb rest else [r]

def iterate_one_table (tables : List Table) (t : Table) (cond : Option Expr)
    (cb : Row → Bool) : List Row :=
  oneTableLoop tables t cond cb t.rows

/-- dbms::get_join_cond: null condition yields null; a node whose two
children are column references is the join condition; a node with children
of other shapes yields null; a leaf (or an aggregate whose left child is a
column reference) dereferences a null child pointer, which is undefined. -/
def get_join_cond : Option Expr → Option (Option Expr)
  | none => some none
  | some (.bin op (.col t1 c1) (.col t2 c2)) => some (some (.bin op (.col t1 c1) (.col t2 c2)))
  | some (.bin _ _ _) => some none
  | some (.una _ (.col _ _)) => none
  | some (.una _ _) => some none
  | some (.col _ _) => none
  | some (.lit _) => none

/-- Outcome of the two-table strategy: declined (return false, caller falls
through to the enumeration path) or handled with the emitted tuples. -/
inductive Join2 where
  | declined
  | handled (emitted : List Tuple)
deriving DecidableEq, Repr

/-- Inner probe loop of dbms::iterate_two_tables_with_joint_cond_equal:
walks the probe index from the lower bound; a predicate throw aborts the
whole join (second component true), the first FALSE breaks the ordered
probe, and a false consumer flag breaks only this inner loop. -/
def join2Probe (tables : List Table) (t1 t2 : Table) (r1 : Row) (cond : Expr)
    (cb : Tuple → Bool) : List Row → List Tuple × Bool
  | [] => ([], false)
  | r2 :: rest =>
    let cache : Cache := [(t2.name, r2), (t1.name, r1)]
    match evalBool tables cache cond with
    | none => ([], true)
    | some false => ([], false)
    | some true =>
      let tup : Tuple := [(t1.name, r1), (t2.name, r2)]
      if cb tup then
        let (es, ab) := join2Probe tables t1 t2 r1 cond cb rest
        (tup :: es, ab)
      else ([tup], false)

/-- Driver loop of the two-table index join: full scan of t1; a driver row
whose cached join column is null is skipped; otherwise the probe side t2 is
searched from lower_bound of the driver's key. -/
def join2Drive (tables : List Table) (t1 t2 : Table) (cid1 cid2 : ℕ)
    (cond : Expr) (cb : Tuple → Bool) : List Row → List Tuple
  | [] => []
  | r1 :: rest =>
    match r1.valAt cid1 with
    | none => join2Drive tables t1 t2 cid1 cid2 cond cb rest
    | some k =>
      let (es, ab) := join2Probe tables t1 t2 r1 cond cb (indexScan t2 cid2 k)
      if ab then es
      else es ++ join2Drive tables t1 t2 cid1 cid2 cond cb rest

/-- dbms::iterate_two_tables_with_joint_cond_equal: find the join condition,
require EQ, orient the driver so the left column belongs to tb1, decline
when a column is missing or no side is indexed, swap so the probe side owns
the index, then drive tb1 by scan and probe tb2 by index. -/
def iterate_two_tables_with_joint_cond_equal (tables : List Table)
    (tb1 tb2 : Table) (cond : Option Expr) (cb : Tuple → Bool) :
    Option Join2 :=
  match get_join_cond cond with
  | none => none
  | some none => some .declined
  | some (some jc) =>
    match jc with
    | .bin op (.col jt1 jc1) (.col _ jc2) =>
      if op ≠ Op.opEq then some .declined
      else
        let p := if jt1 ≠ tb1.name then (tb2, tb1) else (tb1, tb2)
        let ta := p.1
        let tb := p.2
        match ta.lookup_column jc1, tb.lookup_column jc2 with
        | some cid1, some cid2 =>
          let idx1 := ta.get_index cid1
          let idx2 := tb.get_index cid2
          if idx1 = none ∧ idx2 = none then some .declined
          else
            let q := if idx2 = none then ((tb, ta), (cid2, cid1))
                     else ((ta, tb), (cid1, cid2))
            some (.handled (join2Drive tables q.1.1 q.1.2 q.2.1 q.2.2 jc cb
              q.1.1.rows))
        | _, _ => some .declined
    | _ => some .declined

/-- dbms::extract_and_cond: split the top-level AND spine into conjuncts,
left before right. -/
def extract_and_cond : Expr → List Expr
  | .bin .opAnd l r => extract_and_cond l ++ extract_and_cond r
  | e => [e]

/-- Pointwise update of an adjacency function. -/
def upd2 {α : Type} (f : ℕ → ℕ → α) (i j : ℕ) (v : α) : ℕ → ℕ → α :=
  fun a b => if a = i ∧ b = j then v else f a b

/-- Join-graph construction of dbms::iterate_many_tables (lines 337-380):
for each top-level conjunct that is an equality of two column references,
resolve both sides; a missing table or column aborts the whole iteration
(none); if neither side is indexed the conjunct contributes nothing;
otherwise an index on the right side tid2 inserts E[tid2][tid1] and
J[tid2][tid1] = c, and an index on the left side tid1 inserts E[tid1][tid2]
and J[tid1][tid2] = c. -/
def buildJoinGraph (table_list : List Table) :
    List Expr → (ℕ → ℕ → Bool) → (ℕ → ℕ → Option Expr) →
    Option ((ℕ → ℕ → Bool) × (ℕ → ℕ → Option Expr))
  | [], E, J => some (E, J)
  | c :: rest, E, J =>
    match c with
    | .bin .opEq (.col t1n c1n) (.col t2n c2n) =>
      match lookupTable table_list t1n, lookupTable table_list t2n with
      | some tid1, some tid2 =>
        let tb1 := table_list.getD tid1 defaultTable
        let tb2 := table_list.getD tid2 defaultTable
        match tb1.lookup_column c1n, tb2.lookup_column c2n with
        | some cid1, some cid2 =>
          let idx1 := tb1.get_index cid1
          let idx2 := tb2.get_index cid2
          if idx1 = none ∧ idx2 = none then buildJoinGraph table_list rest E J
          else
            let E1 := if idx2.isSome then upd2 E tid2 tid1 true else E
            let J1 := if idx2.isSome then upd2 J tid2 tid1 (some c) else J
            let E2 := if idx1.isSome then upd2 E1 tid1 tid2 true else E1
            let J2 := if idx1.isSome then upd2 J1 tid1 tid2 (some c) else J1
            buildJoinGraph table_list rest E2 J2
        | _, _ => none
      | _, _ => none
    | _ => buildJoinGraph table_list rest E J

def updMark (mark : ℕ → Bool) (i : ℕ) (v : Bool) : ℕ → Bool :=
  fun a => if a = i then v else mark a

mutual

/-- dbms::find_longest_path: depth-limited DFS.  The vertex is marked, the
current depth updates max_depth, reaching the target depth succeeds and
leaves the marks set, otherwise the neighbours are tried in ascending order
and on failure the vertex is unmarked again.  The C++ excepted_len of
INT_MAX (never reached, table counts being tiny) is modelled as none; the
returned list is the contents path[depth...] holds on a successful return.
Fuel bounds the recursion depth; one unit is spent per vertex visit, and
calls supply more fuel than there are vertices. -/
def find_longest_path (fuel : ℕ) (now depth : ℕ) (mark : ℕ → Bool)
    (E : ℕ → ℕ → Bool) (n : ℕ) (excepted : Option ℕ) (maxd : ℕ) :
    Option (Bool × (ℕ → Bool) × ℕ × List ℕ) :=
  match fuel with
  | 0 => none
  | f + 1 =>
    let mark1 := updMark mark now true
    let maxd1 := max maxd depth
    if excepted = some depth then some (true, mark1, maxd1, [now])
    else
      match flpLoop f now depth mark1 E n excepted maxd1 0 with
      | none => none
      | some (true, mark2, maxd2, seg) => some (true, mark2, maxd2, now :: seg)
      | some (false, mark2, maxd2, _) =>
        some (false, updMark mark2 now false, maxd2, [])
termination_by (fuel, 0, 0)

/-- The neighbour loop of find_longest_path, from neighbour i upward. -/
def flpLoop (fuel : ℕ) (now depth : ℕ) (mark : ℕ → Bool)
    (E : ℕ → ℕ → Bool) (n : ℕ) (excepted : Option ℕ) (maxd : ℕ) (i : ℕ) :
    Option (Bool × (ℕ → Bool) × ℕ × List ℕ) :=
  if i < n then
    if E now i && !(mark i) then
      match find_longest_path fuel i (depth + 1) mark E n excepted maxd with
      | none => none
      | some (true, mark2, maxd2, seg) => some (true, mark2, maxd2, seg)
      | some (false, mark2, maxd2, _) =>
        flpLoop fuel now depth mark2 E n excepted maxd2 (i + 1)
    else flpLoop fuel now depth mark E n excepted maxd (i + 1)
  else some (false, mark, maxd, [])
termination_by (fuel, 1, n - i)

end

/-- First planner phase (lines 385-396): for every start vertex run the DFS
with unlimited target, keeping the first start achieving the greatest
depth. -/
def planPhase1 (E : ℕ → ℕ → Bool) (n : ℕ) : Option (ℕ × ℕ) :=
  (List.range n).foldlM
    (fun (acc : ℕ × ℕ) i => do
      let r ← find_longest_path (n + 1) i 0 (fun _ => false) E n none 0
      pure (if r.2.2.1 > acc.1 then (r.2.2.1, i) else acc))
    (0, 0)

/-- Planner order selection (lines 382-411): rerun the DFS from the best
start with the exact target depth (the C++ asserts it succeeds), then
append the vertices missing from the chain in ascending order. -/
def makePath (E : ℕ → ℕ → Bool) (n : ℕ) : Option (List ℕ × ℕ) := do
  let p ← planPhase1 E n
  let r ← find_longest_path (n + 1) p.2 0 (fun _ => false) E n (some p.1) 0
  if r.1 then
    pure (r.2.2.2 ++ (List.range n).filter (fun i => !(r.2.2.2.contains i)), p.1)
  else none

/-- Iteration-variable setup (lines 413-440): for each chain position i the
join conjunct J[path[i]][path[i+1]] is oriented by comparing its left table
name with path[i]'s table; index_cid[i] is the key column on path[i+1] and
index_ref[i] the probed index on path[i].  A missing conjunct, failed column
lookup or missing index hits the C++ assert (undefined), and positions from
max_depth on carry no index. -/
def planSetup (table_list : List Table) (J : ℕ → ℕ → Option Expr)
    (path : List ℕ) (maxd : ℕ) : Option (List (Option ℕ) × List (Option ℕ)) := do
  let pairs ← (List.range path.length).mapM (fun i => do
    if i < maxd then
      let a ← path.get? i
      let b ← path.get? (i + 1)
      let ta := table_list.getD a defaultTable
      let tb := table_list.getD b defaultTable
      match (← J a b) with
      | .bin _ (.col lt lc) (.col _ rc) =>
        if lt = ta.name then do
          let cid ← tb.lookup_column rc
          let pc ← ta.lookup_column lc
          let ir ← ta.get_index pc
          pure ((some cid : Option ℕ), (some ir : Option ℕ))
        else do
          let cid ← tb.lookup_column lc
          let pc ← ta.lookup_column rc
          let ir ← ta.get_index pc
          pure ((some cid : Option ℕ), (some ir : Option ℕ))
      | _ => none
    else pure ((none : Option ℕ), (none : Option ℕ)))
  pure (pairs.map Prod.fst, pairs.map Prod.snd)

/-- dbms::iterate_many_tables_impl, full-scan branch: each record of the
table at chain index pos is bound and the next level entered; a false
continue flag from below returns immediately. -/
def implScanLoop (pos : ℕ) (nm : String)
    (go : List (Option Row) → Cache → Option (List Tuple × Bool))
    (recs : List (Option Row)) (cache : Cache) :
    List Row → Option (List Tuple × Bool)
  | [] => some ([], true)
  | r :: rest => do
    let (es, cont) ← go (recs.set pos (some r)) ((nm, r) :: cache)
    if cont then do
      let (es2, cont2) ← implScanLoop pos nm go recs cache rest
      pure (es ++ es2, cont2)
    else pure (es, false)

/-- dbms::iterate_many_tables_impl, index-probe branch: records come from
the probe index in key order; the join conjunct is evaluated after caching,
a throw stops everything, the first FALSE breaks the ordered probe. -/
def implProbeLoop (tables : List Table) (pos : ℕ) (nm : String) (conj : Expr)
    (go : List (Option Row) → Cache → Option (List Tuple × Bool))
    (recs : List (Option Row)) (cache : Cache) :
    List Row → Option (List Tuple × Bool)
  | [] => some ([], true)
  | r :: rest =>
    let cache2 : Cache := (nm, r) :: cache
    match evalBool tables cache2 conj with
    | none => some ([], false)
    | some false => some ([], true)
    | some true => do
      let (es, cont) ← go (recs.set pos (some r)) cache2
      if cont then do
        let (es2, cont2) ← implProbeLoop tables pos nm conj go recs cache rest
        pure (es ++ es2, cont2)
      else pure (es, false)

/-- The record vector handed to the consumer once every level is bound. -/
def assembleTuple (tables : List Table) (recs : List (Option Row)) :
    Option Tuple :=
  (List.zip tables recs).mapM (fun p => p.2.map (fun r => (p.1.name, r)))

/-- dbms::iterate_many_tables_impl.  now counts the levels still to bind
(the C++ now plus one); at zero the full predicate is evaluated over the
complete row cache and the consumer invoked.  A predicate throw propagates
false (stop); an unbound probe key row, a null key or a missing J entry is
undefined behaviour (none). -/
def iterate_many_tables_impl (tables : List Table)
    (J : ℕ → ℕ → Option Expr) (path : List ℕ)
    (index_cid index_ref : List (Option ℕ)) (cond : Expr)
    (cb : Tuple → Bool) :
    (now : ℕ) → List (Option Row) → Cache → Option (List Tuple × Bool)
  | 0, recs, cache =>
    (match evalBool tables cache cond with
     | none => some ([], false)
     | some false => some ([], true)
     | some true => do
        let tup ← assembleTuple tables recs
        pure ([tup], cb tup))
  | k + 1, recs, cache => do
    let pos ← path.get? k
    let t := tables.getD pos defaultTable
    match index_ref.getD k none with
    | none =>
      implScanLoop pos t.name
        (iterate_many_tables_impl tables J path index_cid index_ref cond cb k)
        recs cache t.rows
    | some idxcol => do
      let pos2 ← path.get? (k + 1)
      let drow ← recs.getD pos2 none
      let cid ← index_cid.getD k none
      let key ← drow.valAt cid
      let conj ← J pos pos2
      implProbeLoop tables pos t.name conj
        (iterate_many_tables_impl tables J path index_cid index_ref cond cb k)
        recs cache (indexScan t idxcol key)

/-- dbms::iterate_many_tables: split the conjuncts (dereferencing a null
condition is undefined), build the join graph (a resolution error returns
with nothing iterated), plan the order, set up the iteration variables and
run the nested executor from the outermost level. -/
def iterate_many_tables (table_list : List Table) (cond : Option Expr)
    (cb : Tuple → Bool) : Option (List Tuple) :=
  match cond with
  | none => none
  | some c =>
    match buildJoinGraph table_list (extract_and_cond c)
        (fun _ _ => false) (fun _ _ => none) with
    | none => some []
    | some (E, J) =>
      match makePath E table_list.length with
      | none => none
      | some (path, maxd) =>
        match planSetup table_list J path maxd with
        | none => none
        | some (index_cid, index_ref) =>
          match iterate_many_tables_impl table_list J path index_cid index_ref
              c cb path.length (List.replicate table_list.length none) [] with
          | none => none
          | some (es, _) => some es

/-- dbms::iterate: dispatch on the table count; one table scans directly,
two tables try the index join and fall through to the enumeration path when
it declines, three or more always enumerate. -/
def iterate (tables : List Table) (cond : Option Expr) (cb : Tuple → Bool) :
    Option (List Tuple) :=
  match tables with
  | [t] =>
    some ((iterate_one_table tables t cond (fun r => cb [(t.name, r)])).map
      (fun r => [(t.name, r)]))
  | [t1, t2] =>
    match iterate_two_tables_with_joint_cond_equal tables t1 t2 cond cb with
    | none => none
    | some (.handled es) => some es
    | some .declined => iterate_many_tables tables cond cb
  | ts => iterate_many_tables ts cond cb

/-! Statement drivers (dbms::select_rows, dbms::select_rows_aggregate,
dbms::insert_rows). -/

/-- What a SELECT prints below the header: a row count for the scalar path
(one CSV line per counted row plus the final row-count diagnostic), or the
single aggregate value. -/
inductive SelectOut where
  | rows (count : ℕ)
  | aggCount (n : ℕ)
  | aggFloat (q : ℚ)
  | aggInt (i : ℤ)
  | aggErr
deriving DecidableEq, Repr

/-- The runtime tag of a value (expression::eval result type). -/
def Value.tag : Value → ColType
  | .vint _ => .tInt
  | .vfloat _ => .tFloat
  | .vstr _ => .tStr
  | .vbool _ => .tBool

/-- The int member of the evaluator's value union.  Reading it for a
non-int value is a reinterpreted union access in the C++; every theorem
below restricts to genuinely numeric rows, so the placeholder 0 is never
load-bearing. -/
def Value.val_i : Value → ℤ
  | .vint i => i
  | _ => 0

/-- The float member of the union, with the same caveat as val_i. -/
def Value.val_f : Value → ℚ
  | .vfloat q => q
  | _ => 0

def INT_MAX : ℤ := 2147483647
def INT_MIN : ℤ := -2147483648

/-- std::numeric_limits of float: max is the largest finite float. -/
def FLT_MAX : ℚ := (2 ^ 24 - 1) * 2 ^ 104

/-- std::numeric_limits of float: min is the smallest positive normalised
float, not the lowest value. -/
def FLT_MIN : ℚ := 1 / 2 ^ 126

/-- The scalar SELECT consumer succeeds on a tuple when every projection
expression evaluates; the row counter advances exactly on those tuples.
The consumer's cache is the tuple itself (every listed table was cached
right before the callback). -/
def projOk (tables : List Table) (exprs : List Expr) (tup : Tuple) : Bool :=
  exprs.all (fun e => (eval tables tup e).isSome)

/-- Aggregate accumulator state: the C++ locals val_i, val_f, agg_type and
counter of select_rows_aggregate. -/
structure AggSt where
  val_i : ℤ
  val_f : ℚ
  agg_type : Option ColType
  counter : ℕ
deriving DecidableEq, Repr

/-- One consumer invocation of select_rows_aggregate (lines 838-895):
COUNT only advances the counter; otherwise the inner expression is
evaluated (a throw leaves the state untouched and stops the iteration),
agg_type becomes the value's runtime tag and the branch for the value's
type updates the matching accumulator. -/
def aggStep (tables : List Table) (op : Op) (inner : Expr) (st : AggSt)
    (tup : Tuple) : AggSt :=
  if op = Op.opCount then { st with counter := st.counter + 1 }
  else
    match eval tables tup inner with
    | none => st
    | some v =>
      let st1 := { st with agg_type := some v.tag }
      let st2 :=
        match v with
        | .vfloat q =>
          match op with
          | .opSum | .opAvg => { st1 with val_f := st1.val_f + q }
          | .opMin => if q < st1.val_f then { st1 with val_f := q } else st1
          | .opMax => if q > st1.val_f then { st1 with val_f := q } else st1
          | _ => st1
        | _ =>
          match op with
          | .opSum | .opAvg => { st1 with val_i := st1.val_i + v.val_i }
          | .opMin => if v.val_i < st1.val_i then { st1 with val_i := v.val_i } else st1
          | .opMax => if v.val_i > st1.val_i then { st1 with val_i := v.val_i } else st1
          | _ => st1
      { st2 with counter := st2.counter + 1 }

/-- dbms::select_rows_aggregate: exactly one selection expression is
supported; MIN initialises both accumulators to the numeric_limits max
values, MAX to the numeric_limits min values, everything else to zero; the
rows stream through dbms::iterate; at the end COUNT prints the counter and
the others print the accumulator selected by agg_type, AVG dividing by the
counter. -/
def select_rows_aggregate (tables : List Table) (exprs : List Expr)
    (cond : Option Expr) : Option SelectOut :=
  if exprs.length ≠ 1 then some .aggErr
  else
    match exprs.headD (.lit (.vbool true)) with
    | .una op inner =>
      let vi : ℤ := if op = Op.opMin then INT_MAX
                    else if op = Op.opMax then INT_MIN else 0
      let vf : ℚ := if op = Op.opMin then FLT_MAX
                    else if op = Op.opMax then FLT_MIN else 0
      match iterate tables cond
          (fun tup => op = Op.opCount || (eval tables tup inner).isSome) with
      | none => none
      | some es =>
        let st := es.foldl (aggStep tables op inner) ⟨vi, vf, none, 0⟩
        if op = Op.opCount then some (.aggCount st.counter)
        else
          match st.agg_type with
          | some .tFloat =>
            if op = Op.opAvg then some (.aggFloat (st.val_f / st.counter))
            else some (.aggFloat st.val_f)
          | some .tInt =>
            if op = Op.opAvg then some (.aggFloat ((st.val_i : ℚ) / st.counter))
            else some (.aggInt st.val_i)
          | _ => some .aggErr
    | _ => none

/-- dbms::select_rows: the aggregate path takes over when any selection
expression is aggregate; otherwise the iterator streams passing tuples to
the projection consumer and the count of fully projected rows is printed. -/
def select_rows (tables : List Table) (exprs : List Expr)
    (cond : Option Expr) : Option SelectOut :=
  if exprs.any Expr.isAgg then select_rows_aggregate tables exprs cond
  else
    match iterate tables cond (projOk tables exprs) with
    | none => none
    | some es => some (.rows (es.countP (projOk tables exprs)))

/-! dbms::insert_rows. -/

/-- Modelled from the spec: typecast::type_compatible, a value is storable
in a column exactly when its runtime tag matches the column type (section
6; the cast table itself is outside src/). -/
def type_compatible (ct : ColType) (v : Value) : Bool := v.tag = ct

/-- Outcomes of the table manager's temp-record writes and commits, which
live outside src/: the oracle says whether set_temp_record succeeds for a
given tuple index and column, and whether insert_record commits a given
tuple index. -/
structure InsertOracle where
  tempOk : ℕ → ℕ → Bool
  commitOk : ℕ → Bool

/-- Per-tuple inner loop of dbms::insert_rows (lines 998-1023): evaluate
each value (a throw aborts the whole statement: none), check column
compatibility (an incompatible value aborts the whole statement), write
into the temp record (a failed write clears succ and breaks). -/
def insertTuple (oracle : InsertOracle) (tb : Table) (j : ℕ) :
    List (ℕ × Expr) → List (Option Value) → Option (Bool × List (Option Value))
  | [], temp => some (true, temp)
  | (cid, e) :: rest, temp =>
    match eval [tb] [] e with
    | none => none
    | some v =>
      if !type_compatible (tb.colTypes.getD cid .tInt) v then none
      else if !oracle.tempOk j cid then some (false, temp)
      else insertTuple oracle tb j rest (temp.set cid (some v))

/-- Outer loop of dbms::insert_rows (lines 985-1028): a tuple of the wrong
arity prints a diagnostic and is skipped without touching either counter;
otherwise the temp record is assembled and committed, succ counting into
count_succ and everything else into count_fail. -/
def insertLoop (oracle : InsertOracle) (tb : Table) (cols_id : List ℕ) :
    List (List Expr) → ℕ → ℕ × ℕ × List Row → Option (ℕ × ℕ × List Row)
  | [], _, acc => some acc
  | exprs :: rest, j, (succ, fail, newRows) =>
    if exprs.length ≠ cols_id.length then
      insertLoop oracle tb cols_id rest (j + 1) (succ, fail, newRows)
    else
      match insertTuple oracle tb j (cols_id.zip exprs)
          (List.replicate tb.colNames.length none) with
      | none => none
      | some (ok, temp) =>
        let committed := ok && oracle.commitOk j
        insertLoop oracle tb cols_id rest (j + 1)
          (if committed then
            (succ + 1, fail, newRows ++ [⟨(j : ℤ) + 1, temp⟩])
           else (succ, fail + 1, newRows))

/-- dbms::insert_rows: resolve the column list (all but the trailing rowid
when none is given; an unknown explicit column aborts), then process every
value tuple; the result is the success and failure counts of the final
summary line and the table with the committed rows appended.  none models
the statement aborting before the summary. -/
def insert_rows (oracle : InsertOracle) (tb : Table)
    (columns : Option (List String)) (valuesList : List (List Expr)) :
    Option (ℕ × ℕ × Table) := do
  let cols_id ← match columns with
    | none => some (List.range (tb.colNames.length - 1))
    | some cs => cs.mapM tb.lookup_column
  let (succ, fail, newRows) ← insertLoop oracle tb cols_id valuesList 0 (0, 0, [])
  pure (succ, fail, { tb with rows := tb.rows ++ newRows })

/-! Specification-side definitions: the Cartesian product semantics the
spec states SELECT against, and well-formedness of the stored data. -/

/-- All combinations of one row per listed table, in table-list order: the
Cartesian product of the inputs. -/
def productTuples : List Table → List Tuple
  | [] => [[]]
  | t :: ts =>
    t.rows.flatMap (fun r => (productTuples ts).map (fun tup => (t.name, r) :: tup))

/-- The predicate passes a tuple: TRUE under a NULL predicate, else the
evaluation must come back TRUE (spec section 4.1). -/
def passes (tables : List Table) (cond : Option Expr) (tup : Tuple) : Bool :=
  match cond with
  | none => true
  | some c => evalBool tables tup c = some true

/-- Number of tuples of the Cartesian product the predicate passes. -/
def passingCount (tables : List Table) (cond : Option Expr) : ℕ :=
  (productTuples tables).countP (passes tables cond)

/-- Stored data is well formed: every record carries exactly the schema's
column count with no NULL column, and every index sits on a schema column.
(The engine's collaborators maintain both; NULL join keys are the separate
subject of claim C10.) -/
def Table.wf (t : Table) : Prop :=
  (∀ r ∈ t.rows, r.vals.length = t.colNames.length ∧ ∀ v ∈ r.vals, v.isSome) ∧
    (∀ c ∈ t.indexedCols, c < t.colNames.length)

/-- A statement's table list is usable when every table is well formed and
the names are pairwise distinct (FROM lists name distinct tables). -/
def TablesWf (tables : List Table) : Prop :=
  (∀ t ∈ tables, t.wf) ∧ (tables.map Table.name).Nodup

/-- Table names a condition mentions (evaluation reads the cache only at
these names). -/
def Expr.names : Expr → List String
  | .col t _ => [t]
  | .lit _ => []
  | .bin _ l r => l.names ++ r.names
  | .una _ l => l.names

/-- Row bound for a table name, read off the positional record vector. -/
def recsLookup (tables : List Table) (recs : List (Option Row))
    (nm : String) : Option Row :=
  match lookupTable tables nm with
  | some p => recs.getD p none
  | none => none

/-- All ways to bind the first k chain positions, innermost position
first: the extensions the nested executor is meant to enumerate. -/
def extTuples (tables : List Table) (path : List ℕ) :
    ℕ → List (Option Row) → List (List (Option Row))
  | 0, recs => [recs]
  | j + 1, recs =>
    ((tables.getD (path.getD j 0) defaultTable).rows).flatMap
      (fun r => extTuples tables path j (recs.set (path.getD j 0) (some r)))

/-- The consumer tuple of a fully bound record vector. -/
def tupleOfD (tables : List Table) (recs : List (Option Row)) : Tuple :=
  (assembleTuple tables recs).getD []

/-- Canonical per-table view of a consumer tuple: the row bound to each
listed table, read by name. -/
def bindingOf (tables : List Table) (tup : Tuple) : List (Option Row) :=
  tables.map (fun t => cacheLookup tup t.name)

/-- extTuples with the bound positions as an explicit list, outermost
first. -/
def extT (tables : List Table) :
    List ℕ → List (Option Row) → List (List (Option Row))
  | [], recs => [recs]
  | p :: ps, recs =>
    (tables.getD p defaultTable).rows.flatMap
      (fun r => extT tables ps (recs.set p (some r)))

/-- The record vector a product tuple binds, position by position. -/
def toRecs (tup : Tuple) : List (Option Row) := tup.map (fun p => some p.2)

/-- Write a product tuple's rows into the record vector from position k
upward. -/
def setFrom : List (Option Row) → ℕ → Tuple → List (Option Row)
  | recs, _, [] => recs
  | recs, k, p :: tup => setFrom (recs.set k (some p.2)) (k + 1) tup

/-- A simple index-connected chain of k+1 in-range vertices, none of them
marked, starting at now: what the planner's DFS searches for. -/
def Achieves (E : ℕ → ℕ → Bool) (n : ℕ) (mark : ℕ → Bool) (now k : ℕ) : Prop :=
  ∃ seg : List ℕ, seg.head? = some now ∧ seg.length = k + 1 ∧ seg.Nodup ∧
    (∀ v ∈ seg, mark v = false ∧ v < n) ∧ seg.Chain' (fun a b => E a b = true)

/-- A conjunct as the graph construction resolves it: an equality of two
column references whose tables and columns all resolve. -/
def ConjResolved (tables : List Table) (c : Expr)
    (tid1 cid1 tid2 cid2 : ℕ) : Prop :=
  ∃ t1n c1n t2n c2n, c = .bin .opEq (.col t1n c1n) (.col t2n c2n) ∧
    lookupTable tables t1n = some tid1 ∧ lookupTable tables t2n = some tid2 ∧
    (tables.getD tid1 defaultTable).lookup_column c1n = some cid1 ∧
    (tables.getD tid2 defaultTable).lookup_column c2n = some cid2

/-- Number of vertices the DFS may still visit. -/
def unmarkedCount (n : ℕ) (mark : ℕ → Bool) : ℕ :=
  (List.range n).countP (fun i => !mark i)

/-- An iteration variable pair as lines 419-440 set it up: the conjunct
stored for the probed table a and its driver b resolves to a key column cid
on b and a probed column ip on a, in one of the two orientations. -/
def ProbeShape (tables : List Table) (a b ip cid : ℕ) (conj : Expr) : Prop :=
  ∃ nd cd np cp,
    lookupTable tables nd = some b ∧ lookupTable tables np = some a ∧
    (tables.getD b defaultTable).lookup_column cd = some cid ∧
    (tables.getD a defaultTable).lookup_column cp = some ip ∧
    (conj = .bin .opEq (.col nd cd) (.col np cp) ∨
     conj = .bin .opEq (.col np cp) (.col nd cd))

/-- The invariant the executor relies on: wherever index_ref is set, the
next chain position exists, index_cid is set, and the stored conjunct (a
top-level conjunct of the predicate) probes path k by its indexed column
keyed by path k+1's column. -/
def SetupInv (tables : List Table) (cond : Expr) (J : ℕ → ℕ → Option Expr)
    (path : List ℕ) (index_cid index_ref : List (Option ℕ)) : Prop :=
  ∀ k ip, index_ref.getD k none = some ip →
    k + 1 < path.length ∧
    ∃ cid conj, index_cid.getD k none = some cid ∧
      J (path.getD k 0) (path.getD (k + 1) 0) = some conj ∧
      conj ∈ extract_and_cond cond ∧
      ProbeShape tables (path.getD k 0) (path.getD (k + 1) 0) ip cid conj

/-- What a stored join condition J[a][b] guarantees: an equality conjunct
(drawn from the conjunct list) between a column of table b (the driver,
positioned first) and an indexed column of table a (the probed side). -/
def JShape (tables : List Table) (cs : List Expr)
    (J : ℕ → ℕ → Option Expr) : Prop :=
  ∀ a b c, J a b = some c → ∃ nd cd np cp idd ip, c ∈ cs ∧
    lookupTable tables nd = some b ∧ lookupTable tables np = some a ∧
    (tables.getD b defaultTable).lookup_column cd = some idd ∧
    (tables.getD a defaultTable).lookup_column cp = some ip ∧
    ip ∈ (tables.getD a defaultTable).indexedCols ∧
    (c = .bin .opEq (.col nd cd) (.col np cp) ∨
     c = .bin .opEq (.col np cp) (.col nd cd))

/-! ### Concrete fixtures used by witnesses and counterexamples -/

/-- One-column int table row (value also mirrored into the rowid column). -/
def exRowT (i : ℤ) : Row := ⟨i, [some (.vint i), some (.vint i)]⟩

/-- T(a:int) with rows 1..5. -/
def exT : Table :=
  ⟨"T", ["a", "__rowid__"], [.tInt, .tInt],
    [exRowT 1, exRowT 2, exRowT 3, exRowT 4, exRowT 5], []⟩

def exRowXY (x y : ℤ) : Row :=
  ⟨x, [some (.vint x), some (.vint y), some (.vint x)]⟩

/-- A(x:int, y:int) with rows (1,10), (2,20), no index. -/
def exA : Table :=
  ⟨"A", ["x", "y", "__rowid__"], [.tInt, .tInt, .tInt],
    [exRowXY 1 10, exRowXY 2 20], []⟩

/-- A with an index on x. -/
def exAi : Table :=
  ⟨"A", ["x", "y", "__rowid__"], [.tInt, .tInt, .tInt],
    [exRowXY 1 10, exRowXY 2 20], [0]⟩

/-- B(x:int, z:int) with rows (1,100), (2,200), (3,300) and an index on x. -/
def exB : Table :=
  ⟨"B", ["x", "z", "__rowid__"], [.tInt, .tInt, .tInt],
    [exRowXY 1 100, exRowXY 2 200, exRowXY 3 300], [0]⟩

/-- B without any index. -/
def exB2 : Table :=
  ⟨"B", ["x", "z", "__rowid__"], [.tInt, .tInt, .tInt],
    [exRowXY 1 100, exRowXY 2 200, exRowXY 3 300], []⟩

/-- The join predicate A.x = B.x. -/
def exCondJoin : Expr := .bin .opEq (.col "A" "x") (.col "B" "x")

/-- The predicate T.a > 2. -/
def exCondGT : Expr := .bin .opGt (.col "T" "a") (.lit (.vint 2))

/-- F(v:float) with the single row v = -1.0. -/
def exF : Table :=
  ⟨"F", ["v", "__rowid__"], [.tFloat, .tInt],
    [⟨1, [some (.vfloat (-1)), some (.vint 1)]⟩], []⟩

/-- M(v) with an int row then a float row. -/
def exM : Table :=
  ⟨"M", ["v", "__rowid__"], [.tInt, .tInt],
    [⟨1, [some (.vint 1), some (.vint 1)]⟩,
     ⟨2, [some (.vfloat (5 / 2)), some (.vint 2)]⟩], []⟩

/-- A collaborator that always succeeds at temp writes and commits. -/
def exOracle : InsertOracle := ⟨fun _ _ => true, fun _ => true⟩

/-- A row of A whose join column x is NULL. -/
def exRowNull : Row := ⟨9, [none, some (.vint 90), some (.vint 9)]⟩

/-! ### Name and column resolution lemmas -/

theorem lookup_column_lt {t : Table} {c : String} {i : ℕ}
    (h : t.lookup_column c = some i) : i < t.colNames.length := by
  rw [Table.lookup_column, List.findIdx?_eq_some_iff_getElem] at h
  exact h.1

theorem lookupTable_lt {tables : List Table} {nm : String} {p : ℕ}
    (h : lookupTable tables nm = some p) : p < tables.length := by
  rw [lookupTable, List.findIdx?_eq_some_iff_getElem] at h
  exact h.1

theorem lookupTable_name_eq {tables : List Table} {nm : String} {p : ℕ}
    (h : lookupTable tables nm = some p) :
    (tables.getD p defaultTable).name = nm := by
  rw [lookupTable, List.findIdx?_eq_some_iff_getElem] at h
  obtain ⟨hlt, hp, -⟩ := h
  rw [List.getD_eq_getElem?_getD, List.getElem?_eq_getElem hlt]
  simpa using hp

theorem lookupTable_self {tables : List Table}
    (hn : (tables.map Table.name).Nodup) {p : ℕ} (hp : p < tables.length) :
    lookupTable tables (tables.getD p defaultTable).name = some p := by
  rw [lookupTable, List.findIdx?_eq_some_iff_getElem]
  refine ⟨hp, ?_, ?_⟩
  · simp [List.getD_eq_getElem?_getD, List.getElem?_eq_getElem hp]
  · intro j hj
    have hjlt : j < tables.length := Nat.lt_trans hj hp
    have hne := List.nodup_iff_getElem?_ne_getElem?.mp hn j p hj (by simpa using hp)
    rw [List.getElem?_map, List.getElem?_map, List.getElem?_eq_getElem hjlt,
      List.getElem?_eq_getElem hp] at hne
    have hne2 : tables[j].name ≠ tables[p].name := by
      intro hc
      exact hne (by simp [hc])
    simp [List.getD_eq_getElem?_getD, List.getElem?_eq_getElem hp, hne2]

/-- eval reads the cache only at the names the expression mentions. -/
theorem eval_congr {tables : List Table} {c1 c2 : Cache} (e : Expr)
    (h : ∀ nm ∈ e.names, cacheLookup c1 nm = cacheLookup c2 nm) :
    eval tables c1 e = eval tables c2 e := by
  induction e with
  | col t c => simp only [eval]; rw [h t (by simp [Expr.names])]
  | lit v => rfl
  | una op l ih => rfl
  | bin op l r ihl ihr =>
    have hl : eval tables c1 l = eval tables c2 l :=
      ihl (fun nm hm => h nm (by simp [Expr.names, hm]))
    have hr : eval tables c1 r = eval tables c2 r :=
      ihr (fun nm hm => h nm (by simp [Expr.names, hm]))
    simp only [eval, hl, hr]

theorem evalBool_congr {tables : List Table} {c1 c2 : Cache} (e : Expr)
    (h : ∀ nm ∈ e.names, cacheLookup c1 nm = cacheLookup c2 nm) :
    evalBool tables c1 e = evalBool tables c2 e := by
  simp only [evalBool, eval_congr e h]

/-- Inverting a TRUE evaluation of an AND node. -/
theorem evalBool_and_true {tables : List Table} {cache : Cache} {l r : Expr}
    (ht : evalBool tables cache (.bin .opAnd l r) = some true) :
    evalBool tables cache l = some true ∧ evalBool tables cache r = some true := by
  cases ha : eval tables cache l with
  | none => simp [evalBool, eval, ha] at ht
  | some a =>
    cases hb : eval tables cache r with
    | none => simp [evalBool, eval, ha, hb] at ht
    | some b =>
      cases hab : expr_to_bool a with
      | none => simp [evalBool, eval, ha, hb, hab] at ht
      | some ab =>
        cases hbb : expr_to_bool b with
        | none => simp [evalBool, eval, ha, hb, hab, hbb] at ht
        | some bb =>
          have hv : (ab && bb) = true := by
            simp only [evalBool, eval, ha, hb, Option.bind_eq_bind,
              Option.some_bind] at ht
            rw [hab] at ht
            simp only [Option.some_bind] at ht
            rw [hbb] at ht
            simpa [expr_to_bool] using ht
          rw [Bool.and_eq_true] at hv
          constructor
          · simp [evalBool, ha, hab, hv.1]
          · simp [evalBool, hb, hbb, hv.2]

/-- A TRUE conjunction makes every top-level conjunct TRUE. -/
theorem evalBool_conjunct {tables : List Table} {cache : Cache} :
    ∀ {c : Expr}, ∀ c' ∈ extract_and_cond c,
    evalBool tables cache c = some true → evalBool tables cache c' = some true := by
  intro c
  induction c with
  | col t cn => intro c' hm ht; simp [extract_and_cond] at hm; subst hm; exact ht
  | lit v => intro c' hm ht; simp [extract_and_cond] at hm; subst hm; exact ht
  | una op l ih => intro c' hm ht; simp [extract_and_cond] at hm; subst hm; exact ht
  | bin op l r ihl ihr =>
    intro c' hm ht
    by_cases hop : op = Op.opAnd
    · subst hop
      simp only [extract_and_cond, List.mem_append] at hm
      obtain ⟨htl, htr⟩ := evalBool_and_true ht
      rcases hm with hm | hm
      · exact ihl c' hm htl
      · exact ihr c' hm htr
    · have hstep : extract_and_cond (.bin op l r) = [.bin op l r] := by
        cases op <;> simp_all [extract_and_cond]
      rw [hstep] at hm
      simp at hm
      subst hm
      exact ht

/-- A throwing top-level conjunct makes the whole conjunction throw. -/
theorem eval_conjunct_err {tables : List Table} {cache : Cache} :
    ∀ {c : Expr}, ∀ c' ∈ extract_and_cond c,
    eval tables cache c' = none → eval tables cache c = none := by
  intro c
  induction c with
  | col t cn => intro c' hm he; simp [extract_and_cond] at hm; subst hm; exact he
  | lit v => intro c' hm he; simp [extract_and_cond] at hm; subst hm; exact he
  | una op l ih => intro c' hm he; simp [extract_and_cond] at hm; subst hm; exact he
  | bin op l r ihl ihr =>
    intro c' hm he
    by_cases hop : op = Op.opAnd
    · subst hop
      simp only [extract_and_cond, List.mem_append] at hm
      rcases hm with hm | hm
      · have := ihl c' hm he
        simp [eval, this]
      · have := ihr c' hm he
        cases hl : eval tables cache l <;> simp [eval, hl, this]
    · have hstep : extract_and_cond (.bin op l r) = [.bin op l r] := by
        cases op <;> simp_all [extract_and_cond]
      rw [hstep] at hm
      simp at hm
      subst hm
      exact he

/-! ### Ordered-probe lemmas: the equality early-stop on an index scan -/

theorem optLe_refl (a : Option Value) : optLe a a = true := by
  rcases optLe_tot a a with h | h <;> exact h

/-- In a key-sorted list whose keys all sit at or above k, the prefix of
exactly-k keys is the whole set of k-keyed rows: stopping an ordered probe
at the first diverging key loses nothing. -/
theorem takeWhile_eq_filter_of_ge {c : ℕ} {k : Value} :
    ∀ l : List Row,
      l.Pairwise (fun a b => optLe (a.valAt c) (b.valAt c) = true) →
      (∀ r ∈ l, optLe (some k) (r.valAt c) = true) →
      l.takeWhile (fun r => decide (r.valAt c = some k)) =
        l.filter (fun r => decide (r.valAt c = some k)) := by
  intro l
  induction l with
  | nil => intro _ _; rfl
  | cons x xs ih =>
    intro hp hge
    rw [List.pairwise_cons] at hp
    by_cases hx : x.valAt c = some k
    · have h1 := ih hp.2 (fun r hr => hge r (List.mem_cons_of_mem x hr))
      simp [List.takeWhile_cons, List.filter_cons, hx, h1]
    · have hfil : xs.filter (fun r => decide (r.valAt c = some k)) = [] := by
        rw [List.filter_eq_nil_iff]
        intro y hy
        simp only [decide_eq_true_eq]
        intro hyk
        have h1 : optLe (x.valAt c) (y.valAt c) = true := hp.1 y hy
        have h2 : optLe (some k) (x.valAt c) = true := hge x (by simp)
        rw [hyk] at h1
        exact hx (optLe_asym h1 h2)
      simp [List.takeWhile_cons, List.filter_cons, hx, hfil]

/-- Combining lower_bound with the equality stop: on a sorted list this
selects exactly the k-keyed rows. -/
theorem dropWhile_takeWhile_filter {c : ℕ} {k : Value} :
    ∀ l : List Row,
      l.Pairwise (fun a b => optLe (a.valAt c) (b.valAt c) = true) →
      ((l.dropWhile (fun r => !optLe (some k) (r.valAt c))).takeWhile
          (fun r => decide (r.valAt c = some k))) =
        l.filter (fun r => decide (r.valAt c = some k)) := by
  intro l
  induction l with
  | nil => intro _; rfl
  | cons x xs ih =>
    intro hp
    rw [List.pairwise_cons] at hp
    by_cases hk : optLe (some k) (x.valAt c) = true
    · have hstop : (x :: xs).dropWhile (fun r => !optLe (some k) (r.valAt c)) =
          x :: xs := by
        rw [List.dropWhile_cons]
        simp [hk]
      rw [hstop]
      exact takeWhile_eq_filter_of_ge (x :: xs) (List.pairwise_cons.mpr hp)
        (by
          intro r hr
          rcases List.mem_cons.mp hr with h | h
          · exact h ▸ hk
          · exact optLe_tra hk (hp.1 r h))
    · rw [Bool.not_eq_true] at hk
      have hgo : (x :: xs).dropWhile (fun r => !optLe (some k) (r.valAt c)) =
          xs.dropWhile (fun r => !optLe (some k) (r.valAt c)) := by
        rw [List.dropWhile_cons]
        simp [hk]
      rw [hgo, ih hp.2, List.filter_cons]
      have hx : ¬ (x.valAt c = some k) := by
        intro hc
        rw [hc, optLe_refl] at hk
        exact Bool.noConfusion hk
      simp [hx]

/-- The k-prefix of a lower_bound index scan is, up to order, the set of
k-keyed rows of the table. -/
theorem indexScan_take_perm_filter (t : Table) (c : ℕ) (k : Value) :
    ((indexScan t c k).takeWhile (fun r => decide (r.valAt c = some k))).Perm
      (t.rows.filter (fun r => decide (r.valAt c = some k))) := by
  haveI : IsTotal Row (fun a b => optLe (a.valAt c) (b.valAt c) = true) :=
    ⟨fun a b => optLe_tot (a.valAt c) (b.valAt c)⟩
  haveI : IsTrans Row (fun a b => optLe (a.valAt c) (b.valAt c) = true) :=
    ⟨fun _ _ _ h1 h2 => optLe_tra h1 h2⟩
  have hsorted : (t.rows.insertionSort
      (fun a b => optLe (a.valAt c) (b.valAt c) = true)).Pairwise
      (fun a b => optLe (a.valAt c) (b.valAt c) = true) :=
    List.sorted_insertionSort _ t.rows
  have hperm := List.perm_insertionSort
    (fun a b => optLe (a.valAt c) (b.valAt c) = true) t.rows
  rw [indexScan, dropWhile_takeWhile_filter _ hsorted]
  exact List.Perm.filter _ hperm

/-! ### The single-table iterator -/

/-- When the predicate never throws and the consumer accepts every passing
row, the single-table scan delivers exactly the passing rows, in record
order. -/
theorem oneTableLoop_filter {tables : List Table} {t : Table}
    {cond : Option Expr} {cb : Row → Bool} :
    ∀ rows : List Row,
      (∀ r ∈ rows, ∀ c, cond = some c →
        (evalBool tables [(t.name, r)] c).isSome) →
      (∀ r ∈ rows, passes tables cond [(t.name, r)] = true → cb r = true) →
      oneTableLoop tables t cond cb rows =
        rows.filter (fun r => passes tables cond [(t.name, r)]) := by
  intro rows
  induction rows with
  | nil => intro _ _; cases cond <;> rfl
  | cons r rest ih =>
    intro hok hcb
    have ihr := ih (fun x hx => hok x (List.mem_cons_of_mem r hx))
      (fun x hx => hcb x (List.mem_cons_of_mem r hx))
    cases hc : cond with
    | none =>
      rw [oneTableLoop]
      have hcbr := hcb r (by simp) (by simp [passes, hc])
      rw [hcbr]
      simp only [if_pos rfl]
      rw [hc] at ihr
      rw [ihr]
      simp [passes]
    | some c =>
      subst hc
      rw [oneTableLoop]
      cases he : evalBool tables [(t.name, r)] c with
      | none =>
        have := hok r (by simp) c rfl
        rw [he] at this
        simp at this
      | some b =>
        cases b with
        | false =>
          rw [ihr]
          simp [passes, List.filter_cons, he]
        | true =>
          have hcbr := hcb r (by simp) (by simp [passes, he])
          rw [hcbr]
          simp only [if_pos rfl]
          rw [ihr]
          simp [passes, List.filter_cons, he]

/-! ### Cache and column-reference evaluation lemmas -/

theorem cacheLookup_cons_self (nm : String) (r : Row) (cache : Cache) :
    cacheLookup ((nm, r) :: cache) nm = some r := by
  simp [cacheLookup]

theorem cacheLookup_cons_ne {nm nm' : String} (h : nm ≠ nm') (r : Row)
    (cache : Cache) :
    cacheLookup ((nm, r) :: cache) nm' = cacheLookup cache nm' := by
  simp [cacheLookup, List.find?_cons_of_neg, h]

theorem eval_col_some {tables : List Table} {cache : Cache} {nm cn : String}
    {p : ℕ} {row : Row} {ci : ℕ}
    (hlt : lookupTable tables nm = some p)
    (hcache : cacheLookup cache nm = some row)
    (hci : (tables.getD p defaultTable).lookup_column cn = some ci) :
    eval tables cache (.col nm cn) = row.valAt ci := by
  rw [List.getD_eq_getElem?_getD] at hci
  simp [eval, hlt, hcache, hci]

/-- The equality join conjunct evaluates to the comparison of the two
cached column values, and never throws, once both references resolve. -/
theorem evalBool_eq_cols {tables : List Table} {cache : Cache}
    {nA cA nB cB : String} {pA pB : ℕ} {rA rB : Row} {iA iB : ℕ} {vA vB : Value}
    (hA : lookupTable tables nA = some pA)
    (hcA : cacheLookup cache nA = some rA)
    (hiA : (tables.getD pA defaultTable).lookup_column cA = some iA)
    (hvA : rA.valAt iA = some vA)
    (hB : lookupTable tables nB = some pB)
    (hcB : cacheLookup cache nB = some rB)
    (hiB : (tables.getD pB defaultTable).lookup_column cB = some iB)
    (hvB : rB.valAt iB = some vB) :
    evalBool tables cache (.bin .opEq (.col nA cA) (.col nB cB)) =
      some (decide (vA = vB)) := by
  have eA : eval tables cache (.col nA cA) = some vA := by
    rw [eval_col_some hA hcA hiA, hvA]
  have eB : eval tables cache (.col nB cB) = some vB := by
    rw [eval_col_some hB hcB hiB, hvB]
  rw [evalBool,
    show eval tables cache (.bin .opEq (.col nA cA) (.col nB cB)) =
      ((eval tables cache (.col nA cA)).bind fun a =>
        (eval tables cache (.col nB cB)).bind fun b =>
          some (.vbool (valueEq a b))) from rfl,
    eA, eB]
  simp [valueEq, expr_to_bool]

/-! ### Two-table index join -/

/-- The probe loop under a throw-free predicate that computes eqk: it
consumes exactly the eqk-prefix and emits one tuple per consumed row
(consumer accepting each). -/
theorem join2Probe_spec {tables : List Table} {t1 t2 : Table} {r1 : Row}
    {cond : Expr} {cb : Tuple → Bool} (eqk : Row → Bool) :
    ∀ L : List Row,
      (∀ r ∈ L, evalBool tables [(t2.name, r), (t1.name, r1)] cond =
        some (eqk r)) →
      (∀ r ∈ L, eqk r = true → cb [(t1.name, r1), (t2.name, r)] = true) →
      join2Probe tables t1 t2 r1 cond cb L =
        ((L.takeWhile eqk).map (fun r => [(t1.name, r1), (t2.name, r)]), false) := by
  intro L
  induction L with
  | nil => intro _ _; rfl
  | cons r rest ih =>
    intro heval hcb
    have her := heval r (by simp)
    cases hk : eqk r with
    | false =>
      rw [hk] at her
      simp [join2Probe, her, List.takeWhile_cons, hk]
    | true =>
      rw [hk] at her
      have hcbr := hcb r (by simp) hk
      have ihr := ih (fun x hx => heval x (List.mem_cons_of_mem r hx))
        (fun x hx hk2 => hcb x (List.mem_cons_of_mem r hx) hk2)
      simp [join2Probe, her, hcbr, ihr, List.takeWhile_cons, hk]

/-- Every tuple the probe loop emits pairs the driver row with a probe
record, in driver-probe order. -/
theorem join2Probe_shape {tables : List Table} {t1 t2 : Table} {r1 : Row}
    {cond : Expr} {cb : Tuple → Bool} :
    ∀ L : List Row, ∀ tup ∈ (join2Probe tables t1 t2 r1 cond cb L).1,
      ∃ r2 ∈ L, tup = [(t1.name, r1), (t2.name, r2)] := by
  intro L
  induction L with
  | nil => intro tup h; simp [join2Probe] at h
  | cons r rest ih =>
    intro tup h
    rcases hp : join2Probe tables t1 t2 r1 cond cb rest with ⟨es, ab⟩
    rcases he : evalBool tables [(t2.name, r), (t1.name, r1)] cond with _ | b
    · simp [join2Probe, he] at h
    · cases b with
      | false => simp [join2Probe, he] at h
      | true =>
        by_cases hcb : cb [(t1.name, r1), (t2.name, r)] = true
        · simp [join2Probe, he, hp, hcb] at h
          rcases h with h | h
          · exact ⟨r, by simp, h⟩
          · obtain ⟨r2, hr2, htup⟩ := ih tup (by rw [hp]; exact h)
            exact ⟨r2, List.mem_cons_of_mem r hr2, htup⟩
        · simp [join2Probe, he, hp, hcb] at h
          exact ⟨r, by simp, h⟩

/-- C10 part one: a driver row with a null cached join key contributes
nothing, and the scan proceeds with the remaining driver rows. -/
theorem join2Drive_skip_null {tables : List Table} {t1 t2 : Table}
    {cid1 cid2 : ℕ} {cond : Expr} {cb : Tuple → Bool} :
    ∀ L1 L2 : List Row, (∀ r ∈ L1, r.valAt cid1 = none) →
      join2Drive tables t1 t2 cid1 cid2 cond cb (L1 ++ L2) =
        join2Drive tables t1 t2 cid1 cid2 cond cb L2 := by
  intro L1
  induction L1 with
  | nil => intro L2 _; rfl
  | cons r rest ih =>
    intro L2 hnull
    rw [List.cons_append, join2Drive, hnull r (by simp)]
    exact ih L2 (fun x hx => hnull x (List.mem_cons_of_mem r hx))

/-- C10 part two: every emitted combination carries a driver row whose
cached join key is present. -/
theorem join2Drive_key_present {tables : List Table} {t1 t2 : Table}
    {cid1 cid2 : ℕ} {cond : Expr} {cb : Tuple → Bool} :
    ∀ L : List Row, ∀ tup ∈ join2Drive tables t1 t2 cid1 cid2 cond cb L,
      ∃ r1 r2, tup = [(t1.name, r1), (t2.name, r2)] ∧
        (r1.valAt cid1).isSome := by
  intro L
  induction L with
  | nil => intro tup h; simp [join2Drive] at h
  | cons r rest ih =>
    intro tup h
    rcases hk : r.valAt cid1 with _ | k
    · have h2 : tup ∈ join2Drive tables t1 t2 cid1 cid2 cond cb rest := by
        rw [join2Drive, hk] at h
        exact h
      exact ih tup h2
    · rcases hp : join2Probe tables t1 t2 r cond cb (indexScan t2 cid2 k)
        with ⟨es, ab⟩
      have h2 : tup ∈
          (match join2Probe tables t1 t2 r cond cb (indexScan t2 cid2 k) with
           | (es2, ab2) => if ab2 then es2
              else es2 ++ join2Drive tables t1 t2 cid1 cid2 cond cb rest) := by
        rw [join2Drive, hk] at h
        exact h
      rw [hp] at h2
      cases ab with
      | true =>
        simp only [if_pos rfl] at h2
        obtain ⟨r2, -, htup⟩ := join2Probe_shape _ tup (by rw [hp]; exact h2)
        exact ⟨r, r2, htup, by simp [hk]⟩
      | false =>
        simp only [Bool.false_eq_true, if_neg (fun hc => hc)] at h2
        rcases List.mem_append.mp h2 with h3 | h3
        · obtain ⟨r2, -, htup⟩ := join2Probe_shape _ tup (by rw [hp]; exact h3)
          exact ⟨r, r2, htup, by simp [hk]⟩
        · exact ih tup h3

/-- Rows coming out of an index scan are rows of the table. -/
theorem mem_of_mem_indexScan {t : Table} {c : ℕ} {k : Value} {r : Row}
    (h : r ∈ indexScan t c k) : r ∈ t.rows := by
  rw [indexScan] at h
  have h1 := (List.dropWhile_sublist _).subset h
  exact (List.perm_insertionSort _ t.rows).subset h1

/-- With every driver key present, throw-free key-equality evaluation and
an accepting consumer, the index join emits, per driver row in scan order,
exactly the probe rows with the matching key (in probe-index order). -/
theorem join2Drive_perm {tables : List Table} {t1 t2 : Table}
    {cid1 cid2 : ℕ} {cond : Expr} {cb : Tuple → Bool} :
    ∀ L : List Row,
      (∀ r1 ∈ L, (r1.valAt cid1).isSome) →
      (∀ r1 ∈ L, ∀ k, r1.valAt cid1 = some k →
        ∀ r2 ∈ indexScan t2 cid2 k,
          evalBool tables [(t2.name, r2), (t1.name, r1)] cond =
            some (decide (r2.valAt cid2 = some k))) →
      (∀ r1 ∈ L, ∀ r2 ∈ t2.rows, r2.valAt cid2 = r1.valAt cid1 →
        cb [(t1.name, r1), (t2.name, r2)] = true) →
      (join2Drive tables t1 t2 cid1 cid2 cond cb L).Perm
        (L.flatMap (fun r1 =>
          (t2.rows.filter
            (fun r2 => decide (r2.valAt cid2 = r1.valAt cid1))).map
              (fun r2 => [(t1.name, r1), (t2.name, r2)]))) := by
  intro L
  induction L with
  | nil => intro _ _ _; simp [join2Drive]
  | cons r rest ih =>
    intro hkey heval hcb
    obtain ⟨k, hk⟩ := Option.isSome_iff_exists.mp (hkey r (by simp))
    have hspec := @join2Probe_spec tables t1 t2 r cond cb
      (fun r2 => decide (r2.valAt cid2 = some k)) (indexScan t2 cid2 k)
      (fun r2 hr2 => heval r (by simp) k hk r2 hr2)
      (fun r2 hr2 hkk => hcb r (by simp) r2 (mem_of_mem_indexScan hr2)
        (by
          rw [hk]
          simpa using hkk))
    have hstep : join2Drive tables t1 t2 cid1 cid2 cond cb (r :: rest) =
        ((indexScan t2 cid2 k).takeWhile
            (fun r2 => decide (r2.valAt cid2 = some k))).map
          (fun r2 => [(t1.name, r), (t2.name, r2)]) ++
          join2Drive tables t1 t2 cid1 cid2 cond cb rest := by
      rw [join2Drive, hk]
      show (match join2Probe tables t1 t2 r cond cb (indexScan t2 cid2 k) with
        | (es2, ab2) => if ab2 then es2
            else es2 ++ join2Drive tables t1 t2 cid1 cid2 cond cb rest) = _
      rw [hspec]
      simp
    rw [hstep, List.flatMap_cons, hk]
    have hperm1 := (indexScan_take_perm_filter t2 cid2 k).map
      (fun r2 => [(t1.name, r), (t2.name, r2)])
    exact hperm1.append (ih (fun x hx => hkey x (List.mem_cons_of_mem r hx))
      (fun x hx => heval x (List.mem_cons_of_mem r hx))
      (fun x hx => hcb x (List.mem_cons_of_mem r hx)))

/-- C2 at the failing input (two driver rows each with one index match, a
consumer that always refuses): the refusal only breaks the inner probe
loop, so the consumer is handed a second tuple after returning false. -/
theorem C2_stop_only_breaks_inner_loop :
    iterate [exA, exB] (some exCondJoin) (fun _ => false) =
      some [[("A", exRowXY 1 10), ("B", exRowXY 1 100)],
            [("A", exRowXY 2 20), ("B", exRowXY 2 200)]] := by
  rfl

/-- C10: in the two-table index join, a driver row whose cached join key is
null is skipped entirely: the probe index is never searched for it, no
emitted combination involves it (every emitted combination carries a
present driver key), and the scan continues with the remaining driver
rows. -/
theorem C10_null_driver_key_skipped {tables : List Table} {t1 t2 : Table}
    {cid1 cid2 : ℕ} {cond : Expr} {cb : Tuple → Bool} (L1 L2 : List Row)
    (hnull : ∀ r ∈ L1, r.valAt cid1 = none) :
    join2Drive tables t1 t2 cid1 cid2 cond cb (L1 ++ L2) =
      join2Drive tables t1 t2 cid1 cid2 cond cb L2 ∧
    ∀ tup ∈ join2Drive tables t1 t2 cid1 cid2 cond cb (L1 ++ L2),
      ∃ r1 r2, tup = [(t1.name, r1), (t2.name, r2)] ∧
        (r1.valAt cid1).isSome :=
  ⟨join2Drive_skip_null L1 L2 hnull,
   fun tup h => join2Drive_key_present _ tup h⟩

/-- Witness for C10 at a concrete input: a NULL-keyed driver row ahead of
A's real rows contributes nothing. -/
theorem C10_witness :
    (∀ r ∈ [exRowNull], r.valAt 0 = none) ∧
    (join2Drive [exA, exB] exA exB 0 0 exCondJoin (fun _ => true)
        ([exRowNull] ++ exA.rows) =
      join2Drive [exA, exB] exA exB 0 0 exCondJoin (fun _ => true) exA.rows ∧
    ∀ tup ∈ join2Drive [exA, exB] exA exB 0 0 exCondJoin (fun _ => true)
        ([exRowNull] ++ exA.rows),
      ∃ r1 r2, tup = [(exA.name, r1), (exB.name, r2)] ∧
        (r1.valAt 0).isSome) :=
  ⟨by decide,
   C10_null_driver_key_skipped [exRowNull] exA.rows (by decide)⟩

/-! ### Join-graph construction -/

theorem upd2_self {α : Type} (f : ℕ → ℕ → α) (i j : ℕ) (v : α) :
    upd2 f i j v i j = v := by
  simp [upd2]

theorem upd2_other {α : Type} (f : ℕ → ℕ → α) {i j a b : ℕ} (v : α)
    (h : ¬(a = i ∧ b = j)) : upd2 f i j v a b = f a b := by
  simp only [upd2, if_neg h]

/-- A conjunct that is not an equality of two column references leaves the
graph untouched. -/
theorem buildJoinGraph_step_id {tables : List Table} {c : Expr}
    {rest : List Expr} {E0 : ℕ → ℕ → Bool} {J0 : ℕ → ℕ → Option Expr}
    (hneg : ¬ ∃ t1n c1n t2n c2n,
      c = .bin .opEq (.col t1n c1n) (.col t2n c2n)) :
    buildJoinGraph tables (c :: rest) E0 J0 =
      buildJoinGraph tables rest E0 J0 := by
  cases c with
  | col t cn => simp [buildJoinGraph]
  | lit v => simp [buildJoinGraph]
  | una op l => simp [buildJoinGraph]
  | bin op l r =>
    cases op <;> try (simp [buildJoinGraph]; done)
    cases l <;> try (simp [buildJoinGraph]; done)
    cases r <;> try (simp [buildJoinGraph]; done)
    exact absurd ⟨_, _, _, _, rfl⟩ hneg

/-- Invariants of the join-graph fold: edge and condition matrices stay in
sync, stored conditions have the driver-probed shape with an index on the
probed side, edges only accumulate, and each successfully resolved equality
conjunct contributes its edges according to which side is indexed. -/
theorem buildJoinGraph_inv {tables : List Table} {all : List Expr} :
    ∀ (cs : List Expr) (E0 : ℕ → ℕ → Bool) (J0 : ℕ → ℕ → Option Expr)
      (E : ℕ → ℕ → Bool) (J : ℕ → ℕ → Option Expr),
    buildJoinGraph tables cs E0 J0 = some (E, J) →
    (∀ c ∈ cs, c ∈ all) →
    (∀ a b, E0 a b = (J0 a b).isSome) →
    JShape tables all J0 →
    (∀ a b, E a b = (J a b).isSome) ∧ JShape tables all J ∧
    (∀ a b, E0 a b = true → E a b = true) ∧
    (∀ c ∈ cs, ∀ tid1 cid1 tid2 cid2,
      ConjResolved tables c tid1 cid1 tid2 cid2 →
      (cid2 ∈ (tables.getD tid2 defaultTable).indexedCols →
        E tid2 tid1 = true) ∧
      (cid1 ∈ (tables.getD tid1 defaultTable).indexedCols →
        E tid1 tid2 = true)) := by
  intro cs
  induction cs with
  | nil =>
    intro E0 J0 E J hb hsub hEJ hshape
    rw [buildJoinGraph] at hb
    injection hb with hb
    injection hb with hbE hbJ
    subst hbE
    subst hbJ
    exact ⟨hEJ, hshape, fun a b h => h, fun c hc => absurd hc (by simp)⟩
  | cons c rest ih =>
    intro E0 J0 E J hb hsub hEJ hshape
    by_cases hc : ∃ t1n c1n t2n c2n,
        c = .bin .opEq (.col t1n c1n) (.col t2n c2n)
    · obtain ⟨t1n, c1n, t2n, c2n, rfl⟩ := hc
      rw [buildJoinGraph] at hb
      rcases h1 : lookupTable tables t1n with _ | tid1 <;> rw [h1] at hb
      · simp at hb
      rcases h2 : lookupTable tables t2n with _ | tid2 <;> rw [h2] at hb
      · simp at hb
      simp only at hb
      rcases h3 : (tables.getD tid1 defaultTable).lookup_column c1n
        with _ | cid1 <;> rw [h3] at hb
      · simp at hb
      rcases h4 : (tables.getD tid2 defaultTable).lookup_column c2n
        with _ | cid2 <;> rw [h4] at hb
      · simp at hb
      simp only at hb
      by_cases hidx : (tables.getD tid1 defaultTable).get_index cid1 = none ∧
          (tables.getD tid2 defaultTable).get_index cid2 = none
      · rw [if_pos hidx] at hb
        obtain ⟨hsync, hshp, hmono, hpos⟩ := ih E0 J0 E J hb
          (fun x hx => hsub x (List.mem_cons_of_mem _ hx)) hEJ hshape
        refine ⟨hsync, hshp, hmono, ?_⟩
        intro c' hc' tid1' cid1' tid2' cid2' hres
        rcases List.mem_cons.mp hc' with hc' | hc'
        · subst hc'
          obtain ⟨t1n', c1n', t2n', c2n', hceq, h1', h2', h3', h4'⟩ := hres
          obtain ⟨e1, e2, e3, e4⟩ : t1n' = t1n ∧ c1n' = c1n ∧ t2n' = t2n ∧
              c2n' = c2n := by
            injection hceq with hop hl hr
            injection hl with a1 a2
            injection hr with b1 b2
            exact ⟨a1.symm, a2.symm, b1.symm, b2.symm⟩
          subst e1; subst e2; subst e3; subst e4
          rw [h1'] at h1
          injection h1 with h1
          rw [h2'] at h2
          injection h2 with h2
          subst h1; subst h2
          rw [h3'] at h3
          injection h3 with h3
          rw [h4'] at h4
          injection h4 with h4
          subst h3; subst h4
          constructor
          · intro hin
            exfalso
            have : (tables.getD tid2' defaultTable).get_index cid2' =
                some cid2' := by
              rw [Table.get_index, if_pos hin]
            rw [this] at hidx
            exact Option.noConfusion hidx.2
          · intro hin
            exfalso
            have : (tables.getD tid1' defaultTable).get_index cid1' =
                some cid1' := by
              rw [Table.get_index, if_pos hin]
            rw [this] at hidx
            exact Option.noConfusion hidx.1
        · exact hpos c' hc' tid1' cid1' tid2' cid2' hres
      · rw [if_neg hidx] at hb
        set tb1 := tables.getD tid1 defaultTable with htb1
        set tb2 := tables.getD tid2 defaultTable with htb2
        set cexp : Expr := .bin .opEq (.col t1n c1n) (.col t2n c2n) with hcexp
        set E1 := if (tb2.get_index cid2).isSome then
          upd2 E0 tid2 tid1 true else E0 with hE1
        set J1 := if (tb2.get_index cid2).isSome then
          upd2 J0 tid2 tid1 (some cexp) else J0 with hJ1
        set E2 := if (tb1.get_index cid1).isSome then
          upd2 E1 tid1 tid2 true else E1 with hE2
        set J2 := if (tb1.get_index cid1).isSome then
          upd2 J1 tid1 tid2 (some cexp) else J1 with hJ2
        have hb2 : buildJoinGraph tables rest E2 J2 = some (E, J) := hb
        have hsync1 : ∀ a b, E1 a b = (J1 a b).isSome := by
          intro a b
          rw [hE1, hJ1]
          by_cases hi : (tb2.get_index cid2).isSome
          · rw [if_pos hi, if_pos hi]
            by_cases hab : a = tid2 ∧ b = tid1
            · obtain ⟨ha, hb'⟩ := hab
              subst ha; subst hb'
              rw [upd2_self, upd2_self]
              rfl
            · rw [upd2_other _ _ hab, upd2_other _ _ hab]
              exact hEJ a b
          · rw [if_neg hi, if_neg hi]
            exact hEJ a b
        have hsync2 : ∀ a b, E2 a b = (J2 a b).isSome := by
          intro a b
          rw [hE2, hJ2]
          by_cases hi : (tb1.get_index cid1).isSome
          · rw [if_pos hi, if_pos hi]
            by_cases hab : a = tid1 ∧ b = tid2
            · obtain ⟨ha, hb'⟩ := hab
              subst ha; subst hb'
              rw [upd2_self, upd2_self]
              rfl
            · rw [upd2_other _ _ hab, upd2_other _ _ hab]
              exact hsync1 a b
          · rw [if_neg hi, if_neg hi]
            exact hsync1 a b
        have hcmem : cexp ∈ all := hsub cexp (by simp [hcexp])
        have hshape1 : JShape tables all J1 := by
          intro a b cc hcc
          rw [hJ1] at hcc
          by_cases hi : (tb2.get_index cid2).isSome
          · rw [if_pos hi] at hcc
            by_cases hab : a = tid2 ∧ b = tid1
            · obtain ⟨ha, hb'⟩ := hab
              subst ha; subst hb'
              rw [upd2_self] at hcc
              injection hcc with hcc
              subst hcc
              refine ⟨t1n, c1n, t2n, c2n, cid1, cid2, hcmem, h1, h2, h3, h4,
                ?_, Or.inl rfl⟩
              rw [Table.get_index] at hi
              by_cases hin : cid2 ∈ tb2.indexedCols
              · exact hin
              · rw [if_neg hin] at hi
                simp at hi
            · rw [upd2_other _ _ hab] at hcc
              exact hshape a b cc hcc
          · rw [if_neg hi] at hcc
            exact hshape a b cc hcc
        have hshape2 : JShape tables all J2 := by
          intro a b cc hcc
          rw [hJ2] at hcc
          by_cases hi : (tb1.get_index cid1).isSome
          · rw [if_pos hi] at hcc
            by_cases hab : a = tid1 ∧ b = tid2
            · obtain ⟨ha, hb'⟩ := hab
              subst ha; subst hb'
              rw [upd2_self] at hcc
              injection hcc with hcc
              subst hcc
              refine ⟨t2n, c2n, t1n, c1n, cid2, cid1, hcmem, h2, h1, h4, h3,
                ?_, Or.inr rfl⟩
              rw [Table.get_index] at hi
              by_cases hin : cid1 ∈ tb1.indexedCols
              · exact hin
              · rw [if_neg hin] at hi
                simp at hi
            · rw [upd2_other _ _ hab] at hcc
              exact hshape1 a b cc hcc
          · rw [if_neg hi] at hcc
            exact hshape1 a b cc hcc
        have hmono12 : ∀ a b, E0 a b = true → E2 a b = true := by
          intro a b h
          have h1' : E1 a b = true := by
            rw [hE1]
            by_cases hi : (tb2.get_index cid2).isSome
            · rw [if_pos hi]
              by_cases hab : a = tid2 ∧ b = tid1
              · obtain ⟨ha, hb'⟩ := hab
                subst ha; subst hb'
                rw [upd2_self]
              · rw [upd2_other _ _ hab]
                exact h
            · rw [if_neg hi]; exact h
          rw [hE2]
          by_cases hi : (tb1.get_index cid1).isSome
          · rw [if_pos hi]
            by_cases hab : a = tid1 ∧ b = tid2
            · obtain ⟨ha, hb'⟩ := hab
              subst ha; subst hb'
              rw [upd2_self]
            · rw [upd2_other _ _ hab]
              exact h1'
          · rw [if_neg hi]; exact h1'
        obtain ⟨hsync, hshp, hmono, hpos⟩ := ih E2 J2 E J hb2
          (fun x hx => hsub x (List.mem_cons_of_mem cexp hx)) hsync2 hshape2
        refine ⟨hsync, hshp, fun a b h => hmono a b (hmono12 a b h), ?_⟩
        intro c' hc' tid1' cid1' tid2' cid2' hres
        rcases List.mem_cons.mp hc' with hc' | hc'
        · subst hc'
          obtain ⟨t1n', c1n', t2n', c2n', hceq, h1', h2', h3', h4'⟩ := hres
          obtain ⟨e1, e2, e3, e4⟩ : t1n' = t1n ∧ c1n' = c1n ∧ t2n' = t2n ∧
              c2n' = c2n := by
            rw [hcexp] at hceq
            injection hceq with hop hl hr
            injection hl with a1 a2
            injection hr with b1 b2
            exact ⟨a1.symm, a2.symm, b1.symm, b2.symm⟩
          subst e1; subst e2; subst e3; subst e4
          rw [h1'] at h1
          injection h1 with h1
          rw [h2'] at h2
          injection h2 with h2
          subst h1; subst h2
          rw [h3'] at h3
          injection h3 with h3
          rw [h4'] at h4
          injection h4 with h4
          subst h3; subst h4
          constructor
          · intro hin
            apply hmono
            have hi : (tb2.get_index cid2').isSome := by
              rw [Table.get_index, if_pos hin]
              rfl
            have : E1 tid2' tid1' = true := by
              rw [hE1, if_pos hi, upd2_self]
            rw [hE2]
            by_cases hi1 : (tb1.get_index cid1').isSome
            · rw [if_pos hi1]
              by_cases hab : tid2' = tid1' ∧ tid1' = tid2'
              · obtain ⟨ha, -⟩ := hab
                subst ha
                rw [upd2_self]
              · rw [upd2_other _ _ hab]
                exact this
            · rw [if_neg hi1]
              exact this
          · intro hin
            apply hmono
            have hi1 : (tb1.get_index cid1').isSome := by
              rw [Table.get_index, if_pos hin]
              rfl
            rw [hE2, if_pos hi1, upd2_self]
        · exact hpos c' hc' tid1' cid1' tid2' cid2' hres
    · rw [buildJoinGraph_step_id hc] at hb
      obtain ⟨hsync, hshp, hmono, hpos⟩ := ih E0 J0 E J hb
        (fun x hx => hsub x (List.mem_cons_of_mem c hx)) hEJ hshape
      refine ⟨hsync, hshp, hmono, ?_⟩
      intro c' hc' tid1' cid1' tid2' cid2' hres
      rcases List.mem_cons.mp hc' with hc' | hc'
      · subst hc'
        obtain ⟨t1n', c1n', t2n', c2n', hceq, -⟩ := hres
        exact absurd ⟨t1n', c1n', t2n', c2n', hceq⟩ hc
      · exact hpos c' hc' tid1' cid1' tid2' cid2' hres

/-- C4 as stated is false on the code: with the conjunct A.x = B.x, table
index 0 (A, owner of the left column) carrying the only index, the claim
asks for edge E[1][0] with J[1][0] holding the conjunct, but the code
inserts the opposite edge E[0][1] and leaves E[1][0], J[1][0] empty. -/
theorem C4_counterexample :
    ∃ E J, buildJoinGraph [exAi, exB2] [exCondJoin]
        (fun _ _ => false) (fun _ _ => none) = some (E, J) ∧
      ConjResolved [exAi, exB2] exCondJoin 0 0 1 0 ∧
      0 ∈ exAi.indexedCols ∧
      E 1 0 = false ∧ J 1 0 = none ∧ E 0 1 = true := by
  refine ⟨_, _, rfl, ⟨"A", "x", "B", "x", rfl, rfl, rfl, rfl, rfl⟩,
    by decide, rfl, rfl, rfl⟩

/-- C4 amended: during join-graph construction each equality conjunct with
resolvable column references contributes edges the opposite way round from
the claim's wording: an index on the right-hand table tid2 inserts
E[tid2][tid1] = 1 with J[tid2][tid1] storing such a conjunct, an index on
the left-hand table tid1 inserts E[tid1][tid2] = 1, and edges exist only in
sync with stored conditions, each of which is an equality conjunct from the
list whose probed-side column is indexed (so a conjunct with no usable
index contributes no edge). -/
theorem C4_graph_edges {tables : List Table} {cs : List Expr}
    {E : ℕ → ℕ → Bool} {J : ℕ → ℕ → Option Expr}
    (hb : buildJoinGraph tables cs (fun _ _ => false) (fun _ _ => none) =
      some (E, J)) :
    (∀ a b, E a b = (J a b).isSome) ∧
    JShape tables cs J ∧
    (∀ c ∈ cs, ∀ tid1 cid1 tid2 cid2,
      ConjResolved tables c tid1 cid1 tid2 cid2 →
      (cid2 ∈ (tables.getD tid2 defaultTable).indexedCols →
        E tid2 tid1 = true ∧ (J tid2 tid1).isSome) ∧
      (cid1 ∈ (tables.getD tid1 defaultTable).indexedCols →
        E tid1 tid2 = true ∧ (J tid1 tid2).isSome)) := by
  obtain ⟨hsync, hshp, -, hpos⟩ := buildJoinGraph_inv cs
    (fun _ _ => false) (fun _ _ => none) E J hb (fun c h => h)
    (by intro a b; rfl)
    (by intro a b c h; exact Option.noConfusion h)
  refine ⟨hsync, hshp, ?_⟩
  intro c hc tid1 cid1 tid2 cid2 hres
  obtain ⟨hp2, hp1⟩ := hpos c hc tid1 cid1 tid2 cid2 hres
  constructor
  · intro hi
    refine ⟨hp2 hi, ?_⟩
    rw [← hsync]
    exact hp2 hi
  · intro hi
    refine ⟨hp1 hi, ?_⟩
    rw [← hsync]
    exact hp1 hi

/-- Witness for the amended C4 at the concrete one-conjunct instance. -/
theorem C4_graph_edges_witness :
    ∃ E J, buildJoinGraph [exAi, exB2] [exCondJoin]
        (fun _ _ => false) (fun _ _ => none) = some (E, J) ∧
      (∀ a b, E a b = (J a b).isSome) :=
  ⟨_, _, rfl, (@C4_graph_edges [exAi, exB2] [exCondJoin] _ _ rfl).1⟩

/-! ### The longest-path planner -/

theorem updMark_self (mark : ℕ → Bool) (i : ℕ) (v : Bool) :
    updMark mark i v i = v := by
  simp [updMark]

theorem updMark_other (mark : ℕ → Bool) {i a : ℕ} (v : Bool) (h : a ≠ i) :
    updMark mark i v a = mark a := by
  simp [updMark, h]

theorem updMark_cancel {mark : ℕ → Bool} {i : ℕ} (h : mark i = false) :
    updMark (updMark mark i true) i false = mark := by
  funext a
  by_cases ha : a = i
  · subst ha
    simp [updMark, h]
  · simp [updMark, ha]

/-- Marking one more vertex lowers the unmarked count by one. -/
theorem unmarkedCount_upd {mark : ℕ → Bool} {now n : ℕ} (h1 : now < n)
    (h2 : mark now = false) :
    unmarkedCount n (updMark mark now true) + 1 = unmarkedCount n mark := by
  induction n with
  | zero => omega
  | succ m ih =>
    rw [unmarkedCount, unmarkedCount, List.range_succ, List.countP_append,
      List.countP_append]
    rcases Nat.lt_succ_iff_lt_or_eq.mp h1 with h | h
    · have ihm := ih h
      rw [unmarkedCount, unmarkedCount] at ihm
      have hm : updMark mark now true m = mark m := by
        apply updMark_other
        omega
      simp only [List.countP_cons, List.countP_nil, hm]
      omega
    · subst h
      have hcnt : (List.range now).countP (fun i => !updMark mark now true i) =
          (List.range now).countP (fun i => !mark i) := by
        apply List.countP_congr
        intro x hx
        rw [List.mem_range] at hx
        rw [updMark_other]
        omega
      simp only [List.countP_cons, List.countP_nil, hcnt, updMark_self, h2]
      simp

/-- Phase-one exploration (no target depth) never reports success. -/
theorem explore_false : ∀ fuel : ℕ,
    (∀ now depth mark E n maxd b mk md sg,
      find_longest_path fuel now depth mark E n none maxd =
        some (b, mk, md, sg) → b = false) ∧
    (∀ now depth mark E n maxd i b mk md sg,
      flpLoop fuel now depth mark E n none maxd i =
        some (b, mk, md, sg) → b = false) := by
  intro fuel
  induction fuel with
  | zero =>
    constructor
    · intro now depth mark E n maxd b mk md sg h
      rw [find_longest_path] at h
      exact Option.noConfusion h
    · intro now depth mark E n maxd i b mk md sg h
      have hloop : ∀ j i, n - i = j →
          ∀ mark maxd b mk md sg,
          flpLoop 0 now depth mark E n none maxd i =
            some (b, mk, md, sg) → b = false := by
        intro j
        induction j with
        | zero =>
          intro i hj mark maxd b mk md sg h
          rw [flpLoop, if_neg (by omega)] at h
          injection h with h
          injection h with h1 h
          exact h1.symm
        | succ jj ihj =>
          intro i hj mark maxd b mk md sg h
          rw [flpLoop, if_pos (by omega)] at h
          by_cases hg : E now i && !(mark i)
          · rw [if_pos hg] at h
            rw [find_longest_path] at h
            exact Option.noConfusion h
          · rw [if_neg hg] at h
            exact ihj (i + 1) (by omega) mark maxd b mk md sg h
      exact hloop (n - i) i rfl mark maxd b mk md sg h
  | succ f ihf =>
    have hfind : ∀ now depth mark E n maxd b mk md sg,
        find_longest_path (f + 1) now depth mark E n none maxd =
          some (b, mk, md, sg) → b = false := by
      intro now depth mark E n maxd b mk md sg h
      rw [find_longest_path] at h
      rw [if_neg (by simp)] at h
      rcases hl : flpLoop f now depth (updMark mark now true) E n none
          (max maxd depth) 0 with _ | ⟨b2, mk2, md2, sg2⟩
      · rw [hl] at h
        exact Option.noConfusion h
      · rw [hl] at h
        have hb2 := ihf.2 now depth (updMark mark now true) E n
          (max maxd depth) 0 b2 mk2 md2 sg2 hl
        subst hb2
        simp at h
        exact h.1
    refine ⟨hfind, ?_⟩
    intro now depth mark E n maxd i b mk md sg h
    have hloop : ∀ j i, n - i = j →
        ∀ mark maxd b mk md sg,
        flpLoop (f + 1) now depth mark E n none maxd i =
          some (b, mk, md, sg) → b = false := by
      intro j
      induction j with
      | zero =>
        intro i hj mark maxd b mk md sg h
        rw [flpLoop, if_neg (by omega)] at h
        injection h with h
        injection h with h1 h
        exact h1.symm
      | succ jj ihj =>
        intro i hj mark maxd b mk md sg h
        rw [flpLoop, if_pos (by omega)] at h
        by_cases hg : E now i && !(mark i)
        · rw [if_pos hg] at h
          rcases hs : find_longest_path (f + 1) i (depth + 1) mark E n none
              maxd with _ | ⟨b2, mk2, md2, sg2⟩
          · rw [hs] at h
            exact Option.noConfusion h
          · rw [hs] at h
            have hb2 := hfind i (depth + 1) mark E n maxd b2 mk2 md2 sg2 hs
            subst hb2
            exact ihj (i + 1) (by omega) mk2 md2 b mk md sg h
        · rw [if_neg hg] at h
          exact ihj (i + 1) (by omega) mark maxd b mk md sg h
    exact hloop (n - i) i rfl mark maxd b mk md sg h

/-- The neighbour guard of the DFS loop. -/
theorem guard_unmarked {E : ℕ → ℕ → Bool} {mark : ℕ → Bool} {now i : ℕ}
    (hg : (E now i && !(mark i)) = true) : E now i = true ∧ mark i = false := by
  cases hE : E now i <;> cases hm : mark i <;> rw [hE, hm] at hg <;> simp_all

/-- A failed DFS restores the marks it set (the mark/unmark discipline of
find_longest_path). -/
theorem flp_restore : ∀ fuel : ℕ,
    (∀ now depth mark E n ex maxd mk md sg, mark now = false →
      find_longest_path fuel now depth mark E n ex maxd =
        some (false, mk, md, sg) → mk = mark) ∧
    (∀ now depth mark E n ex maxd i mk md sg,
      flpLoop fuel now depth mark E n ex maxd i =
        some (false, mk, md, sg) → mk = mark) := by
  intro fuel
  induction fuel with
  | zero =>
    constructor
    · intro now depth mark E n ex maxd mk md sg hm h
      rw [find_longest_path] at h
      exact Option.noConfusion h
    · intro now depth mark E n ex maxd i mk md sg h
      have hloop : ∀ j i, n - i = j → ∀ mark maxd mk md sg,
          flpLoop 0 now depth mark E n ex maxd i =
            some (false, mk, md, sg) → mk = mark := by
        intro j
        induction j with
        | zero =>
          intro i hj mark maxd mk md sg h
          rw [flpLoop, if_neg (by omega)] at h
          injection h with h
          injection h with h1 h
          injection h with h2 h
          exact h2.symm
        | succ jj ihj =>
          intro i hj mark maxd mk md sg h
          rw [flpLoop, if_pos (by omega)] at h
          by_cases hg : E now i && !(mark i)
          · rw [if_pos hg] at h
            rw [find_longest_path] at h
            exact Option.noConfusion h
          · rw [if_neg hg] at h
            exact ihj (i + 1) (by omega) mark maxd mk md sg h
      exact hloop (n - i) i rfl mark maxd mk md sg h
  | succ f ihf =>
    have hfind : ∀ now depth mark E n ex maxd mk md sg, mark now = false →
        find_longest_path (f + 1) now depth mark E n ex maxd =
          some (false, mk, md, sg) → mk = mark := by
      intro now depth mark E n ex maxd mk md sg hm h
      rw [find_longest_path] at h
      by_cases hex : ex = some depth
      · rw [if_pos hex] at h
        injection h with h
        injection h with h1 h
        exact absurd h1 (by simp)
      · rw [if_neg hex] at h
        rcases hl : flpLoop f now depth (updMark mark now true) E n ex
            (max maxd depth) 0 with _ | ⟨b2, mk2, md2, sg2⟩
        · rw [hl] at h
          exact Option.noConfusion h
        · rw [hl] at h
          cases b2 with
          | true =>
            simp at h
          | false =>
            have hmk2 := ihf.2 now depth (updMark mark now true) E n ex
              (max maxd depth) 0 mk2 md2 sg2 hl
            simp at h
            rw [← h.1, hmk2]
            exact updMark_cancel hm
    refine ⟨hfind, ?_⟩
    intro now depth mark E n ex maxd i mk md sg h
    have hloop : ∀ j i, n - i = j → ∀ mark maxd mk md sg,
        flpLoop (f + 1) now depth mark E n ex maxd i =
          some (false, mk, md, sg) → mk = mark := by
      intro j
      induction j with
      | zero =>
        intro i hj mark maxd mk md sg h
        rw [flpLoop, if_neg (by omega)] at h
        injection h with h
        injection h with h1 h
        injection h with h2 h
        exact h2.symm
      | succ jj ihj =>
        intro i hj mark maxd mk md sg h
        rw [flpLoop, if_pos (by omega)] at h
        by_cases hg : E now i && !(mark i)
        · rw [if_pos hg] at h
          rcases hs : find_longest_path (f + 1) i (depth + 1) mark E n ex maxd
            with _ | ⟨b2, mk2, md2, sg2⟩
          · rw [hs] at h
            exact Option.noConfusion h
          · rw [hs] at h
            cases b2 with
            | true => simp at h
            | false =>
              have hmi : mark i = false := (guard_unmarked hg).2
              have hmk2 := hfind i (depth + 1) mark E n ex maxd mk2 md2 sg2
                hmi hs
              have h4 : flpLoop (f + 1) now depth mark E n ex md2 (i + 1) =
                  some (false, mk, md, sg) := by
                rw [hmk2] at h
                exact h
              exact ihj (i + 1) (by omega) mark md2 mk md sg h4
        · rw [if_neg hg] at h
          exact ihj (i + 1) (by omega) mark maxd mk md sg h
    exact hloop (n - i) i rfl mark maxd mk md sg h

/-- One unfolding step of the DFS when the target depth is not yet hit. -/
theorem find_longest_path_succ_ne {f now depth : ℕ} {mark : ℕ → Bool}
    {E : ℕ → ℕ → Bool} {n : ℕ} {ex : Option ℕ} {maxd : ℕ}
    (hex : ¬ ex = some depth) :
    find_longest_path (f + 1) now depth mark E n ex maxd =
      (match flpLoop f now depth (updMark mark now true) E n ex
          (max maxd depth) 0 with
       | none => none
       | some (true, mark2, maxd2, seg) => some (true, mark2, maxd2, now :: seg)
       | some (false, mark2, maxd2, _) =>
          some (false, updMark mark2 now false, maxd2, [])) := by
  rw [find_longest_path, if_neg hex]

/-- One unfolding step of the DFS at the target depth. -/
theorem find_longest_path_succ_eq {f now depth : ℕ} {mark : ℕ → Bool}
    {E : ℕ → ℕ → Bool} {n : ℕ} {ex : Option ℕ} {maxd : ℕ}
    (hex : ex = some depth) :
    find_longest_path (f + 1) now depth mark E n ex maxd =
      some (true, updMark mark now true, max maxd depth, [now]) := by
  rw [find_longest_path, if_pos hex]

/-- With more fuel than unmarked vertices the DFS cannot exhaust. -/
theorem flp_some : ∀ fuel : ℕ,
    (∀ now depth mark E n ex maxd, mark now = false → now < n →
      unmarkedCount n mark < fuel →
      (find_longest_path fuel now depth mark E n ex maxd).isSome) ∧
    (∀ now depth mark E n ex maxd i,
      unmarkedCount n mark < fuel →
      (flpLoop fuel now depth mark E n ex maxd i).isSome) := by
  intro fuel
  induction fuel with
  | zero =>
    constructor
    · intro now depth mark E n ex maxd hm hn hcnt
      omega
    · intro now depth mark E n ex maxd i hcnt
      omega
  | succ f ihf =>
    have hfind : ∀ now depth mark E n ex maxd, mark now = false → now < n →
        unmarkedCount n mark < f + 1 →
        (find_longest_path (f + 1) now depth mark E n ex maxd).isSome := by
      intro now depth mark E n ex maxd hm hn hcnt
      by_cases hex : ex = some depth
      · rw [find_longest_path_succ_eq hex]
        rfl
      · rw [find_longest_path_succ_ne hex]
        have hcnt1 : unmarkedCount n (updMark mark now true) < f := by
          have := unmarkedCount_upd hn hm
          omega
        have hl := ihf.2 now depth (updMark mark now true) E n ex
          (max maxd depth) 0 hcnt1
        rcases hlv : flpLoop f now depth (updMark mark now true) E n ex
            (max maxd depth) 0 with _ | ⟨b2, mk2, md2, sg2⟩
        · rw [hlv] at hl
          simp at hl
        · cases b2 <;> rfl
    refine ⟨hfind, ?_⟩
    intro now depth mark E n ex maxd i hcnt
    have hloop : ∀ j i, n - i = j → ∀ mark maxd,
        unmarkedCount n mark < f + 1 →
        (flpLoop (f + 1) now depth mark E n ex maxd i).isSome := by
      intro j
      induction j with
      | zero =>
        intro i hj mark maxd hcnt2
        rw [flpLoop, if_neg (by omega)]
        rfl
      | succ jj ihj =>
        intro i hj mark maxd hcnt2
        rw [flpLoop, if_pos (by omega)]
        by_cases hg : E now i && !(mark i)
        · rw [if_pos hg]
          have hmi : mark i = false := (guard_unmarked hg).2
          have hfi := hfind i (depth + 1) mark E n ex maxd hmi (by omega) hcnt2
          rcases hs : find_longest_path (f + 1) i (depth + 1) mark E n ex maxd
            with _ | ⟨b2, mk2, md2, sg2⟩
          · rw [hs] at hfi
            simp at hfi
          · cases b2 with
            | true => rfl
            | false =>
              have hmk2 := (flp_restore (f + 1)).1 i (depth + 1) mark E n ex
                maxd mk2 md2 sg2 hmi hs
              subst hmk2
              exact ihj (i + 1) (by omega) mk2 md2 hcnt2
        · rw [if_neg hg]
          exact ihj (i + 1) (by omega) mark maxd hcnt2
    exact hloop (n - i) i rfl mark maxd hcnt

/-- A successful exact-depth DFS returns in path[depth..] a simple
index-connected chain of unmarked in-range vertices headed by the start
vertex, of exactly the target length. -/
theorem flp_shape : ∀ fuel : ℕ,
    (∀ now depth mark E n d maxd mk md sg, now < n → mark now = false →
      find_longest_path fuel now depth mark E n (some d) maxd =
        some (true, mk, md, sg) →
      sg.head? = some now ∧ sg.length = (d - depth) + 1 ∧ depth ≤ d ∧
        sg.Nodup ∧ (∀ v ∈ sg, mark v = false ∧ v < n) ∧
        sg.Chain' (fun a b => E a b = true)) ∧
    (∀ now depth mark E n d maxd i mk md sg,
      flpLoop fuel now depth mark E n (some d) maxd i =
        some (true, mk, md, sg) →
      ∃ v, E now v = true ∧ sg.head? = some v ∧
        sg.length = (d - (depth + 1)) + 1 ∧ depth + 1 ≤ d ∧ sg.Nodup ∧
        (∀ x ∈ sg, mark x = false ∧ x < n) ∧
        sg.Chain' (fun a b => E a b = true)) := by
  intro fuel
  induction fuel with
  | zero =>
    constructor
    · intro now depth mark E n d maxd mk md sg hn hm h
      rw [find_longest_path] at h
      exact Option.noConfusion h
    · intro now depth mark E n d maxd i mk md sg h
      have hloop : ∀ j i, n - i = j → ∀ mark maxd mk md sg,
          flpLoop 0 now depth mark E n (some d) maxd i =
            some (true, mk, md, sg) → False := by
        intro j
        induction j with
        | zero =>
          intro i hj mark maxd mk md sg h
          rw [flpLoop, if_neg (by omega)] at h
          simp at h
        | succ jj ihj =>
          intro i hj mark maxd mk md sg h
          rw [flpLoop, if_pos (by omega)] at h
          by_cases hg : E now i && !(mark i)
          · rw [if_pos hg] at h
            rw [find_longest_path] at h
            exact Option.noConfusion h
          · rw [if_neg hg] at h
            exact ihj (i + 1) (by omega) mark maxd mk md sg h
      exact absurd h (fun h => hloop (n - i) i rfl mark maxd mk md sg h)
  | succ f ihf =>
    have hfind : ∀ now depth mark E n d maxd mk md sg, now < n →
        mark now = false →
        find_longest_path (f + 1) now depth mark E n (some d) maxd =
          some (true, mk, md, sg) →
        sg.head? = some now ∧ sg.length = (d - depth) + 1 ∧ depth ≤ d ∧
          sg.Nodup ∧ (∀ v ∈ sg, mark v = false ∧ v < n) ∧
          sg.Chain' (fun a b => E a b = true) := by
      intro now depth mark E n d maxd mk md sg hn hm h
      by_cases hex : (some d : Option ℕ) = some depth
      · rw [find_longest_path_succ_eq hex] at h
        have hd : d = depth := by
          injection hex
        simp at h
        obtain ⟨-, -, hsg⟩ := h
        subst hsg
        subst hd
        refine ⟨rfl, by simp, le_refl d, by simp, ?_, by simp⟩
        intro v hv
        simp at hv
        subst hv
        exact ⟨hm, hn⟩
      · rw [find_longest_path_succ_ne hex] at h
        rcases hlv : flpLoop f now depth (updMark mark now true) E n (some d)
            (max maxd depth) 0 with _ | ⟨b2, mk2, md2, sg2⟩
        · rw [hlv] at h
          simp at h
        · rw [hlv] at h
          cases b2 with
          | false => simp at h
          | true =>
            obtain ⟨v, hEv, hhead, hlen, hdep, hnd, hmarks, hchain⟩ :=
              ihf.2 now depth (updMark mark now true) E n d
                (max maxd depth) 0 mk2 md2 sg2 hlv
            simp at h
            obtain ⟨-, -, hsg⟩ := h
            subst hsg
            have hnotin : now ∉ sg2 := by
              intro hin
              have := (hmarks now hin).1
              rw [updMark_self] at this
              exact Bool.noConfusion this
            refine ⟨rfl, ?_, by omega, List.nodup_cons.mpr ⟨hnotin, hnd⟩,
              ?_, ?_⟩
            · simp only [List.length_cons, hlen]
              omega
            · intro x hx
              rcases List.mem_cons.mp hx with hx | hx
              · subst hx
                exact ⟨hm, hn⟩
              · obtain ⟨hmx, hxn⟩ := hmarks x hx
                have hxnow : x ≠ now := by
                  intro hc
                  subst hc
                  rw [updMark_self] at hmx
                  exact Bool.noConfusion hmx
                rw [updMark_other _ _ hxnow] at hmx
                exact ⟨hmx, hxn⟩
            · rw [List.chain'_cons']
              refine ⟨?_, hchain⟩
              intro y hy
              rw [hhead] at hy
              simp at hy
              subst hy
              exact hEv
    refine ⟨hfind, ?_⟩
    intro now depth mark E n d maxd i mk md sg h
    have hloop : ∀ j i, n - i = j → ∀ mark maxd mk md sg,
        flpLoop (f + 1) now depth mark E n (some d) maxd i =
          some (true, mk, md, sg) →
        ∃ v, E now v = true ∧ sg.head? = some v ∧
          sg.length = (d - (depth + 1)) + 1 ∧ depth + 1 ≤ d ∧ sg.Nodup ∧
          (∀ x ∈ sg, mark x = false ∧ x < n) ∧
          sg.Chain' (fun a b => E a b = true) := by
      intro j
      induction j with
      | zero =>
        intro i hj mark maxd mk md sg h
        rw [flpLoop, if_neg (by omega)] at h
        simp at h
      | succ jj ihj =>
        intro i hj mark maxd mk md sg h
        rw [flpLoop, if_pos (by omega)] at h
        by_cases hg : E now i && !(mark i)
        · rw [if_pos hg] at h
          obtain ⟨hEi, hmi⟩ := guard_unmarked hg
          rcases hs : find_longest_path (f + 1) i (depth + 1) mark E n
              (some d) maxd with _ | ⟨b2, mk2, md2, sg2⟩
          · rw [hs] at h
            simp at h
          · rw [hs] at h
            cases b2 with
            | true =>
              simp at h
              obtain ⟨-, -, hsg⟩ := h
              subst hsg
              obtain ⟨hhead, hlen, hdep, hnd, hmarks, hchain⟩ :=
                hfind i (depth + 1) mark E n d maxd mk2 md2 sg2 (by omega)
                  hmi hs
              exact ⟨i, hEi, hhead, hlen, hdep, hnd, hmarks, hchain⟩
            | false =>
              have hmk2 := (flp_restore (f + 1)).1 i (depth + 1) mark E n
                (some d) maxd mk2 md2 sg2 hmi hs
              have h4 : flpLoop (f + 1) now depth mark E n (some d) md2
                  (i + 1) = some (true, mk, md, sg) := by
                rw [hmk2] at h
                exact h
              exact ihj (i + 1) (by omega) mark md2 mk md sg h4
        · rw [if_neg hg] at h
          exact ihj (i + 1) (by omega) mark maxd mk md sg h
    exact hloop (n - i) i rfl mark maxd mk md sg h

/-- Completeness of the exact-depth DFS: whenever a simple unmarked
index-connected chain of the target length exists, the search finds one. -/
theorem flp_complete : ∀ fuel : ℕ,
    (∀ now depth mark E n maxd k,
      unmarkedCount n mark < fuel →
      Achieves E n mark now k →
      ∃ mk md sg, find_longest_path fuel now depth mark E n
        (some (depth + k)) maxd = some (true, mk, md, sg)) ∧
    (∀ now depth mark E n maxd i k,
      unmarkedCount n mark < fuel →
      (∃ v, i ≤ v ∧ E now v = true ∧ Achieves E n mark v k) →
      ∃ mk md sg, flpLoop fuel now depth mark E n
        (some (depth + 1 + k)) maxd i = some (true, mk, md, sg)) := by
  intro fuel
  induction fuel with
  | zero =>
    constructor
    · intro now depth mark E n maxd k hcnt
      omega
    · intro now depth mark E n maxd i k hcnt
      omega
  | succ f ihf =>
    have hfind : ∀ now depth mark E n maxd k,
        unmarkedCount n mark < f + 1 →
        Achieves E n mark now k →
        ∃ mk md sg, find_longest_path (f + 1) now depth mark E n
          (some (depth + k)) maxd = some (true, mk, md, sg) := by
      intro now depth mark E n maxd k hcnt hach
      obtain ⟨seg, hhead, hlen, hnd, hmarks, hchain⟩ := hach
      obtain ⟨tail, hseg⟩ : ∃ tail, seg = now :: tail := by
        cases seg with
        | nil => simp at hhead
        | cons x t =>
          simp at hhead
          subst hhead
          exact ⟨t, rfl⟩
      subst hseg
      have hmnow : mark now = false := (hmarks now (by simp)).1
      have hnown : now < n := (hmarks now (by simp)).2
      cases k with
      | zero =>
        exact ⟨updMark mark now true, max maxd depth, [now],
          find_longest_path_succ_eq (by simp)⟩
      | succ k1 =>
        have hex : ¬ (some (depth + (k1 + 1)) : Option ℕ) = some depth := by
          simp
        obtain ⟨v, rest, htail⟩ : ∃ v rest, tail = v :: rest := by
          cases tail with
          | nil => simp at hlen
          | cons x t => exact ⟨x, t, rfl⟩
        subst htail
        have hEv : E now v = true := (List.chain'_cons.mp hchain).1
        have hach1 : Achieves E n (updMark mark now true) v k1 := by
          refine ⟨v :: rest, by simp, by simpa using hlen, ?_, ?_, ?_⟩
          · exact (List.nodup_cons.mp hnd).2
          · intro x hx
            obtain ⟨hmx, hxn⟩ := hmarks x (List.mem_cons_of_mem now hx)
            have hxnow : x ≠ now := by
              intro hc
              subst hc
              exact (List.nodup_cons.mp hnd).1 hx
            rw [updMark_other _ _ hxnow]
            exact ⟨hmx, hxn⟩
          · exact (List.chain'_cons.mp hchain).2
        have hcnt1 : unmarkedCount n (updMark mark now true) < f := by
          have := unmarkedCount_upd hnown hmnow
          omega
        have hwit : ∃ w, 0 ≤ w ∧ E now w = true ∧
            Achieves E n (updMark mark now true) w k1 :=
          ⟨v, Nat.zero_le v, hEv, hach1⟩
        obtain ⟨mk2, md2, sg2, hres⟩ := ihf.2 now depth
          (updMark mark now true) E n (max maxd depth) 0 k1 hcnt1 hwit
        refine ⟨mk2, md2, now :: sg2, ?_⟩
        rw [find_longest_path_succ_ne hex]
        have hres2 : flpLoop f now depth (updMark mark now true) E n
            (some (depth + (k1 + 1))) (max maxd depth) 0 =
            some (true, mk2, md2, sg2) := by
          have harith : depth + 1 + k1 = depth + (k1 + 1) := by omega
          rw [← harith]
          exact hres
        rw [hres2]
    refine ⟨hfind, ?_⟩
    intro now depth mark E n maxd i k hcnt hwit
    have hloop : ∀ j i, n - i = j → ∀ mark maxd,
        unmarkedCount n mark < f + 1 →
        (∃ v, i ≤ v ∧ E now v = true ∧ Achieves E n mark v k) →
        ∃ mk md sg, flpLoop (f + 1) now depth mark E n
          (some (depth + 1 + k)) maxd i = some (true, mk, md, sg) := by
      intro j
      induction j with
      | zero =>
        intro i hj mark maxd hcnt2 hwit2
        obtain ⟨v, hiv, hEv, hach⟩ := hwit2
        obtain ⟨seg, hhead, -, -, hmarks, -⟩ := hach
        obtain ⟨tail, hseg⟩ : ∃ tail, seg = v :: tail := by
          cases seg with
          | nil => simp at hhead
          | cons x t =>
            simp at hhead
            subst hhead
            exact ⟨t, rfl⟩
        subst hseg
        have := (hmarks v (by simp)).2
        omega
      | succ jj ihj =>
        intro i hj mark maxd hcnt2 hwit2
        obtain ⟨v, hiv, hEv, hach⟩ := hwit2
        have hvn : v < n := by
          obtain ⟨seg, hhead, -, -, hmarks, -⟩ := hach
          obtain ⟨tail, hseg⟩ : ∃ tail, seg = v :: tail := by
            cases seg with
            | nil => simp at hhead
            | cons x t =>
              simp at hhead
              subst hhead
              exact ⟨t, rfl⟩
          subst hseg
          exact (hmarks v (by simp)).2
        have hvm : mark v = false := by
          obtain ⟨seg, hhead, -, -, hmarks, -⟩ := hach
          obtain ⟨tail, hseg⟩ : ∃ tail, seg = v :: tail := by
            cases seg with
            | nil => simp at hhead
            | cons x t =>
              simp at hhead
              subst hhead
              exact ⟨t, rfl⟩
          subst hseg
          exact (hmarks v (by simp)).1
        by_cases hg : E now i && !(mark i)
        · obtain ⟨hEi, hmi⟩ := guard_unmarked hg
          rcases hs : find_longest_path (f + 1) i (depth + 1) mark E n
              (some (depth + 1 + k)) maxd with _ | ⟨b2, mk2, md2, sg2⟩
          · exfalso
            have := (flp_some (f + 1)).1 i (depth + 1) mark E n
              (some (depth + 1 + k)) maxd hmi (by omega) hcnt2
            rw [hs] at this
            simp at this
          · cases b2 with
            | true =>
              refine ⟨mk2, md2, sg2, ?_⟩
              rw [flpLoop, if_pos (by omega), if_pos hg, hs]
            | false =>
              have hmk2 := (flp_restore (f + 1)).1 i (depth + 1) mark E n
                (some (depth + 1 + k)) maxd mk2 md2 sg2 hmi hs
              have hvnei : v ≠ i := by
                intro hc
                subst hc
                obtain ⟨mk3, md3, sg3, hres3⟩ := hfind v (depth + 1) mark E n
                  maxd k hcnt2 hach
                rw [hres3] at hs
                simp at hs
              obtain ⟨mk3, md3, sg3, hres3⟩ := ihj (i + 1) (by omega) mark
                md2 hcnt2 ⟨v, by omega, hEv, hach⟩
              refine ⟨mk3, md3, sg3, ?_⟩
              rw [flpLoop, if_pos (by omega), if_pos hg, hs]
              show flpLoop (f + 1) now depth mk2 E n
                (some (depth + 1 + k)) md2 (i + 1) = some (true, mk3, md3, sg3)
              rw [hmk2]
              exact hres3
        · have hvnei : v ≠ i := by
            intro hc
            subst hc
            rw [hEv] at hg
            rw [hvm] at hg
            simp at hg
          obtain ⟨mk3, md3, sg3, hres3⟩ := ihj (i + 1) (by omega) mark
            maxd hcnt2 ⟨v, by omega, hEv, hach⟩
          refine ⟨mk3, md3, sg3, ?_⟩
          rw [flpLoop, if_pos (by omega), if_neg hg]
          exact hres3
    exact hloop (n - i) i rfl mark maxd hcnt hwit

/-- Soundness of the unlimited exploration: every depth up to the reported
max_depth that exceeds the incoming maximum is achieved by a simple
unmarked chain from the start vertex. -/
theorem flp_explore : ∀ fuel : ℕ,
    (∀ now depth mark E n maxd mk md sg,
      now < n → mark now = false →
      find_longest_path fuel now depth mark E n none maxd =
        some (false, mk, md, sg) →
      ∀ d, depth ≤ d → d ≤ md → d ≤ maxd ∨ Achieves E n mark now (d - depth)) ∧
    (∀ now depth mark E n maxd i mk md sg,
      flpLoop fuel now depth mark E n none maxd i = some (false, mk, md, sg) →
      ∀ d, depth + 1 ≤ d → d ≤ md →
        d ≤ maxd ∨ ∃ v, E now v = true ∧
          Achieves E n mark v (d - (depth + 1))) := by
  intro fuel
  induction fuel with
  | zero =>
    constructor
    · intro now depth mark E n maxd mk md sg hn hm h
      rw [find_longest_path] at h
      exact Option.noConfusion h
    · intro now depth mark E n maxd i mk md sg h
      have hloop : ∀ j i, n - i = j → ∀ mark maxd mk md sg,
          flpLoop 0 now depth mark E n none maxd i =
            some (false, mk, md, sg) →
          ∀ d, depth + 1 ≤ d → d ≤ md →
            d ≤ maxd ∨ ∃ v, E now v = true ∧
              Achieves E n mark v (d - (depth + 1)) := by
        intro j
        induction j with
        | zero =>
          intro i hj mark maxd mk md sg h d hd1 hd2
          rw [flpLoop, if_neg (by omega)] at h
          injection h with h
          injection h with h1 h
          injection h with h2 h
          injection h with h3 h
          left
          omega
        | succ jj ihj =>
          intro i hj mark maxd mk md sg h d hd1 hd2
          rw [flpLoop, if_pos (by omega)] at h
          by_cases hg : E now i && !(mark i)
          · rw [if_pos hg] at h
            rw [find_longest_path] at h
            exact Option.noConfusion h
          · rw [if_neg hg] at h
            exact ihj (i + 1) (by omega) mark maxd mk md sg h d hd1 hd2
      exact hloop (n - i) i rfl mark maxd mk md sg h
  | succ f ihf =>
    have hfind : ∀ now depth mark E n maxd mk md sg,
        now < n → mark now = false →
        find_longest_path (f + 1) now depth mark E n none maxd =
          some (false, mk, md, sg) →
        ∀ d, depth ≤ d → d ≤ md →
          d ≤ maxd ∨ Achieves E n mark now (d - depth) := by
      intro now depth mark E n maxd mk md sg hn hm h d hd1 hd2
      rw [find_longest_path, if_neg (by simp)] at h
      rcases hl : flpLoop f now depth (updMark mark now true) E n none
          (max maxd depth) 0 with _ | ⟨b2, mk2, md2, sg2⟩
      · rw [hl] at h
        exact Option.noConfusion h
      · rw [hl] at h
        cases b2 with
        | true =>
          have := (explore_false f).2 now depth (updMark mark now true) E n
            (max maxd depth) 0 true mk2 md2 sg2 hl
          simp at this
        | false =>
          simp at h
          have hmd : md = md2 := h.2.1.symm
          by_cases hdm : d ≤ maxd
          · exact Or.inl hdm
          · by_cases hdd : d = depth
            · right
              subst hdd
              simp only [Nat.sub_self]
              exact ⟨[now], by simp, by simp, by simp, by
                intro v hv
                simp at hv
                subst hv
                exact ⟨hm, hn⟩, by simp⟩
            · have hd1' : depth + 1 ≤ d := by omega
              have := ihf.2 now depth (updMark mark now true) E n
                (max maxd depth) 0 mk2 md2 sg2 hl d hd1' (by omega)
              rcases this with hle | ⟨v, hEv, hach⟩
              · exfalso
                rcases le_max_iff.mp hle with h1 | h1 <;> omega
              · right
                obtain ⟨seg, hhead, hlen, hnd, hmarks, hchain⟩ := hach
                obtain ⟨tail, hseg⟩ : ∃ tail, seg = v :: tail := by
                  cases seg with
                  | nil => simp at hhead
                  | cons x t =>
                    simp at hhead
                    subst hhead
                    exact ⟨t, rfl⟩
                subst hseg
                have hmarks' : ∀ x ∈ v :: tail, x ≠ now ∧ mark x = false ∧
                    x < n := by
                  intro x hx
                  obtain ⟨hm1, hxn⟩ := hmarks x hx
                  by_cases hxe : x = now
                  · rw [hxe] at hm1
                    simp [updMark] at hm1
                  · rw [updMark_other _ _ hxe] at hm1
                    exact ⟨hxe, hm1, hxn⟩
                refine ⟨now :: v :: tail, by simp, ?_, ?_, ?_, ?_⟩
                · simp only [List.length_cons] at hlen ⊢
                  omega
                · rw [List.nodup_cons]
                  refine ⟨?_, hnd⟩
                  intro hc
                  exact absurd rfl (hmarks' now hc).1
                · intro x hx
                  rcases List.mem_cons.mp hx with hx1 | hx2
                  · subst hx1
                    exact ⟨hm, hn⟩
                  · exact (hmarks' x hx2).2
                · exact List.chain'_cons.mpr ⟨hEv, hchain⟩
    refine ⟨hfind, ?_⟩
    intro now depth mark E n maxd i mk md sg h
    have hloop : ∀ j i, n - i = j → ∀ mark maxd mk md sg,
        flpLoop (f + 1) now depth mark E n none maxd i =
          some (false, mk, md, sg) →
        ∀ d, depth + 1 ≤ d → d ≤ md →
          d ≤ maxd ∨ ∃ v, E now v = true ∧
            Achieves E n mark v (d - (depth + 1)) := by
      intro j
      induction j with
      | zero =>
        intro i hj mark maxd mk md sg h d hd1 hd2
        rw [flpLoop, if_neg (by omega)] at h
        injection h with h
        injection h with h1 h
        injection h with h2 h
        injection h with h3 h
        left
        omega
      | succ jj ihj =>
        intro i hj mark maxd mk md sg h d hd1 hd2
        rw [flpLoop, if_pos (by omega)] at h
        by_cases hg : E now i && !(mark i)
        · rw [if_pos hg] at h
          rcases hs : find_longest_path (f + 1) i (depth + 1) mark E n none
              maxd with _ | ⟨b2, mk2, md2, sg2⟩
          · rw [hs] at h
            exact Option.noConfusion h
          · rw [hs] at h
            cases b2 with
            | true => simp at h
            | false =>
              obtain ⟨hEi, hmi⟩ := guard_unmarked hg
              have hmk2 := (flp_restore (f + 1)).1 i (depth + 1) mark E n
                none maxd mk2 md2 sg2 hmi hs
              have h4 : flpLoop (f + 1) now depth mark E n none md2 (i + 1) =
                  some (false, mk, md, sg) := by
                rw [hmk2] at h
                exact h
              rcases ihj (i + 1) (by omega) mark md2 mk md sg h4 d hd1 hd2
                with hle | hv
              · by_cases hdm : d ≤ maxd
                · exact Or.inl hdm
                · rcases hfind i (depth + 1) mark E n maxd mk2 md2 sg2
                    (by omega) hmi hs d hd1 hle with hle2 | hach
                  · exact Or.inl hle2
                  · exact Or.inr ⟨i, hEi, hach⟩
              · exact Or.inr hv
        · rw [if_neg hg] at h
          exact ihj (i + 1) (by omega) mark maxd mk md sg h d hd1 hd2
    exact hloop (n - i) i rfl mark maxd mk md sg h

/-- A duplicate-free list of vertices below n, with the missing vertices
appended in range order, is a permutation of range n. -/
theorem perm_append_filter {sg : List ℕ} {n : ℕ} (hnd : sg.Nodup)
    (hlt : ∀ v ∈ sg, v < n) :
    (sg ++ (List.range n).filter (fun i => !(sg.contains i))).Perm
      (List.range n) := by
  apply List.perm_of_nodup_nodup_toFinset_eq
  · rw [List.nodup_append]
    refine ⟨hnd, List.Nodup.filter _ (List.nodup_range n), ?_⟩
    intro x hx hxf
    rw [List.mem_filter] at hxf
    simp at hxf
    exact hxf.2 hx
  · exact List.nodup_range n
  · ext x
    simp only [List.mem_toFinset, List.mem_append, List.mem_filter,
      List.mem_range]
    constructor
    · rintro (hx | ⟨hx, -⟩)
      · exact hlt x hx
      · exact hx
    · intro hx
      by_cases hxs : x ∈ sg
      · exact Or.inl hxs
      · refine Or.inr ⟨hx, ?_⟩
        simp [hxs]

/-- The start vertex chosen by the first planner phase is a valid table
index. -/
theorem planPhase1_snd_lt {E : ℕ → ℕ → Bool} {n : ℕ} {p : ℕ × ℕ}
    (hn : 0 < n) (h : planPhase1 E n = some p) : p.2 < n := by
  rw [planPhase1] at h
  have hfold : ∀ (l : List ℕ) (acc : ℕ × ℕ), (∀ i ∈ l, i < n) → acc.2 < n →
      l.foldlM (fun (acc : ℕ × ℕ) i => do
        let r ← find_longest_path (n + 1) i 0 (fun _ => false) E n none 0
        pure (if r.2.2.1 > acc.1 then (r.2.2.1, i) else acc)) acc = some p →
      p.2 < n := by
    intro l
    induction l with
    | nil =>
      intro acc hl hacc h
      simp only [List.foldlM_nil] at h
      cases h
      exact hacc
    | cons x xs ih =>
      intro acc hl hacc h
      rw [List.foldlM_cons] at h
      rcases hf : find_longest_path (n + 1) x 0 (fun _ => false) E n none 0
        with _ | r
      · rw [hf] at h
        simp at h
      · rw [hf] at h
        simp only [Option.bind_eq_bind, Option.some_bind, Option.pure_def] at h
        by_cases hc : r.2.2.1 > acc.1
        · rw [if_pos hc] at h
          exact ih _ (fun i hi => hl i (List.mem_cons_of_mem x hi))
            (hl x (by simp)) h
        · rw [if_neg hc] at h
          exact ih _ (fun i hi => hl i (List.mem_cons_of_mem x hi)) hacc h
  exact hfold (List.range n) (0, 0) (fun i hi => List.mem_range.mp hi) hn h

/-- The planner output path is the DFS chain followed by the unused
vertices of range n in ascending order, and is a permutation of range n. -/
theorem makePath_spec {E : ℕ → ℕ → Bool} {n : ℕ} {path : List ℕ}
    {mdep : ℕ} (hn : 0 < n) (h : makePath E n = some (path, mdep)) :
    path.Perm (List.range n) ∧
    ∃ seg : List ℕ,
      path = seg ++ (List.range n).filter (fun i => !(seg.contains i)) ∧
      seg.length = mdep + 1 ∧ seg.Nodup ∧
      seg.Chain' (fun a b => E a b = true) ∧
      (∀ v, v ∈ (List.range n).filter (fun i => !(seg.contains i)) ↔
        v < n ∧ v ∉ seg) ∧
      ((List.range n).filter (fun i => !(seg.contains i))).Sorted (· < ·) := by
  rw [makePath] at h
  rcases hp : planPhase1 E n with _ | p
  · rw [hp] at h
    simp at h
  · rw [hp] at h
    simp only [Option.bind_eq_bind, Option.some_bind] at h
    rcases hr : find_longest_path (n + 1) p.2 0 (fun _ => false) E n
        (some p.1) 0 with _ | ⟨b, mk, md, sg⟩
    · rw [hr] at h
      simp at h
    · rw [hr] at h
      simp only [Option.some_bind] at h
      cases b with
      | false => simp at h
      | true =>
        simp only [if_pos] at h
        have hpath : sg ++ (List.range n).filter
            (fun i => !(sg.contains i)) = path ∧ p.1 = mdep := by
          have h2 : (some (sg ++ (List.range n).filter
              (fun i => !(sg.contains i)), p.1) :
              Option (List ℕ × ℕ)) = some (path, mdep) := h
          injection h2 with h2
          exact ⟨congrArg Prod.fst h2, congrArg Prod.snd h2⟩
        obtain ⟨hpa, hmd⟩ := hpath
        have hp2 : p.2 < n := planPhase1_snd_lt hn hp
        obtain ⟨hhead, hlen, -, hnd, hmarks, hchain⟩ :=
          (flp_shape (n + 1)).1 p.2 0 (fun _ => false) E n p.1 0 mk md sg
            hp2 rfl hr
        subst hpa
        subst hmd
        refine ⟨perm_append_filter hnd (fun v hv => (hmarks v hv).2),
          sg, rfl, by simpa using hlen, hnd, hchain, ?_, ?_⟩
        · intro v
          simp [List.mem_filter]
        · exact List.Pairwise.filter _ (List.pairwise_lt_range n)

/-- C5: the planner output path is a permutation of the table indices
[0, table_count): its first max_depth+1 entries form a simple chain
connected by the edges of E, and the remaining entries are exactly the
unused vertices in ascending index order. -/
theorem C5_planner_path {E : ℕ → ℕ → Bool} {n : ℕ} {path : List ℕ}
    {mdep : ℕ} (hn : 0 < n) (h : makePath E n = some (path, mdep)) :
    path.Perm (List.range n) ∧
    ∃ seg : List ℕ,
      path = seg ++ (List.range n).filter (fun i => !(seg.contains i)) ∧
      seg.length = mdep + 1 ∧ seg.Nodup ∧
      seg.Chain' (fun a b => E a b = true) ∧
      (∀ v, v ∈ (List.range n).filter (fun i => !(seg.contains i)) ↔
        v < n ∧ v ∉ seg) ∧
      ((List.range n).filter (fun i => !(seg.contains i))).Sorted (· < ·) :=
  makePath_spec hn h

/-- Witness for C5 at a concrete single-table instance. -/
theorem C5_planner_path_witness :
    makePath (fun _ _ => false) 1 = some ([0], 0) ∧
    (([0] : List ℕ).Perm (List.range 1) ∧
    ∃ seg : List ℕ,
      [0] = seg ++ (List.range 1).filter (fun i => !(seg.contains i)) ∧
      seg.length = 0 + 1 ∧ seg.Nodup ∧
      seg.Chain' (fun a b => (fun _ _ => false) a b = true) ∧
      (∀ v, v ∈ (List.range 1).filter (fun i => !(seg.contains i)) ↔
        v < 1 ∧ v ∉ seg) ∧
      ((List.range 1).filter (fun i => !(seg.contains i))).Sorted (· < ·)) := by
  have hEq : makePath (fun _ _ => false) 1 = some ([0], 0) := by
    simp [makePath, planPhase1, find_longest_path, flpLoop, List.range_succ,
      updMark]
  exact ⟨hEq, C5_planner_path (by decide) hEq⟩

/-- C9: the multi-table iteration path dereferences a null predicate in
extract_and_cond before any null check, so a multi-table iterate with an
absent WHERE clause never reaches the Cartesian-product enumeration
(modelled none); the NULL-predicate-means-TRUE convention holds on the
single-table path, which emits every stored row. -/
theorem C9_null_predicate_only_single_table :
    (∀ (tables : List Table) (cb : Tuple → Bool), 2 ≤ tables.length →
      iterate tables none cb = none) ∧
    (∀ (t : Table) (cb : Tuple → Bool), (∀ tup, cb tup = true) →
      iterate [t] none cb = some (t.rows.map (fun r => [(t.name, r)]))) := by
  constructor
  · intro tables cb hlen
    match tables with
    | [] => simp at hlen
    | [t] => simp at hlen
    | [t1, t2] =>
      show (match iterate_two_tables_with_joint_cond_equal [t1, t2] t1 t2
          none cb with
        | none => none
        | some (.handled es) => some es
        | some .declined => iterate_many_tables [t1, t2] none cb) = none
      rw [show iterate_two_tables_with_joint_cond_equal [t1, t2] t1 t2
          none cb = some .declined from rfl]
      rfl
    | t1 :: t2 :: t3 :: ts => rfl
  · intro t cb hcb
    have hall : ∀ rows, oneTableLoop [t] t none
        (fun r => cb [(t.name, r)]) rows = rows := by
      intro rows
      induction rows with
      | nil => rfl
      | cons r rest ih =>
        show (if cb [(t.name, r)] = true then
            r :: oneTableLoop [t] t none (fun r => cb [(t.name, r)]) rest
          else [r]) = r :: rest
        rw [hcb [(t.name, r)], if_pos rfl, ih]
    show some ((iterate_one_table [t] t none
      (fun r => cb [(t.name, r)])).map (fun r => [(t.name, r)])) = _
    rw [iterate_one_table, hall]

/-- Witness for C9 at concrete tables. -/
theorem C9_witness :
    iterate [exA, exB] none (fun _ => true) = none ∧
    iterate [exT] none (fun _ => true) =
      some (exT.rows.map (fun r => [(exT.name, r)])) :=
  ⟨C9_null_predicate_only_single_table.1 [exA, exB] (fun _ => true)
      (by decide),
    C9_null_predicate_only_single_table.2 exT (fun _ => true)
      (fun tup => rfl)⟩

/-- C6: the MAX accumulator is initialised with numeric_limits of float min,
the smallest positive normalised float, not minus infinity: over the table
F whose single row evaluates to -1.0 the reported float MAX is 2 to the
-126 instead of the true maximum -1. -/
theorem C6_max_float_init_not_bottom :
    select_rows_aggregate [exF] [.una .opMax (.col "F" "v")] none =
      some (.aggFloat FLT_MIN) ∧
    exF.rows.map (fun r => eval [exF] [("F", r)] (.col "F" "v")) =
      [some (.vfloat (-1))] ∧
    FLT_MIN ≠ -1 := by
  refine ⟨?_, rfl, by rw [FLT_MIN]; norm_num⟩
  have hng : ¬ ((-1 : ℚ) > FLT_MIN) := by
    rw [FLT_MIN]
    norm_num
  have hstep : aggStep [exF] .opMax (.col "F" "v") ⟨INT_MIN, FLT_MIN, none, 0⟩
      [("F", ⟨1, [some (.vfloat (-1)), some (.vint 1)]⟩)] =
      ⟨INT_MIN, FLT_MIN, some .tFloat, 1⟩ := by
    rw [aggStep, if_neg (by decide)]
    rw [show eval [exF]
        [("F", (⟨1, [some (.vfloat (-1)), some (.vint 1)]⟩ : Row))]
        (.col "F" "v") = some (.vfloat (-1)) from rfl]
    dsimp only
    rw [if_neg hng]
    rfl
  have hfold : ([[("F", (⟨1, [some (.vfloat (-1)), some (.vint 1)]⟩ : Row))]]
      : List Tuple).foldl (aggStep [exF] .opMax (.col "F" "v"))
      ⟨INT_MIN, FLT_MIN, none, 0⟩ = ⟨INT_MIN, FLT_MIN, some .tFloat, 1⟩ := by
    rw [List.foldl_cons, hstep, List.foldl_nil]
  have h2 : ∀ st : AggSt,
      ([[("F", (⟨1, [some (.vfloat (-1)), some (.vint 1)]⟩ : Row))]]
        : List Tuple).foldl (aggStep [exF] .opMax (.col "F" "v"))
        ⟨INT_MIN, FLT_MIN, none, 0⟩ = st →
      select_rows_aggregate [exF] [.una .opMax (.col "F" "v")] none =
        (match st.agg_type with
         | some .tFloat => some (.aggFloat st.val_f)
         | some .tInt => some (.aggInt st.val_i)
         | _ => some .aggErr) := by
    intro st hst
    subst hst
    rfl
  exact (h2 _ hfold).trans rfl

/-- C8 counterexample: SUM over the mixed table M (an int row then a float
row) prints by the float accumulator although the first row seen is an int:
the accumulator type is the runtime type of the LAST row seen, not the
first. -/
theorem C8_counterexample :
    select_rows_aggregate [exM] [.una .opSum (.col "M" "v")] none =
      some (.aggFloat (5 / 2)) ∧
    exM.rows.map
        (fun r => (eval [exM] [("M", r)] (.col "M" "v")).map Value.tag) =
      [some .tInt, some .tFloat] := by
  constructor
  · have h1 : select_rows_aggregate [exM] [.una .opSum (.col "M" "v")] none =
        some (.aggFloat (0 + 5 / 2)) := rfl
    rw [h1]
    norm_num
  · rfl

/-- A non-COUNT accumulator step records the runtime tag of the evaluated
value, leaving the stored tag alone when the evaluation fails. -/
theorem aggStep_agg_type {tables : List Table} {op : Op} {inner : Expr}
    {st : AggSt} {tup : Tuple} (hop : op ≠ Op.opCount) :
    (aggStep tables op inner st tup).agg_type =
      (match eval tables tup inner with
       | none => st.agg_type
       | some v => some v.tag) := by
  rw [aggStep, if_neg hop]
  rcases eval tables tup inner with _ | v
  · rfl
  · rcases v <;> rcases op <;> (try rfl) <;> dsimp only <;> (split <;> rfl)

/-- C8 (amended): after folding the aggregate consumer stream, the
accumulator type agg_type is the runtime tag of the LAST tuple whose inner
expression evaluates, the initial tag when none does. -/
theorem C8_agg_type_last {tables : List Table} {op : Op} {inner : Expr}
    (hop : op ≠ Op.opCount) :
    ∀ (es : List Tuple) (st : AggSt),
    (es.foldl (aggStep tables op inner) st).agg_type =
      ((es.filterMap (fun tup => eval tables tup inner)).map
        (fun v => (some v.tag : Option ColType))).getLastD st.agg_type := by
  intro es
  induction es with
  | nil => intro st; rfl
  | cons tup rest ih =>
    intro st
    rcases he : eval tables tup inner with _ | v
    · have hfm : (tup :: rest).filterMap (fun t => eval tables t inner) =
          rest.filterMap (fun t => eval tables t inner) := by
        rw [List.filterMap_cons, he]
      rw [List.foldl_cons, ih, hfm, aggStep_agg_type hop, he]
    · have hfm : (tup :: rest).filterMap (fun t => eval tables t inner) =
          v :: rest.filterMap (fun t => eval tables t inner) := by
        rw [List.filterMap_cons, he]
      rw [List.foldl_cons, ih, hfm, List.map_cons, List.getLastD_cons,
        aggStep_agg_type hop, he]

/-- Witness for C8 on the mixed table M. -/
theorem C8_agg_type_last_witness :
    Op.opSum ≠ Op.opCount ∧
    (([[("M", exM.rows.getD 0 (exRowT 0))], [("M", exM.rows.getD 1 (exRowT 0))]]
        : List Tuple).foldl
        (aggStep [exM] .opSum (.col "M" "v")) ⟨0, 0, none, 0⟩).agg_type =
      ((([[("M", exM.rows.getD 0 (exRowT 0))],
          [("M", exM.rows.getD 1 (exRowT 0))]] : List Tuple).filterMap
          (fun tup => eval [exM] tup (.col "M" "v"))).map
        (fun v => (some v.tag : Option ColType))).getLastD
        (⟨0, 0, none, 0⟩ : AggSt).agg_type :=
  ⟨by decide, C8_agg_type_last (by decide) _ _⟩

/-- C7 counterexample: a value tuple of the wrong arity is skipped without
counting as a failure (both counters stay 0), and a type-incompatible value
aborts the whole statement instead of counting the tuple as failed and
continuing. -/
theorem C7_counterexample :
    (insert_rows exOracle exA none [[.lit (.vint 7)]]).map
        (fun r => (r.1, r.2.1)) = some (0, 0) ∧
    insert_rows exOracle exA none
      [[.lit (.vfloat 1), .lit (.vint 2)], [.lit (.vint 3), .lit (.vint 4)]] =
      none := by
  exact ⟨rfl, rfl⟩

/-- C7 (amended): over any run of the INSERT loop that reaches the summary,
the counters advance exactly on the arity-correct tuples - each such tuple
is counted once as success or failure, an arity-mismatched tuple touches no
counter, and each success appends one committed row. -/
theorem C7_insert_counts {oracle : InsertOracle} {tb : Table}
    {cols_id : List ℕ} :
    ∀ (vs : List (List Expr)) (j succ fail : ℕ) (rows : List Row)
      (out : ℕ × ℕ × List Row),
    insertLoop oracle tb cols_id vs j (succ, fail, rows) = some out →
    ∃ s f, out.1 = succ + s ∧ out.2.1 = fail + f ∧
      s + f = vs.countP (fun e => e.length = cols_id.length) ∧
      out.2.2.length = rows.length + s := by
  intro vs
  induction vs with
  | nil =>
    intro j succ fail rows out h
    rw [insertLoop] at h
    cases h
    exact ⟨0, 0, rfl, rfl, by simp, by simp⟩
  | cons exprs rest ih =>
    intro j succ fail rows out h
    rw [insertLoop] at h
    by_cases har : exprs.length ≠ cols_id.length
    · rw [if_pos har] at h
      obtain ⟨s, f, h1, h2, h3, h4⟩ := ih (j + 1) succ fail rows out h
      refine ⟨s, f, h1, h2, ?_, h4⟩
      rw [List.countP_cons]
      simp only [decide_eq_true_eq]
      rw [if_neg har]
      omega
    · rw [if_neg har] at h
      rcases ht : insertTuple oracle tb j (cols_id.zip exprs)
          (List.replicate tb.colNames.length none) with _ | ⟨ok, temp⟩
      · rw [ht] at h
        exact Option.noConfusion h
      · rw [ht] at h
        have hcount : (exprs :: rest).countP
            (fun e => e.length = cols_id.length) =
            rest.countP (fun e => e.length = cols_id.length) + 1 := by
          rw [List.countP_cons]
          simp only [decide_eq_true_eq]
          rw [if_pos (by omega)]
        have h5 : insertLoop oracle tb cols_id rest (j + 1)
            (if ok && oracle.commitOk j then
              (succ + 1, fail, rows ++ [⟨(j : ℤ) + 1, temp⟩])
             else (succ, fail + 1, rows)) = some out := h
        by_cases hc : (ok && oracle.commitOk j) = true
        · rw [if_pos hc] at h5
          obtain ⟨s, f, h1, h2, h3, h4⟩ := ih (j + 1) (succ + 1) fail
            (rows ++ [⟨(j : ℤ) + 1, temp⟩]) out h5
          refine ⟨s + 1, f, by omega, h2, ?_, ?_⟩
          · rw [hcount]; omega
          · rw [h4]; simp; omega
        · rw [if_neg hc] at h5
          obtain ⟨s, f, h1, h2, h3, h4⟩ := ih (j + 1) succ (fail + 1)
            rows out h5
          refine ⟨s, f + 1, h1, by omega, ?_, h4⟩
          rw [hcount]; omega

/-- Witness for C7: one committing tuple followed by one arity-mismatched
tuple gives success count 1, failure count 0 and a single appended row. -/
theorem C7_insert_counts_witness :
    insertLoop exOracle exA (List.range 2)
        [[.lit (.vint 7), .lit (.vint 8)], [.lit (.vint 9)]] 0 (0, 0, []) =
      some (1, 0, [⟨1, [some (.vint 7), some (.vint 8), none]⟩]) ∧
    ∃ s f, (1 : ℕ) = 0 + s ∧ (0 : ℕ) = 0 + f ∧
      s + f = ([[.lit (.vint 7), .lit (.vint 8)], [.lit (.vint 9)]] :
          List (List Expr)).countP
        (fun e => e.length = (List.range 2).length) ∧
      ([⟨1, [some (.vint 7), some (.vint 8), none]⟩] : List Row).length =
        ([] : List Row).length + s := by
  have hEq : insertLoop exOracle exA (List.range 2)
      [[.lit (.vint 7), .lit (.vint 8)], [.lit (.vint 9)]] 0 (0, 0, []) =
      some (1, 0, [⟨1, [some (.vint 7), some (.vint 8), none]⟩]) := by
    decide
  exact ⟨hEq, C7_insert_counts _ 0 0 0 [] _ hEq⟩

/-! ### Permutation toolbox for the nested-loop enumeration -/

theorem perm_flatMap_congr {α β : Type} {l : List α} {f g : α → List β}
    (h : ∀ a ∈ l, (f a).Perm (g a)) : (l.flatMap f).Perm (l.flatMap g) := by
  induction l with
  | nil => simp
  | cons a rest ih =>
    rw [List.flatMap_cons, List.flatMap_cons]
    exact (h a (by simp)).append
      (ih (fun x hx => h x (List.mem_cons_of_mem a hx)))

theorem perm_flatMap_append {α β : Type} (l : List α) (f g : α → List β) :
    (l.flatMap (fun a => f a ++ g a)).Perm (l.flatMap f ++ l.flatMap g) := by
  induction l with
  | nil => simp
  | cons a rest ih =>
    rw [List.flatMap_cons, List.flatMap_cons, List.flatMap_cons]
    have h1 : (f a ++ g a) ++ (rest.flatMap (fun a => f a ++ g a)) =
        f a ++ (g a ++ rest.flatMap (fun a => f a ++ g a)) := by
      rw [List.append_assoc]
    have h2 : (f a ++ rest.flatMap f) ++ (g a ++ rest.flatMap g) =
        f a ++ (rest.flatMap f ++ (g a ++ rest.flatMap g)) := by
      rw [List.append_assoc]
    rw [h1, h2]
    apply List.Perm.append_left
    have h3 : (g a ++ rest.flatMap (fun a => f a ++ g a)).Perm
        (g a ++ (rest.flatMap f ++ rest.flatMap g)) :=
      List.Perm.append_left _ ih
    refine h3.trans ?_
    rw [← List.append_assoc, ← List.append_assoc]
    exact List.perm_append_comm.append_right _

theorem perm_flatMap_swap {α β γ : Type} (xs : List α) (ys : List β)
    (F : α → β → List γ) :
    (xs.flatMap (fun a => ys.flatMap (fun b => F a b))).Perm
      (ys.flatMap (fun b => xs.flatMap (fun a => F a b))) := by
  induction xs with
  | nil => simp
  | cons a rest ih =>
    rw [List.flatMap_cons]
    have h2 : ys.flatMap (fun b => (a :: rest).flatMap (fun x => F x b)) =
        ys.flatMap (fun b => F a b ++ rest.flatMap (fun x => F x b)) := by
      simp only [List.flatMap_cons]
    rw [h2]
    exact (List.Perm.append_left _ ih).trans (perm_flatMap_append ys _ _).symm

theorem filter_flatMap_comm {α β : Type} (l : List α) (f : α → List β)
    (p : β → Bool) :
    (l.flatMap f).filter p = l.flatMap (fun a => (f a).filter p) := by
  induction l with
  | nil => rfl
  | cons a rest ih =>
    rw [List.flatMap_cons, List.flatMap_cons, List.filter_append, ih]

theorem flatMap_eq_filter_flatMap {α β : Type} {l : List α} {f : α → List β}
    {p : α → Bool} (h : ∀ a ∈ l, p a = false → f a = []) :
    l.flatMap f = (l.filter p).flatMap f := by
  induction l with
  | nil => rfl
  | cons a rest ih =>
    have ih2 := ih (fun x hx => h x (List.mem_cons_of_mem a hx))
    cases hp : p a with
    | true => simp [List.flatMap_cons, List.filter_cons, hp, ih2]
    | false =>
      simp [List.flatMap_cons, List.filter_cons, hp, h a (by simp) hp, ih2]

/-! ### The executor's extension space as a product over positions -/

theorem extTuples_eq_extT {tables : List Table} {path : List ℕ} :
    ∀ (k : ℕ) (recs : List (Option Row)), k ≤ path.length →
    extTuples tables path k recs = extT tables ((path.take k).reverse) recs := by
  intro k
  induction k with
  | zero => intro recs _; rfl
  | succ j ih =>
    intro recs hk
    have hj : j < path.length := by omega
    have htake : (path.take (j + 1)).reverse =
        path.getD j 0 :: (path.take j).reverse := by
      rw [List.take_succ, List.reverse_append, List.getElem?_eq_getElem hj]
      simp [List.getD_eq_getElem?_getD, List.getElem?_eq_getElem hj]
    rw [extTuples, htake, extT]
    rw [show (fun r => extTuples tables path j
          (recs.set (path.getD j 0) (some r))) =
        (fun r => extT tables (path.take j).reverse
          (recs.set (path.getD j 0) (some r))) from
      funext (fun r => ih _ (by omega))]

theorem extT_swap {tables : List Table} (a b : ℕ) (ps : List ℕ)
    (recs : List (Option Row)) :
    (extT tables (a :: b :: ps) recs).Perm (extT tables (b :: a :: ps) recs) := by
  by_cases hab : a = b
  · subst hab
    exact List.Perm.refl _
  · simp only [extT]
    have hcomm : ∀ (r1 r2 : Row),
        (recs.set a (some r1)).set b (some r2) =
        (recs.set b (some r2)).set a (some r1) := by
      intro r1 r2
      exact List.set_comm _ _ _ hab
    refine (perm_flatMap_swap _ _ _).trans ?_
    rw [show (fun r2 => (tables.getD a defaultTable).rows.flatMap
          (fun r1 => extT tables ps ((recs.set a (some r1)).set b (some r2)))) =
        (fun r2 => (tables.getD a defaultTable).rows.flatMap
          (fun r1 => extT tables ps ((recs.set b (some r2)).set a (some r1)))) from
      funext (fun r2 => by
        rw [show (fun r1 => extT tables ps
              ((recs.set a (some r1)).set b (some r2))) =
            (fun r1 => extT tables ps
              ((recs.set b (some r2)).set a (some r1))) from
          funext (fun r1 => by rw [hcomm])])]

theorem extT_perm {tables : List Table} {ps qs : List ℕ} (h : ps.Perm qs) :
    ∀ recs, (extT tables ps recs).Perm (extT tables qs recs) := by
  induction h with
  | nil => intro recs; exact List.Perm.refl _
  | cons x h ih =>
    intro recs
    simp only [extT]
    exact perm_flatMap_congr (fun r _ => ih _)
  | swap x y l =>
    intro recs
    exact extT_swap y x l recs
  | trans h1 h2 ih1 ih2 =>
    intro recs
    exact (ih1 recs).trans (ih2 recs)

theorem extT_range' {tables : List Table} :
    ∀ (m k : ℕ) (recs : List (Option Row)), k + m = tables.length →
    extT tables (List.range' k m) recs =
      (productTuples (tables.drop k)).map (fun tup => setFrom recs k tup) := by
  intro m
  induction m with
  | zero =>
    intro k recs hk
    rw [show List.range' k 0 = [] from rfl, extT,
      List.drop_eq_nil_of_le (by omega)]
    rfl
  | succ m ih =>
    intro k recs hk
    have hklt : k < tables.length := by omega
    rw [List.range'_succ, extT, List.drop_eq_getElem_cons hklt, productTuples,
      List.map_flatMap]
    rw [show tables.getD k defaultTable = tables[k] by
      rw [List.getD_eq_getElem?_getD, List.getElem?_eq_getElem hklt]; rfl]
    rw [show (fun r => (productTuples (tables.drop (k + 1))).map
          (fun tup => (tables[k].name, r) :: tup) |>.map
          (fun tup => setFrom recs k tup)) =
        (fun r => (productTuples (tables.drop (k + 1))).map
          (fun tup => setFrom (recs.set k (some r)) (k + 1) tup)) from
      funext (fun r => by rw [List.map_map]; rfl)]
    rw [show (fun r => (productTuples (tables.drop (k + 1))).map
          (fun tup => setFrom (recs.set k (some r)) (k + 1) tup)) =
        (fun r => extT tables (List.range' (k + 1) m)
          (recs.set k (some r))) from
      funext (fun r => (ih (k + 1) _ (by omega)).symm)]

theorem setFrom_shift : ∀ (tup : Tuple) (v : Option Row)
    (rest : List (Option Row)) (k : ℕ),
    setFrom (v :: rest) (k + 1) tup = v :: setFrom rest k tup := by
  intro tup
  induction tup with
  | nil => intro v rest k; rfl
  | cons q tup ih =>
    intro v rest k
    rw [show setFrom (v :: rest) (k + 1) (q :: tup) =
        setFrom ((v :: rest).set (k + 1) (some q.2)) (k + 1 + 1) tup from rfl]
    rw [show (v :: rest).set (k + 1) (some q.2) =
        v :: rest.set k (some q.2) from rfl]
    rw [ih]
    rfl

theorem setFrom_replicate : ∀ (tup : Tuple),
    setFrom (List.replicate tup.length none) 0 tup = toRecs tup := by
  intro tup
  induction tup with
  | nil => rfl
  | cons p tup ih =>
    rw [show (p :: tup).length = tup.length + 1 from rfl, List.replicate_succ]
    rw [show setFrom (none :: List.replicate tup.length none) 0 (p :: tup) =
        setFrom ((none :: List.replicate tup.length (none : Option Row)).set 0
          (some p.2)) 1 tup from rfl]
    rw [show (none :: List.replicate tup.length (none : Option Row)).set 0
        (some p.2) = some p.2 :: List.replicate tup.length none from rfl]
    rw [show (1 : ℕ) = 0 + 1 from rfl, setFrom_shift, ih]
    rfl

/-- Every Cartesian-product tuple pairs, position by position, each table's
name with one of its rows. -/
theorem productTuples_forall2 : ∀ (tables : List Table),
    ∀ tup ∈ productTuples tables,
    List.Forall₂ (fun (t : Table) (p : String × Row) =>
      p.1 = t.name ∧ p.2 ∈ t.rows) tables tup := by
  intro tables
  induction tables with
  | nil =>
    intro tup h
    rw [productTuples] at h
    simp at h
    subst h
    exact List.Forall₂.nil
  | cons t ts ih =>
    intro tup h
    rw [productTuples, List.mem_flatMap] at h
    obtain ⟨r, hr, hmem⟩ := h
    rw [List.mem_map] at hmem
    obtain ⟨tup', htup', rfl⟩ := hmem
    exact List.Forall₂.cons ⟨rfl, hr⟩ (ih tup' htup')

theorem assembleTuple_toRecs {tables : List Table} {tup : Tuple}
    (h : List.Forall₂ (fun (t : Table) (p : String × Row) =>
      p.1 = t.name ∧ p.2 ∈ t.rows) tables tup) :
    assembleTuple tables (toRecs tup) = some tup := by
  induction h with
  | nil => rfl
  | cons hp hrest ih =>
    rename_i t p ts tup'
    rw [show toRecs (p :: tup') = some p.2 :: toRecs tup' from rfl]
    rw [assembleTuple] at ih ⊢
    rw [show List.zip (t :: ts) (some p.2 :: toRecs tup') =
        (t, some p.2) :: List.zip ts (toRecs tup') from rfl]
    rw [List.mapM_cons, ih]
    have hname : (t.name, p.2) = p := by
      obtain ⟨h1, -⟩ := hp
      exact Prod.ext h1.symm rfl
    simp [hname]

theorem tupleOfD_toRecs {tables : List Table} {tup : Tuple}
    (h : List.Forall₂ (fun (t : Table) (p : String × Row) =>
      p.1 = t.name ∧ p.2 ∈ t.rows) tables tup) :
    tupleOfD tables (toRecs tup) = tup := by
  rw [tupleOfD, assembleTuple_toRecs h]
  rfl

/-- The product tuples all have the full table count as length. -/
theorem productTuples_length {tables : List Table} {tup : Tuple}
    (h : tup ∈ productTuples tables) : tup.length = tables.length :=
  ((productTuples_forall2 tables tup h).length_eq).symm

theorem getD_set_self {α : Type} {l : List α} {i : ℕ} (v d : α)
    (h : i < l.length) : (l.set i v).getD i d = v := by
  rw [List.getD_eq_getElem?_getD,
    List.getElem?_eq_getElem (by simpa using h)]
  simp

theorem getD_set_ne {α : Type} {l : List α} {i j : ℕ} (v d : α)
    (h : i ≠ j) : (l.set i v).getD j d = l.getD j d := by
  rw [List.getD_eq_getElem?_getD, List.getD_eq_getElem?_getD,
    List.getElem?_set_ne h]

theorem getD_nodup_ne {l : List ℕ} (hnd : l.Nodup) {i j : ℕ} (hij : i < j)
    (hj : j < l.length) : l.getD i 0 ≠ l.getD j 0 := by
  have hi : i < l.length := by omega
  have h := List.nodup_iff_getElem?_ne_getElem?.mp hnd i j hij hj
  rw [List.getElem?_eq_getElem hi, List.getElem?_eq_getElem hj] at h
  rw [List.getD_eq_getElem?_getD, List.getD_eq_getElem?_getD,
    List.getElem?_eq_getElem hi, List.getElem?_eq_getElem hj]
  intro hc
  simp only [Option.getD_some] at hc
  exact h (by rw [hc])

theorem getD_mem {l : List ℕ} {i : ℕ} (h : i < l.length) : l.getD i 0 ∈ l := by
  rw [List.getD_eq_getElem?_getD, List.getElem?_eq_getElem h]
  exact List.getElem_mem h

/-! ### Record-vector bindings against the name cache -/

theorem recsLookup_set_other {tables : List Table} {recs : List (Option Row)}
    {p : ℕ} {v : Option Row} {nm : String}
    (hne : (tables.getD p defaultTable).name ≠ nm) :
    recsLookup tables (recs.set p v) nm = recsLookup tables recs nm := by
  rw [recsLookup, recsLookup]
  cases hq : lookupTable tables nm with
  | none => rfl
  | some q =>
    have hqp : p ≠ q := by
      intro hc
      subst hc
      exact hne (lookupTable_name_eq hq)
    show (recs.set p v).getD q none = recs.getD q none
    rw [getD_set_ne _ _ hqp]

theorem recsLookup_set_self {tables : List Table} {recs : List (Option Row)}
    (hnames : (tables.map Table.name).Nodup) {p : ℕ}
    (hp : p < tables.length) (hlen : recs.length = tables.length)
    (v : Option Row) :
    recsLookup tables (recs.set p v) (tables.getD p defaultTable).name = v := by
  rw [recsLookup, lookupTable_self hnames hp]
  exact getD_set_self _ _ (by omega)

/-- A complete record vector assembles, and the result pairs each table's
name with its bound row. -/
theorem assembleTuple_complete {tables : List Table} :
    ∀ (recs : List (Option Row)), recs.length = tables.length →
    (∀ q, q < tables.length → (recs.getD q none).isSome) →
    ∃ tup, assembleTuple tables recs = some tup ∧
      List.Forall₂ (fun (t : Table) (p : String × Row) => p.1 = t.name)
        tables tup ∧
      List.Forall₂ (fun (or : Option Row) (p : String × Row) => or = some p.2)
        recs tup := by
  induction tables with
  | nil =>
    intro recs hlen hsome
    have : recs = [] := List.eq_nil_of_length_eq_zero hlen
    subst this
    exact ⟨[], rfl, List.Forall₂.nil, List.Forall₂.nil⟩
  | cons t ts ih =>
    intro recs hlen hsome
    cases recs with
    | nil => simp at hlen
    | cons or rest =>
      obtain ⟨r, hr⟩ := Option.isSome_iff_exists.mp (hsome 0 (by simp))
      have hr2 : or = some r := hr
      subst hr2
      obtain ⟨tup, htup, hf1, hf2⟩ := ih rest (by simpa using hlen)
        (fun q hq => hsome (q + 1) (by simpa using hq))
      refine ⟨(t.name, r) :: tup, ?_, List.Forall₂.cons rfl hf1,
        List.Forall₂.cons rfl hf2⟩
      rw [assembleTuple] at htup ⊢
      rw [show List.zip (t :: ts) (some r :: rest) =
        (t, some r) :: List.zip ts rest from rfl, List.mapM_cons, htup]
      rfl

/-- Looking up the assembled tuple by name is looking up the record vector
through the table list. -/
theorem cacheLookup_assembled {tables : List Table} {tup : Tuple} :
    ∀ {recs : List (Option Row)},
    List.Forall₂ (fun (t : Table) (p : String × Row) => p.1 = t.name)
      tables tup →
    List.Forall₂ (fun (or : Option Row) (p : String × Row) => or = some p.2)
      recs tup →
    ∀ nm, cacheLookup tup nm = recsLookup tables recs nm := by
  induction tables generalizing tup with
  | nil =>
    intro recs h1 h2 nm
    have htup : tup = [] := (List.forall₂_nil_left_iff.mp h1)
    subst htup
    have hrecs : recs = [] := (List.forall₂_nil_right_iff.mp h2)
    subst hrecs
    rfl
  | cons t ts ih =>
    intro recs h1 h2 nm
    obtain ⟨p, tup', hp, h1', rfl⟩ := List.forall₂_cons_left_iff.mp h1
    obtain ⟨or, rest, hor, h2', rfl⟩ := List.forall₂_cons_right_iff.mp h2
    subst hor
    obtain ⟨pn, pr⟩ := p
    have hp2 : pn = t.name := hp
    subst hp2
    by_cases hnm : t.name = nm
    · subst hnm
      rw [cacheLookup_cons_self, recsLookup, lookupTable, List.findIdx?_cons,
        if_pos (by simp)]
      rfl
    · rw [cacheLookup_cons_ne hnm pr tup', ih h1' h2' nm, recsLookup,
        recsLookup, lookupTable, lookupTable, List.findIdx?_cons,
        if_neg (by simp [hnm]), List.findIdx?_succ]
      cases hq : ts.findIdx? (fun t => t.name == nm) with
      | none => rfl
      | some q => rfl

/-! ### Shape of the executor's partial extensions -/

theorem extTuples_mem_spec {tables : List Table} {path : List ℕ}
    (hnd : path.Nodup) (hplt : ∀ v ∈ path, v < tables.length) :
    ∀ (k : ℕ) (recs : List (Option Row)), k ≤ path.length →
    recs.length = tables.length →
    ∀ rs ∈ extTuples tables path k recs,
    rs.length = recs.length ∧
    (∀ q, (∀ i, i < k → path.getD i 0 ≠ q) →
      rs.getD q none = recs.getD q none) ∧
    (∀ i, i < k → ∃ r ∈ (tables.getD (path.getD i 0) defaultTable).rows,
      rs.getD (path.getD i 0) none = some r) := by
  intro k
  induction k with
  | zero =>
    intro recs hk hlen rs hrs
    rw [extTuples] at hrs
    simp at hrs
    subst hrs
    exact ⟨rfl, fun q _ => rfl, fun i hi => absurd hi (by omega)⟩
  | succ j ih =>
    intro recs hk hlen rs hrs
    rw [extTuples, List.mem_flatMap] at hrs
    obtain ⟨r0, hr0, hrs⟩ := hrs
    obtain ⟨hL, hU, hB⟩ := ih (recs.set (path.getD j 0) (some r0)) (by omega)
      (by simpa using hlen) rs hrs
    have hjlt : j < path.length := by omega
    refine ⟨by simpa using hL, ?_, ?_⟩
    · intro q hq
      rw [hU q (fun i hi => hq i (by omega))]
      exact getD_set_ne _ _ (hq j (by omega))
    · intro i hi
      by_cases hij : i = j
      · subst hij
        refine ⟨r0, hr0, ?_⟩
        rw [hU _ (fun i2 hi2 => getD_nodup_ne hnd hi2 hjlt)]
        exact getD_set_self _ _ (by rw [hlen]; exact hplt _ (getD_mem hjlt))
      · exact hB i (by omega)

/-- The full extension space from the empty record vector over a path
covering every table is the Cartesian product, position-coded. -/
theorem extTuples_full_perm {tables : List Table} {path : List ℕ}
    (hperm : path.Perm (List.range tables.length)) :
    (extTuples tables path path.length
      (List.replicate tables.length none)).Perm
      ((productTuples tables).map toRecs) := by
  rw [extTuples_eq_extT path.length _ (le_refl _), List.take_length]
  have h1 : (path.reverse).Perm (List.range tables.length) :=
    (path.reverse_perm).trans hperm
  refine (extT_perm h1 _).trans ?_
  rw [List.range_eq_range',
    extT_range' tables.length 0 _ (by omega), List.drop_zero]
  apply List.Perm.of_eq
  apply List.map_congr_left
  intro tup htup
  rw [show tables.length = tup.length from (productTuples_length htup).symm,
    setFrom_replicate]

theorem name_getD_ne {tables : List Table}
    (hn : (tables.map Table.name).Nodup) {p q : ℕ} (hp : p < tables.length)
    (hq : q < tables.length) (hne : p ≠ q) :
    (tables.getD p defaultTable).name ≠ (tables.getD q defaultTable).name := by
  intro hc
  have h1 := lookupTable_self hn hp
  have h2 := lookupTable_self hn hq
  rw [hc] at h1
  rw [h1] at h2
  injection h2 with h2
  exact hne h2

theorem getD_table_mem {tables : List Table} {p : ℕ}
    (hp : p < tables.length) : tables.getD p defaultTable ∈ tables := by
  rw [List.getD_eq_getElem?_getD, List.getElem?_eq_getElem hp]
  exact List.getElem_mem hp

/-- In a well-formed table no stored column value is NULL. -/
theorem wf_valAt_isSome {t : Table} (hwf : t.wf) {r : Row} (hr : r ∈ t.rows)
    {ci : ℕ} (hci : ci < t.colNames.length) : (r.valAt ci).isSome := by
  obtain ⟨h1, -⟩ := hwf
  obtain ⟨hlen, hall⟩ := h1 r hr
  rw [Row.valAt, List.getD_eq_getElem?_getD,
    List.getElem?_eq_getElem (by omega)]
  simpa using hall _ (List.getElem_mem (by omega))

/-- The full-scan level: when every level below returns its tuples with a
true continue flag, the scan concatenates them over the records in stored
order. -/
theorem implScanLoop_enum {pos : ℕ} {nm : String}
    {go : List (Option Row) → Cache → Option (List Tuple × Bool)}
    {recs : List (Option Row)} {cache : Cache} {T : Row → List Tuple} :
    ∀ rows : List Row,
    (∀ r ∈ rows, ∃ es, go (recs.set pos (some r)) ((nm, r) :: cache) =
      some (es, true) ∧ es.Perm (T r)) →
    ∃ es, implScanLoop pos nm go recs cache rows = some (es, true) ∧
      es.Perm (rows.flatMap T) := by
  intro rows
  induction rows with
  | nil => intro _; exact ⟨[], rfl, by simp⟩
  | cons r rest ih =>
    intro h
    obtain ⟨es1, hgo, hp1⟩ := h r (by simp)
    obtain ⟨es2, hrec, hp2⟩ := ih (fun x hx => h x (List.mem_cons_of_mem r hx))
    refine ⟨es1 ++ es2, ?_, ?_⟩
    · rw [implScanLoop]
      rw [hgo]
      simp only [Option.bind_eq_bind, Option.some_bind, if_pos]
      rw [hrec]
      rfl
    · rw [List.flatMap_cons]
      exact hp1.append hp2

/-- The index-probe level: the conjunct computes the key-equality flag, a
false flag stops the ordered probe, and the emitted tuples are those of the
key-equal prefix. -/
theorem implProbeLoop_enum {tables : List Table} {pos : ℕ} {nm : String}
    {conj : Expr}
    {go : List (Option Row) → Cache → Option (List Tuple × Bool)}
    {recs : List (Option Row)} {cache : Cache} {T : Row → List Tuple}
    (eqk : Row → Bool) :
    ∀ L : List Row,
    (∀ r ∈ L, evalBool tables ((nm, r) :: cache) conj = some (eqk r)) →
    (∀ r ∈ L, eqk r = true →
      ∃ es, go (recs.set pos (some r)) ((nm, r) :: cache) =
        some (es, true) ∧ es.Perm (T r)) →
    ∃ es, implProbeLoop tables pos nm conj go recs cache L =
      some (es, true) ∧ es.Perm ((L.takeWhile eqk).flatMap T) := by
  intro L
  induction L with
  | nil => intro _ _; exact ⟨[], rfl, by simp⟩
  | cons r rest ih =>
    intro heval hgo
    have he := heval r (by simp)
    cases hk : eqk r with
    | false =>
      rw [hk] at he
      refine ⟨[], ?_, ?_⟩
      · rw [implProbeLoop, he]
      · simp [List.takeWhile_cons, hk]
    | true =>
      rw [hk] at he
      obtain ⟨es1, hg1, hp1⟩ := hgo r (by simp) hk
      obtain ⟨es2, hrec, hp2⟩ := ih
        (fun x hx => heval x (List.mem_cons_of_mem r hx))
        (fun x hx hkx => hgo x (List.mem_cons_of_mem r hx) hkx)
      refine ⟨es1 ++ es2, ?_, ?_⟩
      · rw [implProbeLoop, he]
        rw [hg1]
        simp only [Option.bind_eq_bind, Option.some_bind, if_pos]
        rw [hrec]
        rfl
      · rw [List.takeWhile_cons, hk]
        rw [if_pos rfl, List.flatMap_cons]
        exact hp1.append hp2

theorem perm_flatMap_left {α β : Type} {l1 l2 : List α} (f : α → List β)
    (h : l1.Perm l2) : (l1.flatMap f).Perm (l2.flatMap f) := by
  induction h with
  | nil => exact List.Perm.refl _
  | cons x h ih =>
    rw [List.flatMap_cons, List.flatMap_cons]
    exact List.Perm.append_left (f x) ih
  | swap x y l =>
    rw [List.flatMap_cons, List.flatMap_cons, List.flatMap_cons,
      List.flatMap_cons, ← List.append_assoc, ← List.append_assoc]
    exact List.perm_append_comm.append_right _
  | trans h1 h2 ih1 ih2 => exact ih1.trans ih2

/-- The nested executor enumerates, as a multiset, exactly the extensions
of the current record vector that pass the full predicate, handing each to
the consumer in assembled form; under a throw-free predicate and a
consumer accepting every passing tuple it never stops early. -/
theorem impl_enum {tables : List Table} {J : ℕ → ℕ → Option Expr}
    {path : List ℕ} {icid iref : List (Option ℕ)} {c : Expr}
    {cb : Tuple → Bool}
    (htw : TablesWf tables)
    (hsetup : SetupInv tables c J path icid iref)
    (hplt : ∀ v ∈ path, v < tables.length) (hnd : path.Nodup)
    (hcover : ∀ q, q < tables.length →
      ∃ i, i < path.length ∧ path.getD i 0 = q) :
    ∀ (k : ℕ) (recs : List (Option Row)) (cache : Cache),
    k ≤ path.length →
    recs.length = tables.length →
    (∀ nm, cacheLookup cache nm = recsLookup tables recs nm) →
    (∀ i, k ≤ i → i < path.length →
      ∃ r ∈ (tables.getD (path.getD i 0) defaultTable).rows,
        recs.getD (path.getD i 0) none = some r) →
    (∀ rs ∈ extTuples tables path k recs,
      (evalBool tables (tupleOfD tables rs) c).isSome) →
    (∀ rs ∈ extTuples tables path k recs,
      evalBool tables (tupleOfD tables rs) c = some true →
      cb (tupleOfD tables rs) = true) →
    ∃ es, iterate_many_tables_impl tables J path icid iref c cb k recs cache =
      some (es, true) ∧
      es.Perm (((extTuples tables path k recs).filter
        (fun rs => decide (evalBool tables (tupleOfD tables rs) c =
          some true))).map (tupleOfD tables)) := by
  intro k
  induction k with
  | zero =>
    intro recs cache hk hlen hcache hbound hev hcb
    have hcomp : ∀ q, q < tables.length → (recs.getD q none).isSome := by
      intro q hq
      obtain ⟨i, hi, hpi⟩ := hcover q hq
      obtain ⟨r, -, hr⟩ := hbound i (Nat.zero_le i) hi
      rw [hpi] at hr
      rw [hr]
      rfl
    obtain ⟨tup, htup, hf1, hf2⟩ := assembleTuple_complete recs hlen hcomp
    have htupD : tupleOfD tables recs = tup := by rw [tupleOfD, htup]; rfl
    have hcl : ∀ nm, cacheLookup tup nm = recsLookup tables recs nm :=
      cacheLookup_assembled hf1 hf2
    have heval_eq : evalBool tables cache c = evalBool tables tup c := by
      apply evalBool_congr
      intro nm _
      rw [hcache nm, hcl nm]
    have hrs : recs ∈ extTuples tables path 0 recs := by
      rw [extTuples]
      simp
    have hevr := hev recs hrs
    rw [htupD] at hevr
    rcases hb : evalBool tables tup c with _ | b
    · rw [hb] at hevr
      simp at hevr
    · cases b with
      | false =>
        refine ⟨[], ?_, ?_⟩
        · rw [iterate_many_tables_impl, heval_eq, hb]
        · rw [extTuples]
          simp [htupD, hb]
      | true =>
        have hcbr := hcb recs hrs (by rw [htupD]; exact hb)
        rw [htupD] at hcbr
        refine ⟨[tup], ?_, ?_⟩
        · rw [iterate_many_tables_impl, heval_eq, hb]
          rw [htup]
          simp only [Option.bind_eq_bind, Option.some_bind]
          rw [hcbr]
          rfl
        · rw [extTuples]
          simp [htupD, hb]
  | succ j ih =>
    intro recs cache hk hlen hcache hbound hev hcb
    have hnames := htw.2
    have hjlt : j < path.length := by omega
    have hposlt : path.getD j 0 < tables.length := hplt _ (getD_mem hjlt)
    have hget : path.get? j = some (path.getD j 0) := by
      rw [List.get?_eq_getElem?, List.getElem?_eq_getElem hjlt,
        List.getD_eq_getElem?_getD, List.getElem?_eq_getElem hjlt]
      rfl
    have hcall : ∀ r ∈ (tables.getD (path.getD j 0) defaultTable).rows,
        ∃ es, iterate_many_tables_impl tables J path icid iref c cb j
          (recs.set (path.getD j 0) (some r))
          (((tables.getD (path.getD j 0) defaultTable).name, r) :: cache) =
          some (es, true) ∧
        es.Perm (((extTuples tables path j
            (recs.set (path.getD j 0) (some r))).filter
          (fun rs => decide (evalBool tables (tupleOfD tables rs) c =
            some true))).map (tupleOfD tables)) := by
      intro r hr
      apply ih
      · omega
      · simpa using hlen
      · intro nm
        by_cases hnm : (tables.getD (path.getD j 0) defaultTable).name = nm
        · subst hnm
          rw [cacheLookup_cons_self, recsLookup_set_self hnames hposlt hlen]
        · rw [cacheLookup_cons_ne hnm, hcache nm, recsLookup_set_other hnm]
      · intro i hi hilt
        by_cases hij : i = j
        · subst hij
          refine ⟨r, hr, ?_⟩
          exact getD_set_self _ _ (by omega)
        · obtain ⟨r2, hr2, hre⟩ := hbound i (by omega) hilt
          refine ⟨r2, hr2, ?_⟩
          rw [getD_set_ne _ _ (getD_nodup_ne hnd (by omega) hilt), hre]
      · intro rs hrs
        apply hev
        rw [extTuples, List.mem_flatMap]
        exact ⟨r, hr, hrs⟩
      · intro rs hrs
        apply hcb
        rw [extTuples, List.mem_flatMap]
        exact ⟨r, hr, hrs⟩
    have htarget : ((extTuples tables path (j + 1) recs).filter
          (fun rs => decide (evalBool tables (tupleOfD tables rs) c =
            some true))).map (tupleOfD tables) =
        (tables.getD (path.getD j 0) defaultTable).rows.flatMap (fun r =>
          ((extTuples tables path j
              (recs.set (path.getD j 0) (some r))).filter
            (fun rs => decide (evalBool tables (tupleOfD tables rs) c =
              some true))).map (tupleOfD tables)) := by
      rw [extTuples, filter_flatMap_comm, List.map_flatMap]
    rcases hiref : iref.getD j none with _ | ip
    · -- full-scan level
      obtain ⟨es, hrun, hperm⟩ := implScanLoop_enum
        ((tables.getD (path.getD j 0) defaultTable).rows) hcall
      refine ⟨es, ?_, ?_⟩
      · rw [iterate_many_tables_impl, hget]
        simp only [Option.bind_eq_bind, Option.some_bind]
        rw [hiref]
        exact hrun
      · rw [htarget]
        exact hperm
    · -- index-probe level
      obtain ⟨hj1lt, cid, conj, hicid, hJc, hcmem, hps⟩ := hsetup j ip hiref
      have hpos2lt : path.getD (j + 1) 0 < tables.length :=
        hplt _ (getD_mem hj1lt)
      have hget2 : path.get? (j + 1) = some (path.getD (j + 1) 0) := by
        rw [List.get?_eq_getElem?, List.getElem?_eq_getElem hj1lt,
          List.getD_eq_getElem?_getD, List.getElem?_eq_getElem hj1lt]
        rfl
      have hpp2 : path.getD j 0 ≠ path.getD (j + 1) 0 :=
        getD_nodup_ne hnd (by omega) hj1lt
      obtain ⟨drow, hdmem, hdrow⟩ := hbound (j + 1) (by omega) hj1lt
      obtain ⟨nd, cd, np, cp, hnd2, hnp, hcd, hcp, hor⟩ := hps
      have hcidlt : cid <
          (tables.getD (path.getD (j + 1) 0) defaultTable).colNames.length :=
        lookup_column_lt hcd
      have hiplt : ip <
          (tables.getD (path.getD j 0) defaultTable).colNames.length :=
        lookup_column_lt hcp
      have hwf2 : (tables.getD (path.getD (j + 1) 0) defaultTable).wf :=
        htw.1 _ (getD_table_mem hpos2lt)
      have hwf1 : (tables.getD (path.getD j 0) defaultTable).wf :=
        htw.1 _ (getD_table_mem hposlt)
      obtain ⟨key, hkey⟩ := Option.isSome_iff_exists.mp
        (wf_valAt_isSome hwf2 hdmem hcidlt)
      have hndname : nd = (tables.getD (path.getD (j + 1) 0) defaultTable).name :=
        (lookupTable_name_eq hnd2).symm
      have hnpname : np = (tables.getD (path.getD j 0) defaultTable).name :=
        (lookupTable_name_eq hnp).symm
      have hndne : (tables.getD (path.getD j 0) defaultTable).name ≠ nd := by
        rw [hndname]
        exact name_getD_ne hnames hposlt hpos2lt hpp2
      -- the stored conjunct computes the key-equality flag on the cache
      have heval : ∀ r ∈ indexScan
          (tables.getD (path.getD j 0) defaultTable) ip key,
          evalBool tables
            (((tables.getD (path.getD j 0) defaultTable).name, r) :: cache)
            conj =
          some (decide (r.valAt ip = some key)) := by
        intro r hrI
        have hrmem := mem_of_mem_indexScan hrI
        obtain ⟨vp, hvp⟩ := Option.isSome_iff_exists.mp
          (wf_valAt_isSome hwf1 hrmem hiplt)
        have hcacheNd : cacheLookup
            (((tables.getD (path.getD j 0) defaultTable).name, r) :: cache)
            nd = some drow := by
          rw [cacheLookup_cons_ne hndne, hcache nd, recsLookup, hnd2]
          exact hdrow
        have hcacheNp : cacheLookup
            (((tables.getD (path.getD j 0) defaultTable).name, r) :: cache)
            np = some r := by
          rw [hnpname]
          exact cacheLookup_cons_self _ _ _
        have hflag : decide (r.valAt ip = some key) = decide (vp = key) := by
          rw [hvp]
          simp
        rcases hor with hor | hor
        · subst hor
          rw [evalBool_eq_cols hnd2 hcacheNd hcd hkey hnp hcacheNp hcp hvp,
            hflag]
          congr 1
          rw [decide_eq_decide]
          exact eq_comm
        · subst hor
          rw [evalBool_eq_cols hnp hcacheNp hcp hvp hnd2 hcacheNd hcd hkey,
            hflag]
      obtain ⟨es, hrun, hperm⟩ := implProbeLoop_enum
        (fun r => decide (r.valAt ip = some key))
        (indexScan (tables.getD (path.getD j 0) defaultTable) ip key)
        heval
        (fun r hrI hk2 => hcall r (mem_of_mem_indexScan hrI))
      refine ⟨es, ?_, ?_⟩
      · rw [iterate_many_tables_impl, hget]
        simp only [Option.bind_eq_bind, Option.some_bind]
        rw [hiref, hget2]
        simp only [Option.bind_eq_bind, Option.some_bind]
        rw [hdrow]
        simp only [Option.some_bind]
        rw [hicid]
        simp only [Option.some_bind]
        rw [hkey]
        simp only [Option.some_bind]
        rw [hJc]
        simp only [Option.some_bind]
        exact hrun
      · -- a probe row with the wrong key contributes no passing extension
        have hnil : ∀ r ∈ (tables.getD (path.getD j 0) defaultTable).rows,
            decide (r.valAt ip = some key) = false →
            ((extTuples tables path j
                (recs.set (path.getD j 0) (some r))).filter
              (fun rs => decide (evalBool tables (tupleOfD tables rs) c =
                some true))).map (tupleOfD tables) = [] := by
          intro r hrmem hflag
          obtain ⟨vp, hvp⟩ := Option.isSome_iff_exists.mp
            (wf_valAt_isSome hwf1 hrmem hiplt)
          have hvpne : vp ≠ key := by
            intro hc
            rw [hvp, hc] at hflag
            simp at hflag
          rw [List.map_eq_nil_iff, List.filter_eq_nil_iff]
          intro rs hrs
          obtain ⟨hL, hU, hB⟩ := extTuples_mem_spec hnd hplt j
            (recs.set (path.getD j 0) (some r)) (by omega)
            (by simpa using hlen) rs hrs
          have hrs_pos : rs.getD (path.getD j 0) none = some r := by
            rw [hU _ (fun i hi => getD_nodup_ne hnd hi hjlt)]
            exact getD_set_self _ _ (by omega)
          have hrs_pos2 : rs.getD (path.getD (j + 1) 0) none = some drow := by
            rw [hU _ (fun i hi => getD_nodup_ne hnd (by omega) hj1lt),
              getD_set_ne _ _ hpp2, hdrow]
          have hrs_len : rs.length = tables.length := by
            rw [hL]
            simpa using hlen
          have hrs_comp : ∀ q, q < tables.length →
              (rs.getD q none).isSome := by
            intro q hq
            obtain ⟨i, hi, hpi⟩ := hcover q hq
            rcases Nat.lt_trichotomy i j with hij | hij | hij
            · obtain ⟨r2, -, hr2⟩ := hB i hij
              rw [hpi] at hr2
              rw [hr2]
              rfl
            · subst hij
              rw [← hpi, hrs_pos]
              rfl
            · obtain ⟨r2, -, hr2⟩ := hbound i (by omega) hi
              have : rs.getD q none = recs.getD q none := by
                rw [hU q (fun i2 hi2 => by
                  rw [← hpi]
                  exact getD_nodup_ne hnd (by omega) hi)]
                rw [getD_set_ne]
                rw [← hpi]
                exact getD_nodup_ne hnd (by omega) hi
              rw [this, ← hpi, hr2]
              rfl
          obtain ⟨tup2, htup2, hg1, hg2⟩ :=
            assembleTuple_complete rs hrs_len hrs_comp
          have htupD2 : tupleOfD tables rs = tup2 := by
            rw [tupleOfD, htup2]
            rfl
          have hcl2 : ∀ nm, cacheLookup tup2 nm = recsLookup tables rs nm :=
            cacheLookup_assembled hg1 hg2
          have hcNd : cacheLookup tup2 nd = some drow := by
            rw [hcl2, recsLookup, hnd2]
            exact hrs_pos2
          have hcNp : cacheLookup tup2 np = some r := by
            rw [hcl2, recsLookup, hnp]
            exact hrs_pos
          have hconj_false : evalBool tables tup2 conj = some false := by
            rcases hor with hor | hor
            · subst hor
              rw [evalBool_eq_cols hnd2 hcNd hcd hkey hnp hcNp hcp hvp]
              rw [decide_eq_false (fun hc => hvpne hc.symm)]
            · subst hor
              rw [evalBool_eq_cols hnp hcNp hcp hvp hnd2 hcNd hcd hkey]
              rw [decide_eq_false hvpne]
          intro hctrue
          have hctrue2 : evalBool tables (tupleOfD tables rs) c = some true :=
            of_decide_eq_true hctrue
          rw [htupD2] at hctrue2
          have := evalBool_conjunct conj hcmem hctrue2
          rw [hconj_false] at this
          simp at this
        rw [htarget]
        refine hperm.trans ?_
        refine (perm_flatMap_left _ (indexScan_take_perm_filter
          (tables.getD (path.getD j 0) defaultTable) ip key)).trans ?_
        exact List.Perm.of_eq (flatMap_eq_filter_flatMap hnil).symm

theorem mapM_option_spec {α β : Type} (f : α → Option β) (P : α → β → Prop) :
    ∀ l : List α, (∀ a ∈ l, ∃ b, f a = some b ∧ P a b) →
    ∃ bs, l.mapM f = some bs ∧ List.Forall₂ P l bs := by
  intro l
  induction l with
  | nil => intro _; exact ⟨[], rfl, List.Forall₂.nil⟩
  | cons a rest ih =>
    intro h
    obtain ⟨b, hb, hP⟩ := h a (by simp)
    obtain ⟨bs, hbs, hF⟩ := ih (fun x hx => h x (List.mem_cons_of_mem a hx))
    refine ⟨b :: bs, ?_, List.Forall₂.cons hP hF⟩
    rw [List.mapM_cons, hb]
    simp only [Option.bind_eq_bind, Option.some_bind]
    rw [hbs]
    rfl

theorem forall₂_getD {α β : Type} {P : α → β → Prop} :
    ∀ {l : List α} {bs : List β}, List.Forall₂ P l bs →
    ∀ k, k < l.length → ∀ (da : α) (db : β), P (l.getD k da) (bs.getD k db) := by
  intro l bs h
  induction h with
  | nil => intro k hk da db; simp at hk
  | cons hp h ih =>
    intro k hk da db
    cases k with
    | zero => exact hp
    | succ k2 => exact ih k2 (by simpa using hk) da db

/-- The iteration-variable setup succeeds along an index-connected chain
and delivers the executor's invariant: each chain position probes its
table by the stored conjunct's indexed column, keyed by the next
position's column. -/
theorem planSetup_spec {tables : List Table} {c : Expr}
    {J : ℕ → ℕ → Option Expr} {path : List ℕ} {maxd : ℕ}
    (hJs : JShape tables (extract_and_cond c) J)
    (hnames : (tables.map Table.name).Nodup)
    (hmlt : maxd < path.length)
    (hplt : ∀ v ∈ path, v < tables.length)
    (hnd : path.Nodup)
    (hJch : ∀ i, i < maxd →
      (J (path.getD i 0) (path.getD (i + 1) 0)).isSome) :
    ∃ icid iref, planSetup tables J path maxd = some (icid, iref) ∧
      SetupInv tables c J path icid iref := by
  have hspec : ∀ i ∈ List.range path.length,
      ∃ pr : Option ℕ × Option ℕ,
      (if i < maxd then do
        let a ← path.get? i
        let b ← path.get? (i + 1)
        let ta := tables.getD a defaultTable
        let tb := tables.getD b defaultTable
        match (← J a b) with
        | .bin _ (.col lt lc) (.col _ rc) =>
          if lt = ta.name then do
            let cid ← tb.lookup_column rc
            let pc ← ta.lookup_column lc
            let ir ← ta.get_index pc
            pure ((some cid : Option ℕ), (some ir : Option ℕ))
          else do
            let cid ← tb.lookup_column lc
            let pc ← ta.lookup_column rc
            let ir ← ta.get_index pc
            pure ((some cid : Option ℕ), (some ir : Option ℕ))
        | _ => none
      else pure ((none : Option ℕ), (none : Option ℕ))) = some pr ∧
      ((maxd ≤ i → pr = (none, none)) ∧
       (i < maxd → ∃ cid ip conj, pr = (some cid, some ip) ∧
         J (path.getD i 0) (path.getD (i + 1) 0) = some conj ∧
         conj ∈ extract_and_cond c ∧
         ProbeShape tables (path.getD i 0) (path.getD (i + 1) 0)
           ip cid conj)) := by
    intro i hi
    rw [List.mem_range] at hi
    by_cases him : i < maxd
    · have hilt : i < path.length := by omega
      have hi1lt : i + 1 < path.length := by omega
      have hget : path.get? i = some (path.getD i 0) := by
        rw [List.get?_eq_getElem?, List.getElem?_eq_getElem hilt,
          List.getD_eq_getElem?_getD, List.getElem?_eq_getElem hilt]
        rfl
      have hget1 : path.get? (i + 1) = some (path.getD (i + 1) 0) := by
        rw [List.get?_eq_getElem?, List.getElem?_eq_getElem hi1lt,
          List.getD_eq_getElem?_getD, List.getElem?_eq_getElem hi1lt]
        rfl
      obtain ⟨conj, hconj⟩ := Option.isSome_iff_exists.mp (hJch i him)
      obtain ⟨nd, cd, np, cp, idd, ip, hcmem, hnd2, hnp, hcd, hcp, hidx, hor⟩ :=
        hJs _ _ _ hconj
      have haval : path.getD i 0 < tables.length := hplt _ (getD_mem hilt)
      have hbval : path.getD (i + 1) 0 < tables.length :=
        hplt _ (getD_mem hi1lt)
      have hab : path.getD i 0 ≠ path.getD (i + 1) 0 :=
        getD_nodup_ne hnd (by omega) hi1lt
      have hndname : nd =
          (tables.getD (path.getD (i + 1) 0) defaultTable).name :=
        (lookupTable_name_eq hnd2).symm
      have hnpname : np = (tables.getD (path.getD i 0) defaultTable).name :=
        (lookupTable_name_eq hnp).symm
      have hndne : nd ≠ (tables.getD (path.getD i 0) defaultTable).name := by
        rw [hndname]
        exact (name_getD_ne hnames haval hbval hab).symm
      have hget_index : (tables.getD (path.getD i 0)
          defaultTable).get_index ip = some ip := by
        rw [Table.get_index, if_pos hidx]
      rcases hor with hor | hor
      · subst hor
        refine ⟨(some idd, some ip), ?_, fun hc => absurd him (by omega),
          fun _ => ⟨idd, ip, _, rfl, hconj, hcmem,
            ⟨nd, cd, np, cp, hnd2, hnp, hcd, hcp, Or.inl rfl⟩⟩⟩
        rw [if_pos him, hget]
        simp only [Option.bind_eq_bind, Option.some_bind]
        rw [hget1]
        simp only [Option.some_bind]
        rw [hconj]
        simp only [Option.some_bind]
        rw [if_neg hndne, hcd]
        simp only [Option.some_bind]
        rw [hcp]
        simp only [Option.some_bind]
        rw [hget_index]
        rfl
      · subst hor
        refine ⟨(some idd, some ip), ?_, fun hc => absurd him (by omega),
          fun _ => ⟨idd, ip, _, rfl, hconj, hcmem,
            ⟨nd, cd, np, cp, hnd2, hnp, hcd, hcp, Or.inr rfl⟩⟩⟩
        rw [if_pos him, hget]
        simp only [Option.bind_eq_bind, Option.some_bind]
        rw [hget1]
        simp only [Option.some_bind]
        rw [hconj]
        simp only [Option.some_bind]
        rw [if_pos hnpname, hcd]
        simp only [Option.some_bind]
        rw [hcp]
        simp only [Option.some_bind]
        rw [hget_index]
        rfl
    · exact ⟨(none, none), by rw [if_neg him]; rfl, fun _ => rfl,
        fun hc => absurd hc him⟩
  obtain ⟨pairs, hpairs, hF⟩ := mapM_option_spec
    (fun i => if i < maxd then do
        let a ← path.get? i
        let b ← path.get? (i + 1)
        let ta := tables.getD a defaultTable
        let tb := tables.getD b defaultTable
        match (← J a b) with
        | .bin _ (.col lt lc) (.col _ rc) =>
          if lt = ta.name then do
            let cid ← tb.lookup_column rc
            let pc ← ta.lookup_column lc
            let ir ← ta.get_index pc
            pure ((some cid : Option ℕ), (some ir : Option ℕ))
          else do
            let cid ← tb.lookup_column lc
            let pc ← ta.lookup_column rc
            let ir ← ta.get_index pc
            pure ((some cid : Option ℕ), (some ir : Option ℕ))
        | _ => none
      else pure ((none : Option ℕ), (none : Option ℕ)))
    (fun i pr => (maxd ≤ i → pr = (none, none)) ∧
      (i < maxd → ∃ cid ip conj, pr = (some cid, some ip) ∧
        J (path.getD i 0) (path.getD (i + 1) 0) = some conj ∧
        conj ∈ extract_and_cond c ∧
        ProbeShape tables (path.getD i 0) (path.getD (i + 1) 0)
          ip cid conj))
    (List.range path.length) hspec
  have hlenp : pairs.length = path.length := by
    have := hF.length_eq
    simp at this
    omega
  refine ⟨pairs.map Prod.fst, pairs.map Prod.snd, ?_, ?_⟩
  · rw [planSetup, hpairs]
    rfl
  · intro k ip hk
    by_cases hklen : k < path.length
    · have hP := forall₂_getD hF k (by simpa using hklen) 0 (none, none)
      have hrange : (List.range path.length).getD k 0 = k := by
        rw [List.getD_eq_getElem?_getD,
          List.getElem?_eq_getElem (by simpa using hklen)]
        simp
      rw [hrange] at hP
      have hsnd : (pairs.map Prod.snd).getD k none =
          (pairs.getD k (none, none)).2 := by
        rw [List.getD_eq_getElem?_getD, List.getD_eq_getElem?_getD,
          List.getElem?_map, List.getElem?_eq_getElem (by omega)]
        rfl
      rw [hsnd] at hk
      by_cases hkm : k < maxd
      · obtain ⟨cid, ip2, conj, hpr, hJk, hcm, hps⟩ := hP.2 hkm
        rw [hpr] at hk
        injection hk with hk
        have hip : ip2 = ip := hk
        rw [hip] at hpr hps
        refine ⟨by omega, cid, conj, ?_, hJk, hcm, hps⟩
        have hfst : (pairs.map Prod.fst).getD k none =
            (pairs.getD k (none, none)).1 := by
          rw [List.getD_eq_getElem?_getD, List.getD_eq_getElem?_getD,
            List.getElem?_map, List.getElem?_eq_getElem (by omega)]
          rfl
        rw [hfst, hpr]
      · have := hP.1 (by omega)
        rw [this] at hk
        simp at hk
    · rw [List.getD_eq_default] at hk
      · exact Option.noConfusion hk
      · simp
        omega

theorem unmarkedCount_false (n : ℕ) :
    unmarkedCount n (fun _ => false) = n := by
  rw [unmarkedCount]
  simp

/-- The first planner phase always produces a start, and the depth it
reports is achieved by a simple chain from that start. -/
theorem planPhase1_some {E : ℕ → ℕ → Bool} {n : ℕ} (hn : 0 < n) :
    ∃ p, planPhase1 E n = some p ∧
      Achieves E n (fun _ => false) p.2 p.1 := by
  have hach0 : ∀ v, v < n → Achieves E n (fun _ => false) v 0 := by
    intro v hv
    refine ⟨[v], by simp, by simp, by simp, ?_, by simp⟩
    intro x hx
    simp at hx
    subst hx
    exact ⟨rfl, hv⟩
  have hfold : ∀ (l : List ℕ) (acc : ℕ × ℕ), (∀ i ∈ l, i < n) →
      Achieves E n (fun _ => false) acc.2 acc.1 →
      ∃ p, l.foldlM
        (fun (acc : ℕ × ℕ) i => do
          let r ← find_longest_path (n + 1) i 0 (fun _ => false) E n none 0
          pure (if r.2.2.1 > acc.1 then (r.2.2.1, i) else acc)) acc =
        some p ∧ Achieves E n (fun _ => false) p.2 p.1 := by
    intro l
    induction l with
    | nil =>
      intro acc hl hacc
      exact ⟨acc, rfl, hacc⟩
    | cons x xs ih =>
      intro acc hl hacc
      have hxlt : x < n := hl x (by simp)
      have hsome := (flp_some (n + 1)).1 x 0 (fun _ => false) E n none 0
        rfl hxlt (by rw [unmarkedCount_false]; omega)
      rcases hf : find_longest_path (n + 1) x 0 (fun _ => false) E n none 0
        with _ | ⟨b, mk, md, sg⟩
      · rw [hf] at hsome
        simp at hsome
      · have hb : b = false := (explore_false (n + 1)).1 x 0
          (fun _ => false) E n 0 b mk md sg hf
        subst hb
        have hachx : Achieves E n (fun _ => false) x md := by
          rcases Nat.eq_zero_or_pos md with hmd | hmd
          · rw [hmd]
            exact hach0 x hxlt
          · have := (flp_explore (n + 1)).1 x 0 (fun _ => false) E n 0
              mk md sg hxlt rfl hf md (Nat.zero_le md) (le_refl md)
            rcases this with hle | hach
            · omega
            · simpa using hach
        have hstep : ∀ acc2, Achieves E n (fun _ => false) acc2.2 acc2.1 →
            ∃ p, xs.foldlM
              (fun (acc : ℕ × ℕ) i => do
                let r ← find_longest_path (n + 1) i 0 (fun _ => false) E n
                  none 0
                pure (if r.2.2.1 > acc.1 then (r.2.2.1, i) else acc)) acc2 =
              some p ∧ Achieves E n (fun _ => false) p.2 p.1 :=
          fun acc2 hacc2 => ih acc2
            (fun i hi => hl i (List.mem_cons_of_mem x hi)) hacc2
        by_cases hgt : md > acc.1
        · obtain ⟨p, hrun, hachp⟩ := hstep (md, x) hachx
          refine ⟨p, ?_, hachp⟩
          rw [List.foldlM_cons, hf]
          simp only [Option.bind_eq_bind, Option.some_bind, Option.pure_def]
          rw [if_pos hgt]
          exact hrun
        · obtain ⟨p, hrun, hachp⟩ := hstep acc hacc
          refine ⟨p, ?_, hachp⟩
          rw [List.foldlM_cons, hf]
          simp only [Option.bind_eq_bind, Option.some_bind, Option.pure_def]
          rw [if_neg hgt]
          exact hrun
  obtain ⟨p, hrun, hachp⟩ := hfold (List.range n) (0, 0)
    (fun i hi => List.mem_range.mp hi) (hach0 0 hn)
  exact ⟨p, hrun, hachp⟩

/-- The planner never fails: the exact-depth rerun from the chosen start
succeeds because the reported depth is achievable. -/
theorem makePath_some {E : ℕ → ℕ → Bool} {n : ℕ} (hn : 0 < n) :
    ∃ path maxd, makePath E n = some (path, maxd) := by
  obtain ⟨p, hp, hach⟩ := planPhase1_some hn
  obtain ⟨mk, md, sg, hfind⟩ := (flp_complete (n + 1)).1 p.2 0
    (fun _ => false) E n 0 p.1 (by rw [unmarkedCount_false]; omega) hach
  rw [Nat.zero_add] at hfind
  refine ⟨sg ++ (List.range n).filter (fun i => !(sg.contains i)), p.1, ?_⟩
  rw [makePath, hp]
  simp only [Option.bind_eq_bind, Option.some_bind]
  rw [hfind]
  rfl

theorem chain'_getD {α : Type} {R : α → α → Prop} (d : α) :
    ∀ {l : List α}, l.Chain' R → ∀ i, i + 1 < l.length →
      R (l.getD i d) (l.getD (i + 1) d) := by
  intro l
  induction l with
  | nil => intro _ i hi; simp at hi
  | cons a rest ih =>
    intro h i hi
    rw [List.chain'_cons'] at h
    obtain ⟨hhead, htail⟩ := h
    cases i with
    | zero =>
      cases rest with
      | nil => simp at hi
      | cons b rest2 => exact hhead b rfl
    | succ i2 => exact ih htail i2 (by simpa using hi)

theorem getD_append_left {α : Type} {l1 l2 : List α} {i : ℕ} (d : α)
    (h : i < l1.length) : (l1 ++ l2).getD i d = l1.getD i d := by
  rw [List.getD_eq_getElem?_getD, List.getD_eq_getElem?_getD,
    List.getElem?_append_left h]

/-- The many-table iteration enumerates, as a multiset, exactly the
Cartesian-product tuples the predicate passes, given a well-formed table
list, a successful graph construction, a throw-free predicate and a
consumer accepting every passing tuple. -/
theorem iterate_many_tables_enum {tables : List Table} {c : Expr}
    {cb : Tuple → Bool} {E : ℕ → ℕ → Bool} {J : ℕ → ℕ → Option Expr}
    (htw : TablesWf tables) (hn : 0 < tables.length)
    (hbuild : buildJoinGraph tables (extract_and_cond c)
      (fun _ _ => false) (fun _ _ => none) = some (E, J))
    (hev : ∀ tup ∈ productTuples tables, (evalBool tables tup c).isSome)
    (hcb : ∀ tup ∈ productTuples tables,
      evalBool tables tup c = some true → cb tup = true) :
    ∃ es, iterate_many_tables tables (some c) cb = some es ∧
      es.Perm ((productTuples tables).filter
        (fun tup => decide (evalBool tables tup c = some true))) := by
  obtain ⟨hEJ, hJs, -, -⟩ := buildJoinGraph_inv (extract_and_cond c)
    (fun _ _ => false) (fun _ _ => none) E J hbuild (fun c' hc' => hc')
    (fun a b => rfl) (fun a b c' hc' => Option.noConfusion hc')
  obtain ⟨path, maxd, hmp⟩ := @makePath_some E tables.length hn
  obtain ⟨hperm, seg, hpatheq, hseglen, hsegnd, hchain, hfiltmem, -⟩ :=
    makePath_spec hn hmp
  have hplt : ∀ v ∈ path, v < tables.length := fun v hv =>
    List.mem_range.mp (hperm.mem_iff.mp hv)
  have hnd : path.Nodup := hperm.nodup_iff.mpr (List.nodup_range _)
  have hcover : ∀ q, q < tables.length →
      ∃ i, i < path.length ∧ path.getD i 0 = q := by
    intro q hq
    have hqmem : q ∈ path := hperm.mem_iff.mpr (List.mem_range.mpr hq)
    obtain ⟨i, hi, hqi⟩ := List.getElem_of_mem hqmem
    refine ⟨i, hi, ?_⟩
    rw [List.getD_eq_getElem?_getD, List.getElem?_eq_getElem hi]
    simpa using hqi
  have hmaxlt : maxd < path.length := by
    have h1 : path.length = seg.length +
        ((List.range tables.length).filter
          (fun i => !(seg.contains i))).length := by
      rw [hpatheq, List.length_append]
    omega
  have hJch : ∀ i, i < maxd →
      (J (path.getD i 0) (path.getD (i + 1) 0)).isSome := by
    intro i hi
    have hi1 : i + 1 < seg.length := by omega
    have hgi : path.getD i 0 = seg.getD i 0 := by
      rw [hpatheq]
      exact getD_append_left _ (by omega)
    have hgi1 : path.getD (i + 1) 0 = seg.getD (i + 1) 0 := by
      rw [hpatheq]
      exact getD_append_left _ hi1
    have hE := chain'_getD 0 hchain i hi1
    rw [hgi, hgi1, ← hEJ]
    exact hE
  obtain ⟨icid, iref, hps, hsetup⟩ :=
    planSetup_spec hJs htw.2 hmaxlt hplt hnd hJch
  have hcache0 : ∀ nm, cacheLookup [] nm =
      recsLookup tables (List.replicate tables.length none) nm := by
    intro nm
    rw [recsLookup]
    cases hq : lookupTable tables nm with
    | none => rfl
    | some q =>
      show (none : Option Row) =
        (List.replicate tables.length (none : Option Row)).getD q none
      have hqlt : q < tables.length := lookupTable_lt hq
      rw [List.getD_eq_getElem?_getD,
        List.getElem?_eq_getElem (by simpa using hqlt)]
      simp
  have hfull := @extTuples_full_perm tables path hperm
  have htrans : ∀ rs ∈ extTuples tables path path.length
      (List.replicate tables.length none),
      ∃ tup, tup ∈ productTuples tables ∧ tupleOfD tables rs = tup := by
    intro rs hrs
    have hmem := hfull.mem_iff.mp hrs
    rw [List.mem_map] at hmem
    obtain ⟨tup, htup, hback⟩ := hmem
    refine ⟨tup, htup, ?_⟩
    rw [← hback]
    exact tupleOfD_toRecs (productTuples_forall2 _ _ htup)
  have hev2 : ∀ rs ∈ extTuples tables path path.length
      (List.replicate tables.length none),
      (evalBool tables (tupleOfD tables rs) c).isSome := by
    intro rs hrs
    obtain ⟨tup, htup, hT⟩ := htrans rs hrs
    rw [hT]
    exact hev tup htup
  have hcb2 : ∀ rs ∈ extTuples tables path path.length
      (List.replicate tables.length none),
      evalBool tables (tupleOfD tables rs) c = some true →
      cb (tupleOfD tables rs) = true := by
    intro rs hrs hpass
    obtain ⟨tup, htup, hT⟩ := htrans rs hrs
    rw [hT] at hpass ⊢
    exact hcb tup htup hpass
  obtain ⟨es, hrun, hpermes⟩ := impl_enum htw hsetup hplt hnd hcover
    path.length (List.replicate tables.length none) [] (le_refl _)
    (by simp) hcache0 (fun i h1 h2 => absurd h2 (by omega)) hev2 hcb2
  refine ⟨es, ?_, ?_⟩
  · simp only [iterate_many_tables, hbuild, hmp, hps, hrun]
  · refine hpermes.trans ?_
    refine (List.Perm.map _ (hfull.filter _)).trans ?_
    rw [List.filter_map, List.map_map]
    have h2 : (productTuples tables).filter
        ((fun rs => decide (evalBool tables (tupleOfD tables rs) c =
          some true)) ∘ toRecs) =
        (productTuples tables).filter
          (fun tup => decide (evalBool tables tup c = some true)) := by
      apply List.filter_congr
      intro tup htup
      show decide (evalBool tables (tupleOfD tables (toRecs tup)) c =
        some true) = _
      rw [tupleOfD_toRecs (productTuples_forall2 _ _ htup)]
    rw [h2]
    apply List.Perm.of_eq
    have h3 : ∀ tup ∈ (productTuples tables).filter
        (fun tup => decide (evalBool tables tup c = some true)),
        (tupleOfD tables ∘ toRecs) tup = tup := by
      intro tup htup
      show tupleOfD tables (toRecs tup) = tup
      exact tupleOfD_toRecs (productTuples_forall2 _ _
        (List.mem_of_mem_filter htup))
    rw [List.map_congr_left h3, List.map_id']

/-! ### The two-table index join against the filtered product -/

theorem flatMap_congr_mem {α β : Type} {l : List α} {f g : α → List β}
    (h : ∀ a ∈ l, f a = g a) : l.flatMap f = l.flatMap g := by
  induction l with
  | nil => rfl
  | cons a rest ih =>
    rw [List.flatMap_cons, List.flatMap_cons, h a (by simp),
      ih (fun x hx => h x (List.mem_cons_of_mem a hx))]

theorem perm_flatMap_filter_swap {α β γ : Type} (xs : List α) (ys : List β)
    (p : α → β → Bool) (f : α → β → γ) :
    (xs.flatMap (fun a =>
      (ys.filter (fun b => p a b)).map (fun b => f a b))).Perm
    (ys.flatMap (fun b =>
      (xs.filter (fun a => p a b)).map (fun a => f a b))) := by
  have h1 : ∀ a : α, (ys.filter (fun b => p a b)).map (fun b => f a b) =
      ys.flatMap (fun b => if p a b then [f a b] else []) := by
    intro a
    induction ys with
    | nil => rfl
    | cons b rest ih => cases hb : p a b <;> simp [List.filter_cons, hb, ih]
  have h2 : ∀ b : β, (xs.filter (fun a => p a b)).map (fun a => f a b) =
      xs.flatMap (fun a => if p a b then [f a b] else []) := by
    intro b
    induction xs with
    | nil => rfl
    | cons a rest ih => cases ha : p a b <;> simp [List.filter_cons, ha, ih]
  simp only [h1, h2]
  exact perm_flatMap_swap xs ys (fun a b => if p a b then [f a b] else [])

theorem productTuples_pair (tb1 tb2 : Table) :
    productTuples [tb1, tb2] = tb1.rows.flatMap (fun x =>
      tb2.rows.map (fun y => [(tb1.name, x), (tb2.name, y)])) := by
  rw [productTuples, productTuples, productTuples]
  apply flatMap_congr_mem
  intro x _
  induction tb2.rows with
  | nil => rfl
  | cons y rest ih => simp_all [List.flatMap_cons]

theorem lookupTable_pair_fst {tb1 tb2 : Table} :
    lookupTable [tb1, tb2] tb1.name = some 0 := by
  rw [lookupTable, List.findIdx?_cons, if_pos (by simp)]

theorem lookupTable_pair_snd {tb1 tb2 : Table}
    (hne : tb1.name ≠ tb2.name) :
    lookupTable [tb1, tb2] tb2.name = some 1 := by
  rw [lookupTable, List.findIdx?_cons, if_neg (by simp [hne]),
    List.findIdx?_succ, List.findIdx?_cons, if_pos (by simp)]
  rfl

theorem bindingOf_pair_fwd {tb1 tb2 : Table} (hne : tb1.name ≠ tb2.name)
    (x y : Row) :
    bindingOf [tb1, tb2] [(tb1.name, x), (tb2.name, y)] =
      [some x, some y] := by
  rw [bindingOf]
  simp only [List.map_cons, List.map_nil]
  rw [cacheLookup_cons_self, cacheLookup_cons_ne hne, cacheLookup_cons_self]

theorem bindingOf_pair_rev {tb1 tb2 : Table} (hne : tb1.name ≠ tb2.name)
    (x y : Row) :
    bindingOf [tb1, tb2] [(tb2.name, y), (tb1.name, x)] =
      [some x, some y] := by
  rw [bindingOf]
  simp only [List.map_cons, List.map_nil]
  rw [cacheLookup_cons_ne (fun hc => hne hc.symm), cacheLookup_cons_self,
    cacheLookup_cons_self]

/-- The index join's driver scan, with its throw-freeness and acceptance
hypotheses discharged from well-formedness: it emits, per driver row, the
probe rows with the matching key. -/
theorem join2Drive_perm_canonical {tables : List Table}
    {driver probe : Table} {pD pP : ℕ}
    (hwfD : driver.wf) (hwfP : probe.wf)
    (hne : driver.name ≠ probe.name)
    (hD : lookupTable tables driver.name = some pD)
    (hP : lookupTable tables probe.name = some pP)
    (hDt : tables.getD pD defaultTable = driver)
    (hPt : tables.getD pP defaultTable = probe)
    {nD cD nP cP : String} {dcid pcid : ℕ}
    (hnD : nD = driver.name) (hnP : nP = probe.name)
    (hcD : driver.lookup_column cD = some dcid)
    (hcP : probe.lookup_column cP = some pcid)
    {jc : Expr}
    (hjc : jc = .bin .opEq (.col nD cD) (.col nP cP) ∨
           jc = .bin .opEq (.col nP cP) (.col nD cD))
    {cb : Tuple → Bool}
    (hcb : ∀ r1 ∈ driver.rows, ∀ r2 ∈ probe.rows,
      r2.valAt pcid = r1.valAt dcid →
      cb [(driver.name, r1), (probe.name, r2)] = true) :
    (join2Drive tables driver probe dcid pcid jc cb driver.rows).Perm
      (driver.rows.flatMap (fun r1 =>
        (probe.rows.filter
          (fun r2 => decide (r2.valAt pcid = r1.valAt dcid))).map
          (fun r2 => [(driver.name, r1), (probe.name, r2)]))) := by
  subst hnD
  subst hnP
  apply join2Drive_perm driver.rows
  · intro r1 hr1
    exact wf_valAt_isSome hwfD hr1 (lookup_column_lt hcD)
  · intro r1 hr1 k hk r2 hr2
    have hr2mem := mem_of_mem_indexScan hr2
    obtain ⟨v2, hv2⟩ := Option.isSome_iff_exists.mp
      (wf_valAt_isSome hwfP hr2mem (lookup_column_lt hcP))
    have hcD2 : cacheLookup [(probe.name, r2), (driver.name, r1)]
        driver.name = some r1 := by
      rw [cacheLookup_cons_ne (fun hc => hne hc.symm), cacheLookup_cons_self]
    have hcD3 : (tables.getD pD defaultTable).lookup_column cD =
        some dcid := by
      rw [hDt]
      exact hcD
    have hcP3 : (tables.getD pP defaultTable).lookup_column cP =
        some pcid := by
      rw [hPt]
      exact hcP
    have hflag : decide (r2.valAt pcid = some k) = decide (v2 = k) := by
      rw [hv2]
      simp
    rcases hjc with hjc | hjc
    · subst hjc
      rw [evalBool_eq_cols hD hcD2 hcD3 hk hP (cacheLookup_cons_self _ _ _)
        hcP3 hv2, hflag]
      congr 1
      rw [decide_eq_decide]
      exact eq_comm
    · subst hjc
      rw [evalBool_eq_cols hP (cacheLookup_cons_self _ _ _) hcP3 hv2 hD
        hcD2 hcD3 hk, hflag]
  · intro r1 hr1 r2 hr2 heq
    exact hcb r1 hr1 r2 hr2 heq

/-- Computation of the two-table strategy once the join condition and both
column lookups resolve: the probe side is the indexed one, the claim's
declined case covering a fully unindexed condition. -/
theorem iterate_two_tables_handled_eq {tables : List Table}
    {tb1 tb2 ta tbb : Table} {n1 c1 n2 c2 : String} {cid1 cid2 : ℕ}
    {cb : Tuple → Bool} {jc : Expr}
    (hjc : jc = .bin .opEq (.col n1 c1) (.col n2 c2))
    (hp : (if n1 ≠ tb1.name then (tb2, tb1) else (tb1, tb2)) = (ta, tbb))
    (hlc1 : ta.lookup_column c1 = some cid1)
    (hlc2 : tbb.lookup_column c2 = some cid2) :
    iterate_two_tables_with_joint_cond_equal tables tb1 tb2 (some jc) cb =
      (if ta.get_index cid1 = none ∧ tbb.get_index cid2 = none then
        some .declined
       else if tbb.get_index cid2 = none then
        some (.handled (join2Drive tables tbb ta cid2 cid1 jc cb tbb.rows))
       else
        some (.handled (join2Drive tables ta tbb cid1 cid2 jc cb
          ta.rows))) := by
  subst hjc
  simp only [iterate_two_tables_with_joint_cond_equal, get_join_cond]
  rw [hp]
  rw [if_neg (show ¬(Op.opEq ≠ Op.opEq) by simp)]
  simp only [hlc1, hlc2]
  by_cases h12 : ta.get_index cid1 = none ∧ tbb.get_index cid2 = none
  · rw [if_pos h12, if_pos h12]
  · rw [if_neg h12, if_neg h12]
    by_cases hi2 : tbb.get_index cid2 = none
    · simp only [if_pos hi2]
    · simp only [if_neg hi2]

/-- When either side's column lookup fails, the two-table strategy
declines. -/
theorem iterate_two_tables_nolookup {tables : List Table}
    {tb1 tb2 ta tbb : Table} {n1 c1 n2 c2 : String}
    {cb : Tuple → Bool} {jc : Expr}
    (hjc : jc = .bin .opEq (.col n1 c1) (.col n2 c2))
    (hp : (if n1 ≠ tb1.name then (tb2, tb1) else (tb1, tb2)) = (ta, tbb))
    (hnone : ta.lookup_column c1 = none ∨ tbb.lookup_column c2 = none) :
    iterate_two_tables_with_joint_cond_equal tables tb1 tb2 (some jc) cb =
      some .declined := by
  subst hjc
  simp only [iterate_two_tables_with_joint_cond_equal, get_join_cond]
  rw [hp]
  rw [if_neg (show ¬(Op.opEq ≠ Op.opEq) by simp)]
  rcases hnone with h | h
  · simp only [h]
  · rcases hl1 : ta.lookup_column c1 with _ | cid1
    · simp only [hl1]
    · simp only [hl1, h]

/-- A driver-major emission with tb1 driving maps, under the canonical
binding view, to the filtered product. -/
theorem pair_major_fwd {tb1 tb2 : Table} {es : List Tuple}
    {q : Row → Row → Bool} {P : Tuple → Bool}
    (hdrive : es.Perm (tb1.rows.flatMap (fun x =>
      (tb2.rows.filter (fun y => q x y)).map
        (fun y => [(tb1.name, x), (tb2.name, y)]))))
    (hq : ∀ x ∈ tb1.rows, ∀ y ∈ tb2.rows,
      q x y = P [(tb1.name, x), (tb2.name, y)]) :
    (es.map (bindingOf [tb1, tb2])).Perm
      (((productTuples [tb1, tb2]).filter P).map (bindingOf [tb1, tb2])) := by
  refine (List.Perm.map _ hdrive).trans ?_
  rw [List.map_flatMap, productTuples_pair, filter_flatMap_comm,
    List.map_flatMap]
  apply List.Perm.of_eq
  apply flatMap_congr_mem
  intro x hx
  rw [List.map_map, List.filter_map, List.map_map]
  congr 1
  apply List.filter_congr
  intro y hy
  show q x y = P [(tb1.name, x), (tb2.name, y)]
  exact hq x hx y hy

/-- A driver-major emission with tb2 driving likewise maps, after a
product swap, to the filtered product. -/
theorem pair_major_rev {tb1 tb2 : Table} (hne : tb1.name ≠ tb2.name)
    {es : List Tuple} {q : Row → Row → Bool} {P : Tuple → Bool}
    (hdrive : es.Perm (tb2.rows.flatMap (fun y =>
      (tb1.rows.filter (fun x => q y x)).map
        (fun x => [(tb2.name, y), (tb1.name, x)]))))
    (hq : ∀ x ∈ tb1.rows, ∀ y ∈ tb2.rows,
      q y x = P [(tb1.name, x), (tb2.name, y)]) :
    (es.map (bindingOf [tb1, tb2])).Perm
      (((productTuples [tb1, tb2]).filter P).map (bindingOf [tb1, tb2])) := by
  refine (List.Perm.map _ hdrive).trans ?_
  rw [List.map_flatMap]
  have harm : ∀ y : Row, ((tb1.rows.filter (fun x => q y x)).map
      (fun x => [(tb2.name, y), (tb1.name, x)])).map
        (bindingOf [tb1, tb2]) =
      (tb1.rows.filter (fun x => q y x)).map
        (fun x => ([some x, some y] : List (Option Row))) := by
    intro y
    rw [List.map_map]
    apply List.map_congr_left
    intro x hx
    show bindingOf [tb1, tb2] [(tb2.name, y), (tb1.name, x)] = _
    exact bindingOf_pair_rev hne x y
  simp only [harm]
  refine (perm_flatMap_filter_swap tb2.rows tb1.rows (fun y x => q y x)
    (fun y x => ([some x, some y] : List (Option Row)))).trans ?_
  rw [productTuples_pair, filter_flatMap_comm, List.map_flatMap]
  apply List.Perm.of_eq
  apply flatMap_congr_mem
  intro x hx
  rw [List.filter_map, List.map_map]
  have hmapped : (tb2.rows.filter
      (P ∘ (fun y => [(tb1.name, x), (tb2.name, y)]))).map
      ((bindingOf [tb1, tb2]) ∘ (fun y => [(tb1.name, x), (tb2.name, y)])) =
      (tb2.rows.filter
        (P ∘ (fun y => [(tb1.name, x), (tb2.name, y)]))).map
      (fun y => ([some x, some y] : List (Option Row))) := by
    apply List.map_congr_left
    intro y hy
    show bindingOf [tb1, tb2] [(tb1.name, x), (tb2.name, y)] = _
    exact bindingOf_pair_fwd hne x y
  rw [hmapped]
  congr 1
  apply List.filter_congr
  intro y hy
  show q y x = (P ∘ (fun y => [(tb1.name, x), (tb2.name, y)])) y
  show q y x = P [(tb1.name, x), (tb2.name, y)]
  exact hq x hx y hy

/-- On the canonical pair tuple the equality conjunct, oriented tb1-side
first, computes the key comparison and never throws. -/
theorem evalBool_pair_fwd {tb1 tb2 : Table} (hne : tb1.name ≠ tb2.name)
    (hwf1 : tb1.wf) (hwf2 : tb2.wf) {cA cB : String} {iA iB : ℕ}
    (hlA : tb1.lookup_column cA = some iA)
    (hlB : tb2.lookup_column cB = some iB)
    {x y : Row} (hx : x ∈ tb1.rows) (hy : y ∈ tb2.rows) :
    evalBool [tb1, tb2] [(tb1.name, x), (tb2.name, y)]
        (.bin .opEq (.col tb1.name cA) (.col tb2.name cB)) =
      some (decide (x.valAt iA = y.valAt iB)) := by
  obtain ⟨vA, hvA⟩ := Option.isSome_iff_exists.mp
    (wf_valAt_isSome hwf1 hx (lookup_column_lt hlA))
  obtain ⟨vB, hvB⟩ := Option.isSome_iff_exists.mp
    (wf_valAt_isSome hwf2 hy (lookup_column_lt hlB))
  rw [evalBool_eq_cols lookupTable_pair_fst (cacheLookup_cons_self _ _ _)
      hlA hvA (lookupTable_pair_snd hne)
      ((cacheLookup_cons_ne hne x _).trans (cacheLookup_cons_self _ _ _))
      hlB hvB,
    hvA, hvB]
  simp

/-- The same conjunct with the operands swapped (tb2-side first). -/
theorem evalBool_pair_rev {tb1 tb2 : Table} (hne : tb1.name ≠ tb2.name)
    (hwf1 : tb1.wf) (hwf2 : tb2.wf) {cA cB : String} {iA iB : ℕ}
    (hlA : tb1.lookup_column cA = some iA)
    (hlB : tb2.lookup_column cB = some iB)
    {x y : Row} (hx : x ∈ tb1.rows) (hy : y ∈ tb2.rows) :
    evalBool [tb1, tb2] [(tb1.name, x), (tb2.name, y)]
        (.bin .opEq (.col tb2.name cB) (.col tb1.name cA)) =
      some (decide (y.valAt iB = x.valAt iA)) := by
  obtain ⟨vA, hvA⟩ := Option.isSome_iff_exists.mp
    (wf_valAt_isSome hwf1 hx (lookup_column_lt hlA))
  obtain ⟨vB, hvB⟩ := Option.isSome_iff_exists.mp
    (wf_valAt_isSome hwf2 hy (lookup_column_lt hlB))
  rw [evalBool_eq_cols (lookupTable_pair_snd hne)
      ((cacheLookup_cons_ne hne x _).trans (cacheLookup_cons_self _ _ _))
      hlB hvB lookupTable_pair_fst (cacheLookup_cons_self _ _ _)
      hlA hvA,
    hvA, hvB]
  simp

/-- Whenever the two-table index join handles the statement (an equality of
column references naming the two listed tables, both columns resolving and
at least one side indexed), the emitted tuples are, under the canonical
per-table binding view, exactly the predicate-passing part of the Cartesian
product as a multiset, and each one is a passing pair in one of the two
orientations. -/
theorem join2_handled_canonical {tb1 tb2 : Table} {n1 c1 n2 c2 : String}
    {cb : Tuple → Bool} {jc : Expr} {es : List Tuple}
    (htw : TablesWf [tb1, tb2])
    (hjc : jc = .bin .opEq (.col n1 c1) (.col n2 c2))
    (hnames : (n1 = tb1.name ∧ n2 = tb2.name) ∨
      (n1 = tb2.name ∧ n2 = tb1.name))
    (hh : iterate_two_tables_with_joint_cond_equal [tb1, tb2] tb1 tb2
      (some jc) cb = some (.handled es))
    (hcbM : ∀ x ∈ tb1.rows, ∀ y ∈ tb2.rows,
      evalBool [tb1, tb2] [(tb1.name, x), (tb2.name, y)] jc = some true →
      cb [(tb1.name, x), (tb2.name, y)] = true ∧
        cb [(tb2.name, y), (tb1.name, x)] = true) :
    (es.map (bindingOf [tb1, tb2])).Perm
      (((productTuples [tb1, tb2]).filter
        (fun tup => decide (evalBool [tb1, tb2] tup jc = some true))).map
        (bindingOf [tb1, tb2])) ∧
    ∀ e ∈ es, ∃ x, x ∈ tb1.rows ∧ ∃ y, y ∈ tb2.rows ∧
      evalBool [tb1, tb2] [(tb1.name, x), (tb2.name, y)] jc = some true ∧
      (e = [(tb1.name, x), (tb2.name, y)] ∨
        e = [(tb2.name, y), (tb1.name, x)]) := by
  have hne12 : tb1.name ≠ tb2.name := by
    have h2 := htw.2
    simp only [List.map_cons, List.map_nil, List.nodup_cons] at h2
    intro hc
    exact h2.1 (by simp [hc])
  have hwf1 : tb1.wf := htw.1 tb1 (by simp)
  have hwf2 : tb2.wf := htw.1 tb2 (by simp)
  subst hjc
  rcases hnames with ⟨h1, h2⟩ | ⟨h1, h2⟩
  · subst h1
    subst h2
    have hp : (if tb1.name ≠ tb1.name then (tb2, tb1) else (tb1, tb2)) =
        (tb1, tb2) := by
      rw [if_neg (fun h => h rfl)]
    rcases hl1 : tb1.lookup_column c1 with _ | cid1
    · rw [iterate_two_tables_nolookup rfl hp (Or.inl hl1)] at hh
      simp at hh
    rcases hl2 : tb2.lookup_column c2 with _ | cid2
    · rw [iterate_two_tables_nolookup rfl hp (Or.inr hl2)] at hh
      simp at hh
    rw [iterate_two_tables_handled_eq rfl hp hl1 hl2] at hh
    by_cases hboth : tb1.get_index cid1 = none ∧ tb2.get_index cid2 = none
    · rw [if_pos hboth] at hh
      simp at hh
    rw [if_neg hboth] at hh
    by_cases hi2 : tb2.get_index cid2 = none
    · rw [if_pos hi2, Option.some.injEq, Join2.handled.injEq] at hh
      have hdrive := join2Drive_perm_canonical hwf2 hwf1
        (fun h => hne12 h.symm) (lookupTable_pair_snd hne12)
        lookupTable_pair_fst rfl rfl rfl rfl hl2 hl1
        (Or.inr rfl)
        (fun r1 h1m r2 h2m hk => (hcbM r2 h2m r1 h1m (by
          rw [evalBool_pair_fwd hne12 hwf1 hwf2 hl1 hl2 h2m h1m]
          exact congrArg some (decide_eq_true hk))).2)
      rw [hh] at hdrive
      constructor
      · refine @pair_major_rev tb1 tb2 hne12 es
          (fun y x => decide (x.valAt cid1 = y.valAt cid2))
          (fun tup => decide (evalBool [tb1, tb2] tup
            (.bin .opEq (.col tb1.name c1) (.col tb2.name c2)) = some true))
          hdrive ?_
        intro x hx y hy
        show decide (x.valAt cid1 = y.valAt cid2) =
          decide (evalBool [tb1, tb2] [(tb1.name, x), (tb2.name, y)]
            (.bin .opEq (.col tb1.name c1) (.col tb2.name c2)) = some true)
        rw [evalBool_pair_fwd hne12 hwf1 hwf2 hl1 hl2 hx hy]
        cases hde : decide (x.valAt cid1 = y.valAt cid2) <;> simp
      · intro e he
        have hm := hdrive.mem_iff.mp he
        rw [List.mem_flatMap] at hm
        obtain ⟨r1, hr1, hm2⟩ := hm
        rw [List.mem_map] at hm2
        obtain ⟨r2, hr2f, he2⟩ := hm2
        rw [List.mem_filter] at hr2f
        refine ⟨r2, hr2f.1, r1, hr1, ?_, Or.inr he2.symm⟩
        rw [evalBool_pair_fwd hne12 hwf1 hwf2 hl1 hl2 hr2f.1 hr1]
        exact congrArg some hr2f.2
    · rw [if_neg hi2, Option.some.injEq, Join2.handled.injEq] at hh
      have hdrive := join2Drive_perm_canonical hwf1 hwf2 hne12
        lookupTable_pair_fst (lookupTable_pair_snd hne12) rfl rfl rfl rfl
        hl1 hl2 (Or.inl rfl)
        (fun r1 h1m r2 h2m hk => (hcbM r1 h1m r2 h2m (by
          rw [evalBool_pair_fwd hne12 hwf1 hwf2 hl1 hl2 h1m h2m]
          exact congrArg some (decide_eq_true hk.symm))).1)
      rw [hh] at hdrive
      constructor
      · refine @pair_major_fwd tb1 tb2 es
          (fun x y => decide (y.valAt cid2 = x.valAt cid1))
          (fun tup => decide (evalBool [tb1, tb2] tup
            (.bin .opEq (.col tb1.name c1) (.col tb2.name c2)) = some true))
          hdrive ?_
        intro x hx y hy
        show decide (y.valAt cid2 = x.valAt cid1) =
          decide (evalBool [tb1, tb2] [(tb1.name, x), (tb2.name, y)]
            (.bin .opEq (.col tb1.name c1) (.col tb2.name c2)) = some true)
        rw [evalBool_pair_fwd hne12 hwf1 hwf2 hl1 hl2 hx hy]
        have hcomm : decide (y.valAt cid2 = x.valAt cid1) =
            decide (x.valAt cid1 = y.valAt cid2) := by
          rw [decide_eq_decide]
          exact eq_comm
        rw [hcomm]
        cases hde : decide (x.valAt cid1 = y.valAt cid2) <;> simp
      · intro e he
        have hm := hdrive.mem_iff.mp he
        rw [List.mem_flatMap] at hm
        obtain ⟨r1, hr1, hm2⟩ := hm
        rw [List.mem_map] at hm2
        obtain ⟨r2, hr2f, he2⟩ := hm2
        rw [List.mem_filter] at hr2f
        refine ⟨r1, hr1, r2, hr2f.1, ?_, Or.inl he2.symm⟩
        rw [evalBool_pair_fwd hne12 hwf1 hwf2 hl1 hl2 hr1 hr2f.1]
        exact congrArg some (decide_eq_true (of_decide_eq_true hr2f.2).symm)
  · subst h1
    subst h2
    have hp : (if tb2.name ≠ tb1.name then (tb2, tb1) else (tb1, tb2)) =
        (tb2, tb1) := by
      rw [if_pos (fun h => hne12 h.symm)]
    rcases hl1 : tb2.lookup_column c1 with _ | cid1
    · rw [iterate_two_tables_nolookup rfl hp (Or.inl hl1)] at hh
      simp at hh
    rcases hl2 : tb1.lookup_column c2 with _ | cid2
    · rw [iterate_two_tables_nolookup rfl hp (Or.inr hl2)] at hh
      simp at hh
    rw [iterate_two_tables_handled_eq rfl hp hl1 hl2] at hh
    by_cases hboth : tb2.get_index cid1 = none ∧ tb1.get_index cid2 = none
    · rw [if_pos hboth] at hh
      simp at hh
    rw [if_neg hboth] at hh
    by_cases hi2 : tb1.get_index cid2 = none
    · rw [if_pos hi2, Option.some.injEq, Join2.handled.injEq] at hh
      have hdrive := join2Drive_perm_canonical hwf1 hwf2 hne12
        lookupTable_pair_fst (lookupTable_pair_snd hne12) rfl rfl rfl rfl
        hl2 hl1 (Or.inr rfl)
        (fun r1 h1m r2 h2m hk => (hcbM r1 h1m r2 h2m (by
          rw [evalBool_pair_rev hne12 hwf1 hwf2 hl2 hl1 h1m h2m]
          exact congrArg some (decide_eq_true hk))).1)
      rw [hh] at hdrive
      constructor
      · refine @pair_major_fwd tb1 tb2 es
          (fun x y => decide (y.valAt cid1 = x.valAt cid2))
          (fun tup => decide (evalBool [tb1, tb2] tup
            (.bin .opEq (.col tb2.name c1) (.col tb1.name c2)) = some true))
          hdrive ?_
        intro x hx y hy
        show decide (y.valAt cid1 = x.valAt cid2) =
          decide (evalBool [tb1, tb2] [(tb1.name, x), (tb2.name, y)]
            (.bin .opEq (.col tb2.name c1) (.col tb1.name c2)) = some true)
        rw [evalBool_pair_rev hne12 hwf1 hwf2 hl2 hl1 hx hy]
        cases hde : decide (y.valAt cid1 = x.valAt cid2) <;> simp
      · intro e he
        have hm := hdrive.mem_iff.mp he
        rw [List.mem_flatMap] at hm
        obtain ⟨r1, hr1, hm2⟩ := hm
        rw [List.mem_map] at hm2
        obtain ⟨r2, hr2f, he2⟩ := hm2
        rw [List.mem_filter] at hr2f
        refine ⟨r1, hr1, r2, hr2f.1, ?_, Or.inl he2.symm⟩
        rw [evalBool_pair_rev hne12 hwf1 hwf2 hl2 hl1 hr1 hr2f.1]
        exact congrArg some hr2f.2
    · rw [if_neg hi2, Option.some.injEq, Join2.handled.injEq] at hh
      have hdrive := join2Drive_perm_canonical hwf2 hwf1
        (fun h => hne12 h.symm) (lookupTable_pair_snd hne12)
        lookupTable_pair_fst rfl rfl rfl rfl hl1 hl2
        (Or.inl rfl)
        (fun r1 h1m r2 h2m hk => (hcbM r2 h2m r1 h1m (by
          rw [evalBool_pair_rev hne12 hwf1 hwf2 hl2 hl1 h2m h1m]
          exact congrArg some (decide_eq_true hk.symm))).2)
      rw [hh] at hdrive
      constructor
      · refine @pair_major_rev tb1 tb2 hne12 es
          (fun y x => decide (x.valAt cid2 = y.valAt cid1))
          (fun tup => decide (evalBool [tb1, tb2] tup
            (.bin .opEq (.col tb2.name c1) (.col tb1.name c2)) = some true))
          hdrive ?_
        intro x hx y hy
        show decide (x.valAt cid2 = y.valAt cid1) =
          decide (evalBool [tb1, tb2] [(tb1.name, x), (tb2.name, y)]
            (.bin .opEq (.col tb2.name c1) (.col tb1.name c2)) = some true)
        rw [evalBool_pair_rev hne12 hwf1 hwf2 hl2 hl1 hx hy]
        have hcomm : decide (x.valAt cid2 = y.valAt cid1) =
            decide (y.valAt cid1 = x.valAt cid2) := by
          rw [decide_eq_decide]
          exact eq_comm
        rw [hcomm]
        cases hde : decide (y.valAt cid1 = x.valAt cid2) <;> simp
      · intro e he
        have hm := hdrive.mem_iff.mp he
        rw [List.mem_flatMap] at hm
        obtain ⟨r1, hr1, hm2⟩ := hm
        rw [List.mem_map] at hm2
        obtain ⟨r2, hr2f, he2⟩ := hm2
        rw [List.mem_filter] at hr2f
        refine ⟨r2, hr2f.1, r1, hr1, ?_, Or.inr he2.symm⟩
        rw [evalBool_pair_rev hne12 hwf1 hwf2 hl2 hl1 hr2f.1 hr1]
        exact congrArg some (decide_eq_true (of_decide_eq_true hr2f.2).symm)

/-- The join-graph construction succeeds on a single equality conjunct whose
tables and columns resolve. -/
theorem buildJoinGraph_single_eq {table_list : List Table}
    {n1 c1 n2 c2 : String} {tid1 tid2 cid1 cid2 : ℕ}
    (h1 : lookupTable table_list n1 = some tid1)
    (h2 : lookupTable table_list n2 = some tid2)
    (hc1 : (table_list.getD tid1 defaultTable).lookup_column c1 = some cid1)
    (hc2 : (table_list.getD tid2 defaultTable).lookup_column c2 = some cid2)
    (E : ℕ → ℕ → Bool) (J : ℕ → ℕ → Option Expr) :
    ∃ E2 J2, buildJoinGraph table_list
      [.bin .opEq (.col n1 c1) (.col n2 c2)] E J = some (E2, J2) := by
  simp only [buildJoinGraph, h1, h2, hc1, hc2]
  split
  · exact ⟨E, J, rfl⟩
  · exact ⟨_, _, rfl⟩

/-- C3: over a pair of tables with an equality join condition between two
column references, whenever the two-table index-join strategy applies (it
reports handled, which requires at least one side to carry an index), the
tuples it hands the consumer are the same multiset of row combinations the
many-table enumeration path passes its consumer, the combination read off a
tuple by table name (the two strategies order the pair differently);
the consumer never requests an early stop. -/
theorem C3_index_join_matches_enumeration {tb1 tb2 : Table}
    {n1 c1 n2 c2 : String} {jc : Expr} {cb : Tuple → Bool} {es : List Tuple}
    (htw : TablesWf [tb1, tb2])
    (hjc : jc = .bin .opEq (.col n1 c1) (.col n2 c2))
    (hnames : (n1 = tb1.name ∧ n2 = tb2.name) ∨
      (n1 = tb2.name ∧ n2 = tb1.name))
    (hh : iterate_two_tables_with_joint_cond_equal [tb1, tb2] tb1 tb2
      (some jc) cb = some (.handled es))
    (hcb : ∀ tup, cb tup = true) :
    ∃ esm, iterate_many_tables [tb1, tb2] (some jc) cb = some esm ∧
      (es.map (bindingOf [tb1, tb2])).Perm
        (esm.map (bindingOf [tb1, tb2])) := by
  have hcanon := (join2_handled_canonical htw hjc hnames hh
    (fun x hx y hy hp => ⟨hcb _, hcb _⟩)).1
  have hne12 : tb1.name ≠ tb2.name := by
    have h2 := htw.2
    simp only [List.map_cons, List.map_nil, List.nodup_cons] at h2
    intro hc
    exact h2.1 (by simp [hc])
  have hwf1 : tb1.wf := htw.1 tb1 (by simp)
  have hwf2 : tb2.wf := htw.1 tb2 (by simp)
  have hmem : ∀ tup ∈ productTuples [tb1, tb2],
      ∃ x, x ∈ tb1.rows ∧ ∃ y, y ∈ tb2.rows ∧
        tup = [(tb1.name, x), (tb2.name, y)] := by
    intro tup htup
    rw [productTuples_pair, List.mem_flatMap] at htup
    obtain ⟨x, hx, hm⟩ := htup
    rw [List.mem_map] at hm
    obtain ⟨y, hy, hm2⟩ := hm
    exact ⟨x, hx, y, hy, hm2.symm⟩
  subst hjc
  rcases hnames with ⟨h1, h2⟩ | ⟨h1, h2⟩
  · subst h1
    subst h2
    rcases hl1 : tb1.lookup_column c1 with _ | cid1
    · rw [iterate_two_tables_nolookup rfl
        (by rw [if_neg (fun h => h rfl)]) (Or.inl hl1)] at hh
      simp at hh
    rcases hl2 : tb2.lookup_column c2 with _ | cid2
    · rw [iterate_two_tables_nolookup rfl
        (by rw [if_neg (fun h => h rfl)]) (Or.inr hl2)] at hh
      simp at hh
    obtain ⟨E, J, hbuild⟩ := buildJoinGraph_single_eq lookupTable_pair_fst
      (lookupTable_pair_snd hne12) hl1 hl2 (fun _ _ => false)
      (fun _ _ => none)
    have hev : ∀ tup ∈ productTuples [tb1, tb2],
        (evalBool [tb1, tb2] tup
          (.bin .opEq (.col tb1.name c1) (.col tb2.name c2))).isSome := by
      intro tup htup
      obtain ⟨x, hx, y, hy, htupeq⟩ := hmem tup htup
      subst htupeq
      rw [evalBool_pair_fwd hne12 hwf1 hwf2 hl1 hl2 hx hy]
      rfl
    have hbuild2 : buildJoinGraph [tb1, tb2]
        (extract_and_cond (.bin .opEq (.col tb1.name c1) (.col tb2.name c2)))
        (fun _ _ => false) (fun _ _ => none) = some (E, J) := hbuild
    obtain ⟨esm, hesm, hperm⟩ := iterate_many_tables_enum htw (by simp)
      hbuild2 hev (fun tup htup hp => hcb tup)
    exact ⟨esm, hesm,
      hcanon.trans ((hperm.map (bindingOf [tb1, tb2])).symm)⟩
  · subst h1
    subst h2
    rcases hl1 : tb2.lookup_column c1 with _ | cid1
    · rw [iterate_two_tables_nolookup rfl
        (by rw [if_pos (fun h => hne12 h.symm)]) (Or.inl hl1)] at hh
      simp at hh
    rcases hl2 : tb1.lookup_column c2 with _ | cid2
    · rw [iterate_two_tables_nolookup rfl
        (by rw [if_pos (fun h => hne12 h.symm)]) (Or.inr hl2)] at hh
      simp at hh
    obtain ⟨E, J, hbuild⟩ := buildJoinGraph_single_eq
      (lookupTable_pair_snd hne12) lookupTable_pair_fst hl1 hl2
      (fun _ _ => false) (fun _ _ => none)
    have hev : ∀ tup ∈ productTuples [tb1, tb2],
        (evalBool [tb1, tb2] tup
          (.bin .opEq (.col tb2.name c1) (.col tb1.name c2))).isSome := by
      intro tup htup
      obtain ⟨x, hx, y, hy, htupeq⟩ := hmem tup htup
      subst htupeq
      rw [evalBool_pair_rev hne12 hwf1 hwf2 hl2 hl1 hx hy]
      rfl
    have hbuild2 : buildJoinGraph [tb1, tb2]
        (extract_and_cond (.bin .opEq (.col tb2.name c1) (.col tb1.name c2)))
        (fun _ _ => false) (fun _ _ => none) = some (E, J) := hbuild
    obtain ⟨esm, hesm, hperm⟩ := iterate_many_tables_enum htw (by simp)
      hbuild2 hev (fun tup htup hp => hcb tup)
    exact ⟨esm, hesm,
      hcanon.trans ((hperm.map (bindingOf [tb1, tb2])).symm)⟩

/-- C3 at a concrete input: A(x,y) joined to indexed B(x,z) on A.x = B.x
with an always-true consumer; the index join emits the two matching pairs
and the enumeration path produces the same combinations. -/
theorem C3_index_join_matches_enumeration_witness :
    ∃ esm, iterate_many_tables [exA, exB] (some exCondJoin)
        (fun _ => true) = some esm ∧
      (([[("A", exRowXY 1 10), ("B", exRowXY 1 100)],
         [("A", exRowXY 2 20), ("B", exRowXY 2 200)]] : List Tuple).map
        (bindingOf [exA, exB])).Perm (esm.map (bindingOf [exA, exB])) :=
  C3_index_join_matches_enumeration
    (by simp only [TablesWf, Table.wf]; decide) rfl (Or.inl ⟨rfl, rfl⟩)
    rfl (fun _ => rfl)

/-! ### SELECT row counting (claim C1) -/

/-- A column reference whose table or column fails to resolve evaluates to
a throw whatever the cache holds. -/
theorem eval_col_none {tables : List Table} {cache : Cache} {nm cn : String}
    (h : lookupTable tables nm = none ∨
      ∀ p, lookupTable tables nm = some p →
        (tables.getD p defaultTable).lookup_column cn = none) :
    eval tables cache (.col nm cn) = none := by
  rcases hlt : lookupTable tables nm with _ | p
  · simp [eval, hlt]
  · rcases h with h | h
    · rw [h] at hlt
      exact Option.noConfusion hlt
    · have hc := h p hlt
      rcases hcl : cacheLookup cache nm with _ | row
      · simp [eval, hlt, hcl]
      · simp [eval, hlt, hcl]
        intro a ha
        rw [List.getD_eq_getElem?_getD] at hc
        rw [hc] at ha
        exact Option.noConfusion ha

/-- A binary node with a throwing operand throws. -/
theorem eval_bin_none {tables : List Table} {cache : Cache} {op : Op}
    {l r : Expr}
    (h : eval tables cache l = none ∨ eval tables cache r = none) :
    eval tables cache (.bin op l r) = none := by
  rcases h with h | h
  · simp [eval, h]
  · rcases hl : eval tables cache l with _ | a
    · simp [eval, hl]
    · simp [eval, hl, h]

/-- A throwing top-level conjunct makes the whole condition throw. -/
theorem eval_spine_none {tables : List Table} {cache : Cache} :
    ∀ c : Expr, ∀ c' ∈ extract_and_cond c,
      eval tables cache c' = none → eval tables cache c = none := by
  intro c
  induction c with
  | col t cn =>
    intro c' hm he
    simp [extract_and_cond] at hm
    subst hm
    exact he
  | lit v =>
    intro c' hm he
    simp [extract_and_cond] at hm
    subst hm
    exact he
  | una op l ih =>
    intro c' hm he
    simp [extract_and_cond] at hm
    subst hm
    exact he
  | bin op l r ihl ihr =>
    intro c' hm he
    by_cases hop : op = Op.opAnd
    · subst hop
      rw [show extract_and_cond (.bin .opAnd l r) =
        extract_and_cond l ++ extract_and_cond r from rfl,
        List.mem_append] at hm
      rcases hm with hm | hm
      · exact eval_bin_none (Or.inl (ihl c' hm he))
      · exact eval_bin_none (Or.inr (ihr c' hm he))
    · have hs : extract_and_cond (.bin op l r) = [.bin op l r] := by
        cases op <;> first | (exact absurd rfl hop) | rfl
      rw [hs] at hm
      simp at hm
      subst hm
      exact he

/-- When the join-graph construction reports a resolution error, some
top-level conjunct is an equality of column references that throws on
every cache. -/
theorem buildJoinGraph_none {table_list : List Table} :
    ∀ (cs : List Expr) (E : ℕ → ℕ → Bool) (J : ℕ → ℕ → Option Expr),
      buildJoinGraph table_list cs E J = none →
      ∃ c' ∈ cs, ∀ cache : Cache, eval table_list cache c' = none := by
  intro cs
  induction cs with
  | nil => intro E J h; exact Option.noConfusion h
  | cons c rest ih =>
    intro E J h
    rcases c with ⟨t, cn⟩ | v | ⟨op, l, r⟩ | ⟨op, l⟩
    · obtain ⟨c', hm, hall⟩ := ih E J h
      exact ⟨c', List.mem_cons_of_mem _ hm, hall⟩
    · obtain ⟨c', hm, hall⟩ := ih E J h
      exact ⟨c', List.mem_cons_of_mem _ hm, hall⟩
    · by_cases hop : op = Op.opEq
      · subst hop
        rcases l with ⟨t1n, c1n⟩ | v1 | ⟨o2, l2, r2⟩ | ⟨o2, l2⟩
        rotate_left
        · obtain ⟨c', hm, hall⟩ := ih E J h
          exact ⟨c', List.mem_cons_of_mem _ hm, hall⟩
        · obtain ⟨c', hm, hall⟩ := ih E J h
          exact ⟨c', List.mem_cons_of_mem _ hm, hall⟩
        · obtain ⟨c', hm, hall⟩ := ih E J h
          exact ⟨c', List.mem_cons_of_mem _ hm, hall⟩
        · rcases r with ⟨t2n, c2n⟩ | v2 | ⟨o3, l3, r3⟩ | ⟨o3, l3⟩
          rotate_left
          · obtain ⟨c', hm, hall⟩ := ih E J h
            exact ⟨c', List.mem_cons_of_mem _ hm, hall⟩
          · obtain ⟨c', hm, hall⟩ := ih E J h
            exact ⟨c', List.mem_cons_of_mem _ hm, hall⟩
          · obtain ⟨c', hm, hall⟩ := ih E J h
            exact ⟨c', List.mem_cons_of_mem _ hm, hall⟩
          · rcases hL1 : lookupTable table_list t1n with _ | tid1
            · exact ⟨_, List.mem_cons_self _ _, fun cache =>
                eval_bin_none (Or.inl (eval_col_none (Or.inl hL1)))⟩
            rcases hL2 : lookupTable table_list t2n with _ | tid2
            · exact ⟨_, List.mem_cons_self _ _, fun cache =>
                eval_bin_none (Or.inr (eval_col_none (Or.inl hL2)))⟩
            rcases hC1 : (table_list.getD tid1 defaultTable).lookup_column c1n
              with _ | cid1
            · refine ⟨_, List.mem_cons_self _ _, fun cache =>
                eval_bin_none (Or.inl (eval_col_none (Or.inr
                  fun p hp => ?_)))⟩
              rw [hL1] at hp
              injection hp with e
              rw [← e]
              exact hC1
            rcases hC2 : (table_list.getD tid2 defaultTable).lookup_column c2n
              with _ | cid2
            · refine ⟨_, List.mem_cons_self _ _, fun cache =>
                eval_bin_none (Or.inr (eval_col_none (Or.inr
                  fun p hp => ?_)))⟩
              rw [hL2] at hp
              injection hp with e
              rw [← e]
              exact hC2
            · simp only [buildJoinGraph, hL1, hL2, hC1, hC2] at h
              split at h
              · obtain ⟨c', hm, hall⟩ := ih _ _ h
                exact ⟨c', List.mem_cons_of_mem _ hm, hall⟩
              · obtain ⟨c', hm, hall⟩ := ih _ _ h
                exact ⟨c', List.mem_cons_of_mem _ hm, hall⟩
      · have h2 : buildJoinGraph table_list rest E J = none := by
          cases op <;> first | (exact absurd rfl hop) | exact h
        obtain ⟨c', hm, hall⟩ := ih E J h2
        exact ⟨c', List.mem_cons_of_mem _ hm, hall⟩
    · obtain ⟨c', hm, hall⟩ := ih E J h
      exact ⟨c', List.mem_cons_of_mem _ hm, hall⟩

/-- Counting over a flat map of singletons counts through the builder. -/
theorem countP_flatMap_singleton {α β : Type} (l : List α) (g : α → β)
    (p : β → Bool) :
    (l.flatMap (fun a => [g a])).countP p = l.countP (fun a => p (g a)) := by
  induction l with
  | nil => rfl
  | cons a rest ih =>
    rw [List.flatMap_cons, List.countP_append, ih, List.countP_cons,
      List.countP_cons, List.countP_nil]
    omega

/-- The projection consumer does not depend on the order of the two
bindings in the tuple it receives. -/
theorem projOk_pair_swap {tb1 tb2 : Table} (hne : tb1.name ≠ tb2.name)
    (exprs : List Expr) (x y : Row) :
    projOk [tb1, tb2] exprs [(tb2.name, y), (tb1.name, x)] =
      projOk [tb1, tb2] exprs [(tb1.name, x), (tb2.name, y)] := by
  have hcl : ∀ nm, cacheLookup [(tb2.name, y), (tb1.name, x)] nm =
      cacheLookup [(tb1.name, x), (tb2.name, y)] nm := by
    intro nm
    by_cases e1 : nm = tb1.name
    · subst e1
      rw [cacheLookup_cons_ne (fun hc => hne hc.symm) y _,
        cacheLookup_cons_self, cacheLookup_cons_self]
    · by_cases e2 : nm = tb2.name
      · subst e2
        rw [cacheLookup_cons_self, cacheLookup_cons_ne hne x _,
          cacheLookup_cons_self]
      · rw [cacheLookup_cons_ne (fun hc => e2 hc.symm) y _,
          cacheLookup_cons_ne (fun hc => e1 hc.symm) x _,
          cacheLookup_cons_ne (fun hc => e1 hc.symm) x _,
          cacheLookup_cons_ne (fun hc => e2 hc.symm) y _]
  rw [projOk, projOk]
  have h2 : (fun e => (eval [tb1, tb2]
      [(tb2.name, y), (tb1.name, x)] e).isSome) =
      (fun e => (eval [tb1, tb2]
        [(tb1.name, x), (tb2.name, y)] e).isSome) := by
    funext e
    rw [eval_congr e (fun nm hm => hcl nm)]
  rw [h2]

/-- Inverting a non-trivial join-condition discovery. -/
theorem get_join_cond_inv {c jc : Expr}
    (h : get_join_cond (some c) = some (some jc)) :
    jc = c ∧ ∃ op n1 c1 n2 c2,
      c = .bin op (.col n1 c1) (.col n2 c2) := by
  cases c with
  | col t cn => simp [get_join_cond] at h
  | lit v => simp [get_join_cond] at h
  | una op l => cases l <;> simp [get_join_cond] at h
  | bin op l r =>
    cases l with
    | col n1 c1 =>
      cases r with
      | col n2 c2 =>
        rw [get_join_cond] at h
        have h2 : some (some (Expr.bin op (.col n1 c1) (.col n2 c2))) =
            some (some jc) := h
        injection h2 with h3
        injection h3 with h4
        exact ⟨h4.symm, op, n1, c1, n2, c2, rfl⟩
      | lit v => simp [get_join_cond] at h
      | una o2 l2 => simp [get_join_cond] at h
      | bin o2 l2 r2 => simp [get_join_cond] at h
    | lit v => cases r <;> simp [get_join_cond] at h
    | una o2 l2 => cases r <;> simp [get_join_cond] at h
    | bin o2 l2 r2 => cases r <;> simp [get_join_cond] at h

/-- The two-table strategy declines a condition with no discovered join
node. -/
theorem iterate_two_tables_jcnone {tables : List Table} {tb1 tb2 : Table}
    {cond : Option Expr} {cb : Tuple → Bool}
    (h : get_join_cond cond = some none) :
    iterate_two_tables_with_joint_cond_equal tables tb1 tb2 cond cb =
      some .declined := by
  simp only [iterate_two_tables_with_joint_cond_equal, h]

/-- The two-table strategy declines a non-equality join node. -/
theorem iterate_two_tables_neq_op {tables : List Table} {tb1 tb2 : Table}
    {op : Op} {n1 c1 n2 c2 : String} {cb : Tuple → Bool} {jc : Expr}
    (hjc : jc = .bin op (.col n1 c1) (.col n2 c2)) (hop : op ≠ Op.opEq) :
    iterate_two_tables_with_joint_cond_equal tables tb1 tb2 (some jc) cb =
      some .declined := by
  subst hjc
  simp only [iterate_two_tables_with_joint_cond_equal, get_join_cond]
  rw [if_pos hop]

/-- Once a join node is discovered the two-table strategy returns a
verdict: only a null condition pointer makes it throw. -/
theorem iterate_two_tables_isSome {tables : List Table} {tb1 tb2 : Table}
    {cond : Option Expr} {cb : Tuple → Bool} {oc : Option Expr}
    (h : get_join_cond cond = some oc) :
    (iterate_two_tables_with_joint_cond_equal tables tb1 tb2
      cond cb).isSome := by
  rcases oc with _ | jc
  · rw [iterate_two_tables_jcnone h]
    rfl
  rcases cond with _ | c
  · exact Option.noConfusion (Option.some.inj h)
  obtain ⟨hjc, op, n1, c1, n2, c2, hcs⟩ := get_join_cond_inv h
  subst hcs
  subst hjc
  by_cases hop : op = Op.opEq
  · subst hop
    have hpp : (if n1 ≠ tb1.name then (tb2, tb1) else (tb1, tb2)) =
        ((if n1 ≠ tb1.name then (tb2, tb1) else (tb1, tb2)).1,
         (if n1 ≠ tb1.name then (tb2, tb1) else (tb1, tb2)).2) := rfl
    rcases hl1 : (if n1 ≠ tb1.name then (tb2, tb1)
        else (tb1, tb2)).1.lookup_column c1 with _ | cid1
    · rw [iterate_two_tables_nolookup rfl hpp (Or.inl hl1)]
      rfl
    rcases hl2 : (if n1 ≠ tb1.name then (tb2, tb1)
        else (tb1, tb2)).2.lookup_column c2 with _ | cid2
    · rw [iterate_two_tables_nolookup rfl hpp (Or.inr hl2)]
      rfl
    rw [iterate_two_tables_handled_eq rfl hpp hl1 hl2]
    repeat' split
    all_goals rfl
  · rw [iterate_two_tables_neq_op rfl hop]
    rfl

/-- The two-table dispatch of dbms::iterate as an equation. -/
theorem iterate_pair_eq {tb1 tb2 : Table} {cond : Option Expr}
    {cb : Tuple → Bool} :
    iterate [tb1, tb2] cond cb =
      match iterate_two_tables_with_joint_cond_equal [tb1, tb2] tb1 tb2
          cond cb with
      | none => none
      | some (.handled es) => some es
      | some .declined => iterate_many_tables [tb1, tb2] cond cb := rfl

/-- The enumeration path under the C1 hypotheses: it succeeds and the
consumer-accepted count is the passing count, a resolution error counting
zero on both sides. -/
theorem many_count {tables : List Table} {c : Expr} {exprs : List Expr}
    (htw : TablesWf tables) (hn : 0 < tables.length)
    (hev : ∀ tup ∈ productTuples tables, (evalBool tables tup c).isSome)
    (hproj : ∀ tup ∈ productTuples tables,
      passes tables (some c) tup = true → projOk tables exprs tup = true) :
    ∃ es, iterate_many_tables tables (some c) (projOk tables exprs) =
        some es ∧
      es.countP (projOk tables exprs) = passingCount tables (some c) := by
  rcases hb : buildJoinGraph tables (extract_and_cond c)
      (fun _ _ => false) (fun _ _ => none) with _ | ⟨E, J⟩
  · refine ⟨[], ?_, ?_⟩
    · simp only [iterate_many_tables, hb]
    · obtain ⟨c', hm, hall⟩ := buildJoinGraph_none _ _ _ hb
      rw [List.countP_nil, passingCount]
      symm
      rw [List.countP_eq_zero]
      intro tup htup
      have hns : eval tables tup c = none :=
        eval_spine_none c c' hm (hall tup)
      have hbool : evalBool tables tup c = none := by
        rw [evalBool, hns]
        rfl
      simp [passes, hbool]
  · obtain ⟨es, hes, hperm⟩ := iterate_many_tables_enum htw hn hb hev
      (fun tup htup hp => hproj tup htup (decide_eq_true hp))
    refine ⟨es, hes, ?_⟩
    have hall : ∀ e ∈ es, projOk tables exprs e = true := by
      intro e he
      have hm := hperm.mem_iff.mp he
      rw [List.mem_filter] at hm
      exact hproj e hm.1 hm.2
    rw [List.countP_eq_length.mpr hall, hperm.length_eq, passingCount,
      List.countP_eq_length_filter]
    congr 1

/-- The scalar SELECT path as an equation: stream the iterator into the
projection consumer and count the accepted tuples. -/
theorem select_rows_scalar {tables : List Table} {exprs : List Expr}
    {cond : Option Expr} (hagg : exprs.any Expr.isAgg = false) :
    select_rows tables exprs cond =
      (iterate tables cond (projOk tables exprs)).map
        (fun es => .rows (es.countP (projOk tables exprs))) := by
  have h0 : select_rows tables exprs cond =
      (if exprs.any Expr.isAgg then select_rows_aggregate tables exprs cond
       else match iterate tables cond (projOk tables exprs) with
         | none => none
         | some es => some (.rows (es.countP (projOk tables exprs)))) := rfl
  rw [h0, if_neg (fun hc => Bool.false_ne_true (hagg.symm.trans hc))]
  rcases hx : iterate tables cond (projOk tables exprs) with _ | es
  · rfl
  · rfl

/-- C1 counterexample: a SELECT from two tables with an absent predicate.
The claim promises the full Cartesian product (6 rows, NULL ≡ TRUE), but
dbms::iterate sends two tables with a null condition into the many-table
path, which dereferences the null pointer before iterating (claim C9):
the statement crashes instead of printing 6 rows. -/
theorem C1_counterexample :
    select_rows [exA, exB2] [.col "A" "x"] none = none ∧
      passingCount [exA, exB2] none = 6 := ⟨rfl, rfl⟩

/-- C1 (corrected): the scalar SELECT prints exactly the count of
product tuples the predicate passes, under the conditions the code
actually needs: the predicate must be present when two or more tables are
listed (NULL ≡ TRUE survives only on the single-table path); on exactly
two tables the join-condition discovery must not dereference a null child
(get_join_cond defined) and an equality of two column references must name
the two listed tables; the predicate must evaluate without throwing on
every product tuple; and the projections must evaluate on every passing
tuple. -/
theorem C1_select_count {tables : List Table} {exprs : List Expr}
    {cond : Option Expr}
    (htw : TablesWf tables) (hn : 0 < tables.length)
    (hagg : exprs.any Expr.isAgg = false)
    (hc2 : 2 ≤ tables.length → cond.isSome)
    (hshape2 : ∀ tb1 tb2 c, tables = [tb1, tb2] → cond = some c →
      (get_join_cond (some c)).isSome ∧
      ∀ n1 c1 n2 c2, c = .bin .opEq (.col n1 c1) (.col n2 c2) →
        (n1 = tb1.name ∧ n2 = tb2.name) ∨ (n1 = tb2.name ∧ n2 = tb1.name))
    (hev : ∀ c, cond = some c → ∀ tup ∈ productTuples tables,
      (evalBool tables tup c).isSome)
    (hproj : ∀ tup ∈ productTuples tables, passes tables cond tup = true →
      projOk tables exprs tup = true) :
    select_rows tables exprs cond =
      some (.rows (passingCount tables cond)) := by
  rw [select_rows_scalar hagg]
  rcases tables with _ | ⟨t1, rest1⟩
  · simp at hn
  rcases rest1 with _ | ⟨t2, rest2⟩
  · have hprod : productTuples [t1] = t1.rows.flatMap
        (fun r => [[(t1.name, r)]]) := by
      simp [productTuples]
    have hmem1 : ∀ r ∈ t1.rows,
        ([(t1.name, r)] : Tuple) ∈ productTuples [t1] := by
      intro r hr
      rw [hprod, List.mem_flatMap]
      exact ⟨r, hr, by simp⟩
    have hloop : oneTableLoop [t1] t1 cond
        (fun r => projOk [t1] exprs [(t1.name, r)]) t1.rows =
        t1.rows.filter (fun r => passes [t1] cond [(t1.name, r)]) :=
      oneTableLoop_filter t1.rows
        (fun r hr cc hcc => hev cc hcc [(t1.name, r)] (hmem1 r hr))
        (fun r hr hp => hproj [(t1.name, r)] (hmem1 r hr) hp)
    have hit : iterate [t1] cond (projOk [t1] exprs) =
        some ((t1.rows.filter
          (fun r => passes [t1] cond [(t1.name, r)])).map
            (fun r => [(t1.name, r)])) := by
      show some ((iterate_one_table [t1] t1 cond
        (fun r => projOk [t1] exprs [(t1.name, r)])).map
          (fun r => [(t1.name, r)])) = _
      rw [iterate_one_table, hloop]
    rw [hit]
    have hcount : ((t1.rows.filter
        (fun r => passes [t1] cond [(t1.name, r)])).map
          (fun r => ([(t1.name, r)] : Tuple))).countP
            (projOk [t1] exprs) = passingCount [t1] cond := by
      rw [List.countP_map]
      have hallp : ∀ r ∈ t1.rows.filter
          (fun r => passes [t1] cond [(t1.name, r)]),
          ((projOk [t1] exprs) ∘ (fun r => ([(t1.name, r)] : Tuple))) r
            = true := by
        intro r hrf
        rw [List.mem_filter] at hrf
        exact hproj [(t1.name, r)] (hmem1 r hrf.1) hrf.2
      rw [List.countP_eq_length.mpr hallp, ← List.countP_eq_length_filter,
        passingCount, hprod, countP_flatMap_singleton]
    exact congrArg (fun n => some (SelectOut.rows n)) hcount
  rcases rest2 with _ | ⟨t3, rest3⟩
  · obtain ⟨c, hc⟩ := Option.isSome_iff_exists.mp (hc2 (by simp))
    subst hc
    obtain ⟨hgj, hsh⟩ := hshape2 t1 t2 c rfl rfl
    have hne12 : t1.name ≠ t2.name := by
      have h2 := htw.2
      simp only [List.map_cons, List.map_nil, List.nodup_cons] at h2
      intro hc0
      exact h2.1 (by simp [hc0])
    rcases hgjc : get_join_cond (some c) with _ | oc
    · rw [hgjc] at hgj
      exact absurd hgj (by simp)
    rcases oc with _ | jc
    · obtain ⟨es, hes, hcnt⟩ := many_count htw (by simp) (hev c rfl) hproj
      have hx : iterate [t1, t2] (some c) (projOk [t1, t2] exprs) =
          some es := by
        rw [iterate_pair_eq, iterate_two_tables_jcnone hgjc]
        exact hes
      rw [hx]
      exact congrArg (fun n => some (SelectOut.rows n)) hcnt
    obtain ⟨hjceq, op, n1, c1, n2, c2, hcs⟩ := get_join_cond_inv hgjc
    subst hcs
    subst hjceq
    by_cases hop : op = Op.opEq
    · subst hop
      have hnames := hsh n1 c1 n2 c2 rfl
      rcases h2t : iterate_two_tables_with_joint_cond_equal [t1, t2] t1 t2
          (some (.bin .opEq (.col n1 c1) (.col n2 c2)))
          (projOk [t1, t2] exprs) with _ | j2
      · have hs := @iterate_two_tables_isSome [t1, t2] t1 t2
          (some (.bin .opEq (.col n1 c1) (.col n2 c2)))
          (projOk [t1, t2] exprs)
          (some (.bin .opEq (.col n1 c1) (.col n2 c2))) hgjc
        rw [h2t] at hs
        simp at hs
      rcases j2 with _ | es
      · obtain ⟨es, hes, hcnt⟩ := many_count htw (by simp)
          (hev _ rfl) hproj
        have hx : iterate [t1, t2] (some (.bin .opEq (.col n1 c1)
            (.col n2 c2))) (projOk [t1, t2] exprs) = some es := by
          rw [iterate_pair_eq, h2t]
          exact hes
        rw [hx]
        exact congrArg (fun n => some (SelectOut.rows n)) hcnt
      · have hwf1 : t1.wf := htw.1 t1 (by simp)
        have hwf2 : t2.wf := htw.1 t2 (by simp)
        have hcbM : ∀ x ∈ t1.rows, ∀ y ∈ t2.rows,
            evalBool [t1, t2] [(t1.name, x), (t2.name, y)]
              (.bin .opEq (.col n1 c1) (.col n2 c2)) = some true →
            projOk [t1, t2] exprs [(t1.name, x), (t2.name, y)] = true ∧
              projOk [t1, t2] exprs [(t2.name, y), (t1.name, x)] = true := by
          intro x hx y hy hp
          have hmemp : ([(t1.name, x), (t2.name, y)] : Tuple) ∈
              productTuples [t1, t2] := by
            rw [productTuples_pair, List.mem_flatMap]
            exact ⟨x, hx, List.mem_map.mpr ⟨y, hy, rfl⟩⟩
          have hcan := hproj _ hmemp (decide_eq_true hp)
          exact ⟨hcan, by
            rw [projOk_pair_swap hne12]
            exact hcan⟩
        obtain ⟨hpermC, hshapeC⟩ := join2_handled_canonical htw rfl
          hnames h2t hcbM
        have hall : ∀ e ∈ es, projOk [t1, t2] exprs e = true := by
          intro e he
          obtain ⟨x, hx, y, hy, hpv, hor⟩ := hshapeC e he
          have hmemp : ([(t1.name, x), (t2.name, y)] : Tuple) ∈
              productTuples [t1, t2] := by
            rw [productTuples_pair, List.mem_flatMap]
            exact ⟨x, hx, List.mem_map.mpr ⟨y, hy, rfl⟩⟩
          have hcan := hproj _ hmemp (decide_eq_true hpv)
          rcases hor with h | h
          · rw [h]
            exact hcan
          · rw [h, projOk_pair_swap hne12]
            exact hcan
        have h1 : es.countP (projOk [t1, t2] exprs) = es.length :=
          List.countP_eq_length.mpr hall
        have h2 : es.length = ((productTuples [t1, t2]).filter
            (fun tup => decide (evalBool [t1, t2] tup
              (.bin .opEq (.col n1 c1) (.col n2 c2)) =
                some true))).length := by
          have h3 := hpermC.length_eq
          rw [List.length_map, List.length_map] at h3
          exact h3
        have hx : iterate [t1, t2] (some (.bin .opEq (.col n1 c1)
            (.col n2 c2))) (projOk [t1, t2] exprs) = some es := by
          rw [iterate_pair_eq, h2t]
        rw [hx]
        have hfin : es.countP (projOk [t1, t2] exprs) =
            passingCount [t1, t2]
              (some (.bin .opEq (.col n1 c1) (.col n2 c2))) := by
          rw [h1, h2, passingCount, List.countP_eq_length_filter]
          congr 1
        exact congrArg (fun n => some (SelectOut.rows n)) hfin
    · obtain ⟨es, hes, hcnt⟩ := many_count htw (by simp)
        (hev _ rfl) hproj
      have hx : iterate [t1, t2] (some (.bin op (.col n1 c1)
          (.col n2 c2))) (projOk [t1, t2] exprs) = some es := by
        rw [iterate_pair_eq, iterate_two_tables_neq_op rfl hop]
        exact hes
      rw [hx]
      exact congrArg (fun n => some (SelectOut.rows n)) hcnt
  · obtain ⟨c, hc⟩ := Option.isSome_iff_exists.mp
      (hc2 (by simp only [List.length_cons]; omega))
    subst hc
    obtain ⟨es, hes, hcnt⟩ := many_count htw (by simp) (hev c rfl) hproj
    have hx : iterate (t1 :: t2 :: t3 :: rest3) (some c)
        (projOk (t1 :: t2 :: t3 :: rest3) exprs) = some es := hes
    rw [hx]
    exact congrArg (fun n => some (SelectOut.rows n)) hcnt

/-- C1 witness: the corrected count theorem at the indexed join of A and
B on x, selecting A.y. -/
theorem C1_select_count_witness :
    select_rows [exA, exB] [.col "A" "y"] (some exCondJoin) =
      some (.rows (passingCount [exA, exB] (some exCondJoin))) :=
  C1_select_count (by simp only [TablesWf, Table.wf]; decide) (by decide)
    rfl (fun _ => rfl)
    (by
      intro tb1 tb2 c h1 h2
      injection h1 with e1 h1b
      injection h1b with e2 h1c
      injection h2 with e3
      subst e1
      subst e2
      subst e3
      refine ⟨rfl, ?_⟩
      intro n1 c1 n2 c2 hcx
      have hcx2 : Expr.bin .opEq (.col "A" "x") (.col "B" "x") =
          .bin .opEq (.col n1 c1) (.col n2 c2) := hcx
      injection hcx2 with e4 e5 e6
      injection e5 with e7 e8
      injection e6 with e9 e10
      exact Or.inl ⟨e7.symm, e9.symm⟩)
    (by
      intro c hcc
      injection hcc with e3
      subst e3
      decide)
    (by decide)

end TrivialDB
